import Mathlib

/-!
# Verification of the mavity graph-layout engine against its specification

This file contains a shallow embedding, in Lean 4, of the per-tick GPGPU
pipeline of the mavity force-directed graph-layout engine:

* the orchestrator construction parameters (src/graph/layout.js),
* the identity-mirror kernel (src/graph/k-identity-mirror.js),
* the chunked bitonic sort encoder (KSortEncoder),
* the particle reshuffle kernel (src/graph/k-particle-reshuffle.js),
* the physics integrator (src/graph/k-physics-simulation.js),
* the CSR prefix-sum kernel (KEdgePrefixSum),
* the coarse-map kernel (KEdgeCoarseMap),
* the edge-relocation kernel (KEdgeRelocation),

together with theorems settling the frozen claims C1 to C10.

Modelling conventions.  The GPU 2D textures address texels by
(i % width, i / width); every kernel first linearises gl_FragCoord back to
the flat index i, so a texture is modelled as a map from the flat index to
its value.  Float-stored integers (edge pointers, edge store, PIDs), read
back in the shaders through floor(x + 0.5), are modelled as integers.
JavaScript numbers appearing in the constructor are modelled as rationals,
SFC sort keys as rationals (only their ordering is used by the sort), and
the physics arithmetic over reals.  Loops are modelled as folds over
List.range in source order; a GLSL break is modelled by making the
remaining iterations act as the identity.
-/

set_option maxRecDepth 40000
set_option maxHeartbeats 1000000

namespace Mavity

/-! ## Generic helpers -/

/-- `f` permutes the initial segment `[0, n)`: it maps the segment into
itself and is injective there. -/
def PermOn (f : Nat → Nat) (n : Nat) : Prop :=
  (∀ i, i < n → f i < n) ∧ ∀ i, i < n → ∀ j, j < n → f i = f j → i = j

theorem PermOn.surj {f : Nat → Nat} {n : Nat} (h : PermOn f n) :
    ∀ p, p < n → ∃ i, i < n ∧ f i = p := by
  intro p hp
  classical
  let s : Finset Nat := (Finset.range n).image f
  have hsub : s ⊆ Finset.range n := by
    intro x hx
    rcases Finset.mem_image.mp hx with ⟨i, hi, rfl⟩
    exact Finset.mem_range.mpr (h.1 i (Finset.mem_range.mp hi))
  have hcard : (Finset.range n).card ≤ s.card := by
    have : s.card = (Finset.range n).card := by
      apply Finset.card_image_of_injOn
      intro a ha b hb hab
      exact h.2 a (Finset.mem_range.mp ha) b (Finset.mem_range.mp hb) hab
    omega
  have : s = Finset.range n := Finset.eq_of_subset_of_card_le hsub hcard
  have hp' : p ∈ s := this ▸ Finset.mem_range.mpr hp
  rcases Finset.mem_image.mp hp' with ⟨i, hi, hfi⟩
  exact ⟨i, Finset.mem_range.mp hi, hfi⟩

theorem PermOn.map_range_perm {f : Nat → Nat} {n : Nat} (h : PermOn f n) :
    ((List.range n).map f).Perm (List.range n) := by
  classical
  have hinj : Set.InjOn f (Finset.range n) := by
    intro a ha b hb hab
    exact h.2 a (Finset.mem_range.mp (Finset.mem_coe.mp ha)) b
      (Finset.mem_range.mp (Finset.mem_coe.mp hb)) hab
  have himg : (Finset.range n).image f = Finset.range n := by
    apply Finset.eq_of_subset_of_card_le
    · intro x hx
      rcases Finset.mem_image.mp hx with ⟨i, hi, rfl⟩
      exact Finset.mem_range.mpr (h.1 i (Finset.mem_range.mp hi))
    · have := Finset.card_image_of_injOn hinj
      omega
  have hval : ((Finset.range n).image f).val = (Finset.range n).val.map f :=
    Finset.image_val_of_injOn hinj
  have hcoe : ((List.range n).map f : Multiset Nat) = (List.range n : Multiset Nat) := by
    have hr : (Finset.range n).val = (List.range n : Multiset Nat) := by
      rw [Finset.range_val]
      rfl
    calc ((List.range n).map f : Multiset Nat)
        = Multiset.map f (List.range n : Multiset Nat) := (Multiset.map_coe f _).symm
      _ = Multiset.map f (Finset.range n).val := by rw [hr]
      _ = ((Finset.range n).image f).val := hval.symm
      _ = (Finset.range n).val := by rw [himg]
      _ = (List.range n : Multiset Nat) := hr
  exact Quotient.exact hcoe

/-- Sum over `[0, n)` is invariant under composing with a permutation of
`[0, n)`. -/
theorem PermOn.sum_comp {M : Type*} [AddCommMonoid M] {f : Nat → Nat} {n : Nat}
    (h : PermOn f n) (g : Nat → M) :
    ∑ i ∈ Finset.range n, g (f i) = ∑ p ∈ Finset.range n, g p := by
  classical
  have hperm := h.map_range_perm
  have h1 : ∑ i ∈ Finset.range n, g (f i) = (((List.range n).map f).map g).sum := by
    rw [List.map_map]
    rw [Finset.sum_range]
    rw [← List.sum_ofFn]
    congr 1
    apply List.ext_getElem
    · simp
    · intro i h1 h2
      simp
  have h2 : ∑ p ∈ Finset.range n, g p = ((List.range n).map g).sum := by
    rw [Finset.sum_range, ← List.sum_ofFn]
    congr 1
    apply List.ext_getElem
    · simp
    · intro i h1 h2
      simp
  rw [h1, h2]
  exact (hperm.map g).sum_eq

/-- Fuel-driven ceiling of log base 2 (the number of Hillis-Steele passes
`Math.ceil(Math.log2(n))` issued by the prefix-sum kernel). -/
def ceilLog2Fuel : Nat → Nat → Nat
  | 0, _ => 0
  | fuel + 1, n => if n ≤ 1 then 0 else ceilLog2Fuel fuel ((n + 1) / 2) + 1

def ceilLog2 (n : Nat) : Nat := ceilLog2Fuel n n

theorem ceilLog2Fuel_adequate :
    ∀ fuel n, n ≤ fuel + 1 → n ≤ 2 ^ ceilLog2Fuel fuel n := by
  intro fuel
  induction fuel with
  | zero =>
    intro n hn
    interval_cases n <;> simp [ceilLog2Fuel]
  | succ fuel ih =>
    intro n hn
    by_cases h1 : n ≤ 1
    · simpa [ceilLog2Fuel, h1] using h1.trans (by norm_num)
    · have hrec := ih ((n + 1) / 2) (by omega)
      simp only [ceilLog2Fuel, h1, if_false]
      have : n ≤ 2 * ((n + 1) / 2) := by omega
      calc n ≤ 2 * ((n + 1) / 2) := this
        _ ≤ 2 * 2 ^ ceilLog2Fuel fuel ((n + 1) / 2) := by omega
        _ = 2 ^ (ceilLog2Fuel fuel ((n + 1) / 2) + 1) := by ring

theorem le_two_pow_ceilLog2 (n : Nat) : n ≤ 2 ^ ceilLog2 n :=
  ceilLog2Fuel_adequate n n (by omega)

/-! ## GraphLayout constructor (src/graph/layout.js, lines 34-76)

The constructor destructures `edgeCoarseMapStride`, `gravityWindow`, `dt`,
`G`, `springK`, `eps` and `sfcResolution` from its options object (there is
no `damping` binder), then assigns:

    this.edgeCoarseMapStride = edgeCoarseMapStride || 128;
    this.gravityWindow = gravityWindow || 16;
    this.dt = dt || 0.016;
    this.G = G !== undefined ? G : -0.0001;
    this.springK = springK !== undefined ? springK : 1.0;
    this.eps = eps !== undefined ? eps : 0.1;
    this.damping = 0.002;
    this.sfcResolution = sfcResolution || 64.0;

An omitted option is `undefined`, modelled by `none`; a supplied numeric
value `v` is `some v`.  JavaScript `x || d` on numbers yields `d` exactly
when `x` is falsy, which for a (non-NaN) number means `x = 0`. -/

structure LayoutOptions where
  edgeCoarseMapStride : Option ℚ
  gravityWindow : Option ℚ
  dt : Option ℚ
  G : Option ℚ
  springK : Option ℚ
  eps : Option ℚ
  damping : Option ℚ
  sfcResolution : Option ℚ

structure GraphLayoutParams where
  edgeCoarseMapStride : ℚ
  gravityWindow : ℚ
  dt : ℚ
  G : ℚ
  springK : ℚ
  eps : ℚ
  damping : ℚ
  sfcResolution : ℚ

/-- JavaScript `x || d` for an optional number `x`. -/
def jsOrDefault (x : Option ℚ) (d : ℚ) : ℚ :=
  match x with
  | none => d
  | some v => if v = 0 then d else v

/-- JavaScript `x !== undefined ? x : d` for an optional number `x`. -/
def jsUndefDefault (x : Option ℚ) (d : ℚ) : ℚ :=
  match x with
  | none => d
  | some v => v

def GraphLayout.construct (o : LayoutOptions) : GraphLayoutParams :=
  { edgeCoarseMapStride := jsOrDefault o.edgeCoarseMapStride 128
    gravityWindow := jsOrDefault o.gravityWindow 16
    dt := jsOrDefault o.dt (16 / 1000)
    G := jsUndefDefault o.G (-(1 / 10000))
    springK := jsUndefDefault o.springK 1
    eps := jsUndefDefault o.eps (1 / 10)
    damping := 2 / 1000
    sfcResolution := jsOrDefault o.sfcResolution 64 }

/-- An options object supplying `damping = 0.01` (and nothing else). -/
def dampingOnlyOptions : LayoutOptions :=
  { edgeCoarseMapStride := none, gravityWindow := none, dt := none, G := none
    springK := none, eps := none, damping := some (1 / 100)
    sfcResolution := none }

/-- Claim C9, counterexample: constructing with an explicit
`damping = 0.01` does not override the default: the engine still has
`damping = 0.002`, because the constructor never reads a `damping`
option (`this.damping = 0.002` is hard-coded at src/graph/layout.js:72). -/
theorem C9_counterexample :
    (GraphLayout.construct dampingOnlyOptions).damping ≠ 1 / 100 := by
  simp only [GraphLayout.construct, dampingOnlyOptions]
  norm_num

/-- Claim C9 (amended): the constructor accepts the optional parameters
`edgeCoarseMapStride`, `gravityWindow`, `dt`, `G`, `springK`, `eps` and
`sfcResolution`, with defaults 128, 16, 0.016, -0.0001, 1.0, 0.1 and 64.0
when a parameter is omitted, and a supplied value overrides the default
(a nonzero value, for the four parameters defaulted with the `||`
operator); `damping` is not a constructor parameter: the engine's damping
is 0.002 regardless of any supplied `damping` value. -/
theorem C9_constructor_defaults (o : LayoutOptions) :
    (o.edgeCoarseMapStride = none →
      (GraphLayout.construct o).edgeCoarseMapStride = 128) ∧
    (∀ v, v ≠ 0 → o.edgeCoarseMapStride = some v →
      (GraphLayout.construct o).edgeCoarseMapStride = v) ∧
    (o.gravityWindow = none → (GraphLayout.construct o).gravityWindow = 16) ∧
    (∀ v, v ≠ 0 → o.gravityWindow = some v →
      (GraphLayout.construct o).gravityWindow = v) ∧
    (o.dt = none → (GraphLayout.construct o).dt = 16 / 1000) ∧
    (∀ v, v ≠ 0 → o.dt = some v → (GraphLayout.construct o).dt = v) ∧
    (o.G = none → (GraphLayout.construct o).G = -(1 / 10000)) ∧
    (∀ v, o.G = some v → (GraphLayout.construct o).G = v) ∧
    (o.springK = none → (GraphLayout.construct o).springK = 1) ∧
    (∀ v, o.springK = some v → (GraphLayout.construct o).springK = v) ∧
    (o.eps = none → (GraphLayout.construct o).eps = 1 / 10) ∧
    (∀ v, o.eps = some v → (GraphLayout.construct o).eps = v) ∧
    (o.sfcResolution = none → (GraphLayout.construct o).sfcResolution = 64) ∧
    (∀ v, v ≠ 0 → o.sfcResolution = some v →
      (GraphLayout.construct o).sfcResolution = v) ∧
    (GraphLayout.construct o).damping = 2 / 1000 := by
  refine ⟨?_, ?_, ?_, ?_, ?_, ?_, ?_, ?_, ?_, ?_, ?_, ?_, ?_, ?_, rfl⟩ <;>
    first
      | (intro h
         simp [GraphLayout.construct, jsOrDefault, jsUndefDefault, h])
      | (intro v hv h
         simp [GraphLayout.construct, jsOrDefault, jsUndefDefault, h, hv])
      | (intro v h
         simp [GraphLayout.construct, jsOrDefault, jsUndefDefault, h])

/-- An options object supplying the value 7 for every parameter. -/
def allSevenOptions : LayoutOptions :=
  { edgeCoarseMapStride := some 7, gravityWindow := some 7, dt := some 7
    G := some 7, springK := some 7, eps := some 7, damping := some 7
    sfcResolution := some 7 }

/-- Witness for `C9_constructor_defaults` at a concrete options object. -/
theorem C9_constructor_defaults_witness :
    ((7 : ℚ) ≠ 0 ∧ allSevenOptions.dt = some 7) ∧
      (GraphLayout.construct allSevenOptions).dt = 7 ∧
      (GraphLayout.construct allSevenOptions).damping = 2 / 1000 :=
  ⟨⟨by norm_num, rfl⟩,
    (C9_constructor_defaults allSevenOptions).2.2.2.2.2.1 7 (by norm_num) rfl,
    (C9_constructor_defaults allSevenOptions).2.2.2.2.2.2.2.2.2.2.2.2.2.2⟩

/-- Claim C10: `dt`, `gravityWindow`, `edgeCoarseMapStride` and
`sfcResolution` are defaulted with the JavaScript `||` operator, so an
explicit 0 yields the default instead of 0 (dt = 0 produces an engine with
dt = 0.016), whereas `G`, `springK` and `eps` are compared against
`undefined` and honor an explicit 0. -/
theorem C10_zero_semantics (o : LayoutOptions) :
    (o.dt = some 0 → (GraphLayout.construct o).dt = 16 / 1000) ∧
    (o.gravityWindow = some 0 → (GraphLayout.construct o).gravityWindow = 16) ∧
    (o.edgeCoarseMapStride = some 0 →
      (GraphLayout.construct o).edgeCoarseMapStride = 128) ∧
    (o.sfcResolution = some 0 → (GraphLayout.construct o).sfcResolution = 64) ∧
    (o.G = some 0 → (GraphLayout.construct o).G = 0) ∧
    (o.springK = some 0 → (GraphLayout.construct o).springK = 0) ∧
    (o.eps = some 0 → (GraphLayout.construct o).eps = 0) := by
  refine ⟨?_, ?_, ?_, ?_, ?_, ?_, ?_⟩ <;>
    (intro h; simp [GraphLayout.construct, jsOrDefault, jsUndefDefault, h])

/-- An options object supplying 0 for every parameter. -/
def allZeroOptions : LayoutOptions :=
  { edgeCoarseMapStride := some 0, gravityWindow := some 0, dt := some 0
    G := some 0, springK := some 0, eps := some 0, damping := some 0
    sfcResolution := some 0 }

/-- Witness for `C10_zero_semantics` at a concrete options object. -/
theorem C10_zero_semantics_witness :
    allZeroOptions.dt = some 0 ∧
      (GraphLayout.construct allZeroOptions).dt = 16 / 1000 ∧
      (GraphLayout.construct allZeroOptions).G = 0 :=
  ⟨rfl, (C10_zero_semantics allZeroOptions).1 rfl,
    (C10_zero_semantics allZeroOptions).2.2.2.2.1 rfl⟩

/-! ## KIdentityMirror (src/graph/k-identity-mirror.js)

The kernel clears its target texture to -1, then renders one point per
particle slot `i < N`; the vertex shader reads `pid = floor(idMass[i].x
+ 0.5)` and rasterises the point onto the texel `(pid % W, pid / W)`,
whose flat index is `pid`; the fragment shader writes `float(i)`.  A point
whose target row `pid / W` lies outside the `W x H` texture is clipped, so
the write lands exactly when `pid < W * H`.  The points are emitted in slot
order, so the model folds the writes over `List.range N` on top of the
cleared texture. -/

def identityMirror (N WH : Nat) (pid : Nat → Nat) : Nat → Int :=
  (List.range N).foldl
    (fun acc i => if pid i < WH then Function.update acc (pid i) (i : Int) else acc)
    (fun _ => (-1 : Int))

theorem identityMirror_foldl_unwritten (N WH : Nat) (pid : Nat → Nat)
    (acc : Nat → Int) (j : Nat) (hj : ∀ i, i < N → pid i ≠ j) :
    ((List.range N).foldl
      (fun acc i => if pid i < WH then Function.update acc (pid i) (i : Int) else acc)
      acc) j = acc j := by
  induction N generalizing acc with
  | zero => simp
  | succ n ih =>
    rw [List.range_succ, List.foldl_append]
    simp only [List.foldl_cons, List.foldl_nil]
    have tail := ih acc (fun i hi => hj i (by omega))
    by_cases h : pid n < WH
    · simp only [h, if_true]
      rw [Function.update_noteq (Ne.symm (hj n (by omega)))]
      exact tail
    · simp only [h, if_false]
      exact tail

theorem identityMirror_of_unused (N WH : Nat) (pid : Nat → Nat) (j : Nat)
    (hj : ∀ i, i < N → pid i ≠ j) :
    identityMirror N WH pid j = -1 :=
  identityMirror_foldl_unwritten N WH pid _ j hj

theorem identityMirror_at (N WH : Nat) (pid : Nat → Nat)
    (hdist : ∀ i, i < N → ∀ j, j < N → pid i = pid j → i = j)
    (i : Nat) (hi : i < N) (hpid : pid i < WH) :
    identityMirror N WH pid (pid i) = i := by
  induction N with
  | zero => omega
  | succ n ih =>
    unfold identityMirror
    rw [List.range_succ, List.foldl_append]
    simp only [List.foldl_cons, List.foldl_nil]
    by_cases hin : i = n
    · subst hin
      simp [hpid, Function.update_same]
    · have hi' : i < n := by omega
      have hne : pid i ≠ pid n := fun h =>
        hin (hdist i (by omega) n (by omega) h)
      have tail := ih (fun a ha b hb => hdist a (by omega) b (by omega)) hi'
      unfold identityMirror at tail
      by_cases h : pid n < WH
      · simp only [h, if_true]
        rw [Function.update_noteq hne]
        exact tail
      · simp only [h, if_false]
        exact tail

/-- Claim C3: after the identity-mirror kernel runs over `N` particle
slots whose PIDs are pairwise distinct integers in `[0, Wp * Hp)`, the
identity texture holds `identity[pid i] = i` for every slot `i < N`, and
every texel whose index is not the PID of any particle holds the sentinel
-1. -/
theorem C3_identity_inverse (N WH : Nat) (pid : Nat → Nat)
    (hdist : ∀ i, i < N → ∀ j, j < N → pid i = pid j → i = j)
    (hrange : ∀ i, i < N → pid i < WH) :
    (∀ i, i < N → identityMirror N WH pid (pid i) = i) ∧
    (∀ j, j < WH → (∀ i, i < N → pid i ≠ j) →
      identityMirror N WH pid j = -1) := by
  constructor
  · intro i hi
    exact identityMirror_at N WH pid hdist i hi (hrange i hi)
  · intro j _ hj
    exact identityMirror_of_unused N WH pid j hj

/-- Witness for `C3_identity_inverse`: three particles with PIDs 2, 0, 3
on a 2-by-2 texture. -/
theorem C3_identity_inverse_witness :
    ((∀ i, i < 3 → ∀ j, j < 3 → [2, 0, 3].getD i 0 = [2, 0, 3].getD j 0 → i = j) ∧
      (∀ i, i < 3 → [2, 0, 3].getD i 0 < 4)) ∧
      identityMirror 3 4 (fun i => [2, 0, 3].getD i 0) 2 = 0 ∧
      identityMirror 3 4 (fun i => [2, 0, 3].getD i 0) 1 = -1 := by
  have hdist : ∀ i, i < 3 → ∀ j, j < 3 →
      [2, 0, 3].getD i 0 = [2, 0, 3].getD j 0 → i = j := by decide
  have hrange : ∀ i, i < 3 → [2, 0, 3].getD i 0 < 4 := by decide
  have h := C3_identity_inverse 3 4 (fun i => [2, 0, 3].getD i 0) hdist hrange
  refine ⟨⟨hdist, hrange⟩, h.1 0 (by norm_num), h.2 1 (by norm_num) (by decide)⟩

/-! ## KEdgeCoarseMap (FS_COARSE_MAP)

For each coarse slot `k` the kernel binary-searches the new edge-pointer
texture for the largest particle `p` with `start[p] <= k * stride`;
`getStart` reads indices at or past `N` as the sentinel `1.0e15`.  The
GLSL loop runs a fixed 17 iterations with an early `break` once the
interval has collapsed (`mid == low`); the model makes the remaining
iterations the identity. -/

def getStart (N : Nat) (ptr : Nat → Int) (idx : Nat) : Int :=
  if N ≤ idx then 10 ^ 15 else ptr idx

def coarseStep (N : Nat) (ptr : Nat → Int) (t : Int) (lh : Nat × Nat) : Nat × Nat :=
  let mid := (lh.1 + lh.2) / 2
  if mid = lh.1 then lh
  else if getStart N ptr mid ≤ t then (mid, lh.2) else (lh.1, mid)

def coarseSearch (N : Nat) (ptr : Nat → Int) (t : Int) : Nat :=
  ((List.range 17).foldl (fun lh _ => coarseStep N ptr t lh) (0, N)).1

def coarseMapAt (N S : Nat) (ptr : Nat → Int) (k : Nat) : Nat :=
  coarseSearch N ptr ((k * S : Nat) : Int)

theorem getStart_mono (N : Nat) (ptr : Nat → Int)
    (hmono : ∀ a b, a ≤ b → b ≤ N → ptr a ≤ ptr b)
    (hsent : ∀ p, p < N → ptr p < 10 ^ 15) :
    ∀ a b, a ≤ b → getStart N ptr a ≤ getStart N ptr b := by
  intro a b hab
  unfold getStart
  by_cases hb : N ≤ b
  · by_cases ha : N ≤ a
    · simp [ha, hb]
    · simp only [ha, hb, if_true, if_false]
      exact le_of_lt (hsent a (by omega))
  · have ha : ¬ N ≤ a := by omega
    simp only [ha, hb, if_false]
    exact hmono a b hab (by omega)

theorem coarseSearch_spec (N : Nat) (ptr : Nat → Int) (t : Int)
    (hN : 1 ≤ N) (hN17 : N ≤ 131072)
    (hmono : ∀ a b, a ≤ b → b ≤ N → ptr a ≤ ptr b)
    (hsent : ∀ p, p < N → ptr p < 10 ^ 15)
    (hlow : ptr 0 ≤ t) (ht : t < 10 ^ 15) :
    coarseSearch N ptr t < N ∧ ptr (coarseSearch N ptr t) ≤ t ∧
      ∀ q, q < N → ptr q ≤ t → q ≤ coarseSearch N ptr t := by
  have hgs := getStart_mono N ptr hmono hsent
  have key : ∀ s, s ≤ 17 →
      (((List.range s).foldl (fun lh _ => coarseStep N ptr t lh) (0, N)).1 <
        ((List.range s).foldl (fun lh _ => coarseStep N ptr t lh) (0, N)).2) ∧
      ((List.range s).foldl (fun lh _ => coarseStep N ptr t lh) (0, N)).2 ≤ N ∧
      getStart N ptr ((List.range s).foldl
        (fun lh _ => coarseStep N ptr t lh) (0, N)).1 ≤ t ∧
      t < getStart N ptr ((List.range s).foldl
        (fun lh _ => coarseStep N ptr t lh) (0, N)).2 ∧
      ((List.range s).foldl (fun lh _ => coarseStep N ptr t lh) (0, N)).2 -
        ((List.range s).foldl (fun lh _ => coarseStep N ptr t lh) (0, N)).1 ≤
        2 ^ (17 - s) := by
    intro s
    induction s with
    | zero =>
      intro _
      refine ⟨by simpa using hN, by simp, ?_, ?_, ?_⟩
      · simpa [getStart, show ¬ N ≤ 0 by omega] using hlow
      · simpa [getStart] using ht
      · have : N ≤ 131072 := hN17
        simpa using by omega
    | succ s ih =>
      intro hs
      have prev := ih (by omega)
      rw [List.range_succ, List.foldl_append]
      simp only [List.foldl_cons, List.foldl_nil]
      set lh := (List.range s).foldl (fun lh _ => coarseStep N ptr t lh) (0, N) with hlh
      obtain ⟨h1, h2, h3, h4, h5⟩ := prev
      unfold coarseStep
      by_cases hmid : (lh.1 + lh.2) / 2 = lh.1
      · rw [if_pos hmid]
        have hpow : (1 : Nat) ≤ 2 ^ (17 - (s + 1)) := Nat.one_le_two_pow
        exact ⟨h1, h2, h3, h4, by omega⟩
      · rw [if_neg hmid]
        have hml : lh.1 < (lh.1 + lh.2) / 2 := by omega
        have hmh : (lh.1 + lh.2) / 2 < lh.2 := by omega
        have hpow2 : 2 ^ (17 - s) = 2 * 2 ^ (17 - (s + 1)) := by
          rw [← pow_succ']
          congr 1
          omega
        by_cases hle : getStart N ptr ((lh.1 + lh.2) / 2) ≤ t
        · rw [if_pos hle]
          exact ⟨hmh, h2, hle, h4, by omega⟩
        · rw [if_neg hle]
          have hlt : t < getStart N ptr ((lh.1 + lh.2) / 2) := by omega
          exact ⟨hml, by omega, h3, hlt, by omega⟩
  have final := key 17 le_rfl
  set lh := (List.range 17).foldl (fun lh _ => coarseStep N ptr t lh) (0, N) with hlh
  obtain ⟨h1, h2, h3, h4, h5⟩ := final
  have hsucc : lh.2 = lh.1 + 1 := by simp at h5; omega
  have hlowN : lh.1 < N := by
    by_contra hcon
    have : getStart N ptr lh.1 = 10 ^ 15 := by
      unfold getStart
      simp [show N ≤ lh.1 by omega]
    omega
  have hres : coarseSearch N ptr t = lh.1 := by
    unfold coarseSearch
    rw [← hlh]
  refine ⟨by omega, ?_, ?_⟩
  · have : getStart N ptr lh.1 = ptr lh.1 := by
      unfold getStart
      simp [show ¬ N ≤ lh.1 by omega]
    rw [hres]
    omega
  · intro q hq hqle
    rw [hres]
    by_contra hcon
    have hq1 : lh.2 ≤ q := by omega
    have := hgs lh.2 q hq1
    have hgq : getStart N ptr q = ptr q := by
      unfold getStart
      simp [show ¬ N ≤ q by omega]
    omega

/-- Claim C8: for each coarse slot `k` with target edge index
`t = k * stride`, given a monotone non-decreasing `ptr_new` with
`ptr_new[0] = 0` and particle count at most 131072 (so 17 bisection
iterations suffice), the coarse-map kernel emits the largest `p < N` with
`ptr_new[p] ≤ t`; reads at indices at or past `N` return the sentinel
`1.0e15` (the kernel's encoding of plus infinity), below which `t` and all
live `ptr_new` entries are assumed to stay. -/
theorem C8_coarse_map (N S k : Nat) (ptr : Nat → Int)
    (hN : 1 ≤ N) (hN17 : N ≤ 131072)
    (hmono : ∀ a b, a ≤ b → b ≤ N → ptr a ≤ ptr b)
    (h0 : ptr 0 = 0)
    (hsent : ∀ p, p < N → ptr p < 10 ^ 15)
    (ht : ((k * S : Nat) : Int) < 10 ^ 15) :
    coarseMapAt N S ptr k < N ∧
      ptr (coarseMapAt N S ptr k) ≤ ((k * S : Nat) : Int) ∧
      ∀ q, q < N → ptr q ≤ ((k * S : Nat) : Int) → q ≤ coarseMapAt N S ptr k := by
  have := coarseSearch_spec N ptr ((k * S : Nat) : Int) hN hN17 hmono hsent
    (by rw [h0]; exact_mod_cast Int.ofNat_nonneg _) ht
  exact this

/-- Witness for `C8_coarse_map`: two particles, edge pointers 0 and 1,
coarse slot 0 with stride 128. -/
theorem C8_coarse_map_witness :
    ((1 : Nat) ≤ 2 ∧ (2 : Nat) ≤ 131072 ∧
      (∀ a b, a ≤ b → b ≤ 2 →
        (fun i => if i = 0 then (0 : Int) else 1) a ≤
        (fun i => if i = 0 then (0 : Int) else 1) b) ∧
      (fun i => if i = 0 then (0 : Int) else 1) 0 = 0 ∧
      (∀ p, p < 2 → (fun i => if i = 0 then (0 : Int) else 1) p < 10 ^ 15) ∧
      ((0 * 128 : Nat) : Int) < 10 ^ 15) ∧
      coarseMapAt 2 128 (fun i => if i = 0 then (0 : Int) else 1) 0 < 2 ∧
      (fun i => if i = 0 then (0 : Int) else 1)
        (coarseMapAt 2 128 (fun i => if i = 0 then (0 : Int) else 1) 0) ≤
        ((0 * 128 : Nat) : Int) ∧
      ∀ q, q < 2 → (fun i => if i = 0 then (0 : Int) else 1) q ≤
        ((0 * 128 : Nat) : Int) →
        q ≤ coarseMapAt 2 128 (fun i => if i = 0 then (0 : Int) else 1) 0 := by
  have hmono : ∀ a b, a ≤ b → b ≤ 2 →
      (fun i => if i = 0 then (0 : Int) else 1) a ≤
      (fun i => if i = 0 then (0 : Int) else 1) b := by
    intro a b hab _
    by_cases ha : a = 0 <;> by_cases hb : b = 0 <;> simp [ha, hb] <;> omega
  have hsent : ∀ p, p < 2 →
      (fun i => if i = 0 then (0 : Int) else 1) p < 10 ^ 15 := by
    intro p hp
    by_cases hp0 : p = 0 <;> simp [hp0] <;> norm_num
  have ht : ((0 * 128 : Nat) : Int) < 10 ^ 15 := by norm_num
  exact ⟨⟨by norm_num, by norm_num, hmono, by norm_num, hsent, ht⟩,
    C8_coarse_map 2 128 0 _ (by norm_num) (by norm_num) hmono (by norm_num) hsent ht⟩

/-! ## Sort-atlas decoding (getOldID)

The packed sort atlas consists of eight RGBA32UI textures; a decoded entry
is addressed by (texture index, chunk texel, component, byte).  The
`fetchPackedFromOrder` helper of the consumer kernels is modelled as a map
`ord : texIdx → chunkLinear → comp → word` (the 2D chunk coordinate
`(chunk % encodedSortOrderWidth, chunk / encodedSortOrderWidth)` is the
linearisation of `chunk`).  `getOldID` below is the common helper of
KEdgePrefixSum.progInit, KEdgePrefixSum.progFinal and KEdgeRelocation:
a new physical slot outside the sorted span maps to itself, and a slot in
chunk `c` at local index `l` maps to `c * 128 + offset + atlas byte`. -/

def decodeByte (val byteIdx : Nat) : Nat := (val >>> (byteIdx * 8)) &&& 0xFF

def getOldID (N offs : Nat) (ord : Nat → Nat → Nat → Nat) (pNew : Nat) : Nat :=
  if pNew < offs then pNew
  else if (N - offs) / 128 * 128 ≤ pNew - offs then pNew
  else
    (pNew - offs) / 128 * 128 + offs +
      decodeByte
        (ord ((pNew - offs) % 128 / 16) ((pNew - offs) / 128)
          ((pNew - offs) % 128 % 16 / 4))
        ((pNew - offs) % 128 % 16 % 4)

/-- The decoded atlas byte for chunk `c`, local index `l`: the byte the
three consumer kernels extract for the slot `c * 128 + offset + l`
(texture index `l / 16`, component `l % 16 / 4`, byte `l % 16 % 4`). -/
def atlasByte (ord : Nat → Nat → Nat → Nat) (c l : Nat) : Nat :=
  decodeByte (ord (l / 16) c (l % 16 / 4)) (l % 16 % 4)

theorem getOldID_out_low (N offs : Nat) (ord : Nat → Nat → Nat → Nat)
    (p : Nat) (h : p < offs) : getOldID N offs ord p = p := by
  unfold getOldID
  rw [if_pos h]

theorem getOldID_out_high (N offs : Nat) (ord : Nat → Nat → Nat → Nat)
    (p : Nat) (h1 : offs ≤ p) (h2 : (N - offs) / 128 * 128 ≤ p - offs) :
    getOldID N offs ord p = p := by
  unfold getOldID
  rw [if_neg (by omega), if_pos h2]

theorem getOldID_in_span (N offs : Nat) (ord : Nat → Nat → Nat → Nat)
    (p : Nat) (h1 : offs ≤ p) (h2 : p - offs < (N - offs) / 128 * 128) :
    getOldID N offs ord p =
      (p - offs) / 128 * 128 + offs + atlasByte ord ((p - offs) / 128) ((p - offs) % 128) := by
  unfold getOldID atlasByte
  rw [if_neg (by omega), if_neg (by omega)]

theorem chunk_lt_of_in_span {N offs p : Nat} (h2 : p - offs < (N - offs) / 128 * 128) :
    (p - offs) / 128 < (N - offs) / 128 := by
  have h128 : (128 : Nat) ∣ (N - offs) / 128 * 128 := dvd_mul_left _ _
  have := Nat.div_lt_div_of_lt_of_dvd h128 h2
  rwa [Nat.mul_div_cancel _ (by norm_num)] at this

/-- If every full chunk of the sorted span decodes to a permutation of its
128 local indices, then `getOldID` permutes the particle slots `[0, N)`. -/
theorem getOldID_permOn (N offs : Nat) (ord : Nat → Nat → Nat → Nat)
    (hchunks : ∀ c, c < (N - offs) / 128 → PermOn (atlasByte ord c) 128) :
    PermOn (getOldID N offs ord) N := by
  have span_case : ∀ p, offs ≤ p → p - offs < (N - offs) / 128 * 128 →
      getOldID N offs ord p =
        (p - offs) / 128 * 128 + offs +
          atlasByte ord ((p - offs) / 128) ((p - offs) % 128) ∧
      (p - offs) / 128 < (N - offs) / 128 ∧
      atlasByte ord ((p - offs) / 128) ((p - offs) % 128) < 128 := by
    intro p h1 h2
    have hc : (p - offs) / 128 < (N - offs) / 128 := chunk_lt_of_in_span h2
    have hb := (hchunks _ hc).1 ((p - offs) % 128) (by omega)
    exact ⟨getOldID_in_span N offs ord p h1 h2, hc, hb⟩
  constructor
  · intro p hp
    by_cases h1 : p < offs
    · rw [getOldID_out_low N offs ord p h1]; exact hp
    · by_cases h2 : (N - offs) / 128 * 128 ≤ p - offs
      · rw [getOldID_out_high N offs ord p (by omega) h2]; exact hp
      · obtain ⟨heq, hc, hb⟩ := span_case p (by omega) (by omega)
        rw [heq]
        have : ((p - offs) / 128 + 1) * 128 ≤ (N - offs) / 128 * 128 :=
          Nat.mul_le_mul_right 128 (by omega)
        have hsub : (N - offs) / 128 * 128 ≤ N - offs := Nat.div_mul_le_self _ _
        omega
  · intro i hi j hj hij
    by_cases hi1 : i < offs ∨ (N - offs) / 128 * 128 ≤ i - offs
    · have heqi : getOldID N offs ord i = i := by
        rcases hi1 with h | h
        · exact getOldID_out_low N offs ord i h
        · rcases Nat.lt_or_ge i offs with h' | h'
          · exact getOldID_out_low N offs ord i h'
          · exact getOldID_out_high N offs ord i h' h
      by_cases hj1 : j < offs ∨ (N - offs) / 128 * 128 ≤ j - offs
      · have heqj : getOldID N offs ord j = j := by
          rcases hj1 with h | h
          · exact getOldID_out_low N offs ord j h
          · rcases Nat.lt_or_ge j offs with h' | h'
            · exact getOldID_out_low N offs ord j h'
            · exact getOldID_out_high N offs ord j h' h
        rw [heqi, heqj] at hij
        exact hij
      · push_neg at hj1
        obtain ⟨heqj, hcj, hbj⟩ := span_case j hj1.1 hj1.2
        rw [heqi, heqj] at hij
        exfalso
        rcases hi1 with h | h
        · omega
        · have : (j - offs) / 128 * 128 ≤ j - offs := Nat.div_mul_le_self _ _
          omega
    · push_neg at hi1
      obtain ⟨heqi, hci, hbi⟩ := span_case i hi1.1 hi1.2
      by_cases hj1 : j < offs ∨ (N - offs) / 128 * 128 ≤ j - offs
      · have heqj : getOldID N offs ord j = j := by
          rcases hj1 with h | h
          · exact getOldID_out_low N offs ord j h
          · rcases Nat.lt_or_ge j offs with h' | h'
            · exact getOldID_out_low N offs ord j h'
            · exact getOldID_out_high N offs ord j h' h
        rw [heqi, heqj] at hij
        exfalso
        rcases hj1 with h | h
        · omega
        · have : (i - offs) / 128 * 128 ≤ i - offs := Nat.div_mul_le_self _ _
          omega
      · push_neg at hj1
        obtain ⟨heqj, hcj, hbj⟩ := span_case j hj1.1 hj1.2
        rw [heqi, heqj] at hij
        have hchunk_eq : (i - offs) / 128 = (j - offs) / 128 := by omega
        have hbyte_eq : atlasByte ord ((i - offs) / 128) ((i - offs) % 128) =
            atlasByte ord ((j - offs) / 128) ((j - offs) % 128) := by omega
        rw [← hchunk_eq] at hbyte_eq
        have := (hchunks _ hci).2 ((i - offs) % 128) (by omega)
          ((j - offs) % 128) (by omega) (hchunk_eq ▸ hbyte_eq)
        omega

/-! ## KEdgePrefixSum

Three sub-stages.  `progInit` writes, for each texel `i` of the scan
buffer, the edge count of the old particle `getOldID i` (zero for texels
at or past the particle count).  `progScan` is one Hillis-Steele pass with
offset `2^t`; the orchestrating `run` issues `ceil(log2 (width * height))`
passes with offsets 1, 2, 4, ....  `progFinal` re-derives the count and
writes `inclusive - count`. -/

def KEdgePrefixSum.count (N offs : Nat) (ord : Nat → Nat → Nat → Nat)
    (ptrOld : Nat → Int) (i : Nat) : Int :=
  if i < N then
    ptrOld (getOldID N offs ord i + 1) - ptrOld (getOldID N offs ord i)
  else 0

def scanPass (off : Nat) (v : Nat → Int) : Nat → Int := fun i =>
  if off ≤ i then v i + v (i - off) else v i

def scanRun (M : Nat) (v : Nat → Int) : Nat → Int :=
  (List.range (ceilLog2 M)).foldl (fun v t => scanPass (1 <<< t) v) v

def ptrNew (N offs M : Nat) (ord : Nat → Nat → Nat → Nat)
    (ptrOld : Nat → Int) (i : Nat) : Int :=
  scanRun M (KEdgePrefixSum.count N offs ord ptrOld) i -
    KEdgePrefixSum.count N offs ord ptrOld i

theorem scanPass_apply (off : Nat) (v : Nat → Int) (i : Nat) :
    scanPass off v i = if off ≤ i then v i + v (i - off) else v i := rfl

theorem scanRun_steps_formula (v : Nat → Int) :
    ∀ s i, ((List.range s).foldl (fun v t => scanPass (1 <<< t) v) v) i =
      ∑ j ∈ Finset.range (min (2 ^ s) (i + 1)), v (i - j) := by
  intro s
  induction s with
  | zero =>
    intro i
    simp
  | succ s ih =>
    intro i
    rw [List.range_succ, List.foldl_append]
    simp only [List.foldl_cons, List.foldl_nil]
    rw [scanPass_apply]
    rw [show (1 : Nat) <<< s = 2 ^ s by rw [Nat.shiftLeft_eq, one_mul]]
    by_cases h : 2 ^ s ≤ i
    · rw [if_pos h, ih i, ih (i - 2 ^ s)]
      have hmin1 : min (2 ^ s) (i + 1) = 2 ^ s := by omega
      have hpow : 2 ^ (s + 1) = 2 * 2 ^ s := by rw [pow_succ]; ring
      have hmin2 : min (2 ^ (s + 1)) (i + 1) =
          2 ^ s + min (2 ^ s) (i - 2 ^ s + 1) := by omega
      rw [hmin1, hmin2, Finset.sum_range_add]
      congr 1
      apply Finset.sum_congr rfl
      intro j _
      congr 1
      omega
    · rw [if_neg h, ih i]
      have hpow : 2 ^ (s + 1) = 2 * 2 ^ s := by rw [pow_succ]; ring
      have hm : min (2 ^ s) (i + 1) = min (2 ^ (s + 1)) (i + 1) := by omega
      rw [hm]

theorem scanRun_formula (M : Nat) (v : Nat → Int) (i : Nat) (hi : i < M) :
    scanRun M v i = ∑ j ∈ Finset.range (i + 1), v j := by
  unfold scanRun
  rw [scanRun_steps_formula]
  have hM := le_two_pow_ceilLog2 M
  have hmin : min (2 ^ ceilLog2 M) (i + 1) = i + 1 := by omega
  rw [hmin]
  have := Finset.sum_range_reflect (fun j => v j) (i + 1)
  calc ∑ j ∈ Finset.range (i + 1), v (i - j)
      = ∑ j ∈ Finset.range (i + 1), v (i + 1 - 1 - j) := by
        apply Finset.sum_congr rfl
        intro j hj
        congr 1
    _ = ∑ j ∈ Finset.range (i + 1), v j := Finset.sum_range_reflect (fun j => v j) (i + 1)

/-- The new edge pointer at texel `i < M` is the exclusive prefix sum of
the permuted counts. -/
theorem ptrNew_formula (N offs M : Nat) (ord : Nat → Nat → Nat → Nat)
    (ptrOld : Nat → Int) (i : Nat) (hi : i < M) :
    ptrNew N offs M ord ptrOld i =
      ∑ j ∈ Finset.range i, KEdgePrefixSum.count N offs ord ptrOld j := by
  unfold ptrNew
  rw [scanRun_formula M _ i hi, Finset.sum_range_succ]
  ring

theorem count_nonneg (N offs : Nat) (ord : Nat → Nat → Nat → Nat)
    (ptrOld : Nat → Int)
    (hperm : PermOn (getOldID N offs ord) N)
    (hmono : ∀ a b, a ≤ b → b ≤ N → ptrOld a ≤ ptrOld b) :
    ∀ i, 0 ≤ KEdgePrefixSum.count N offs ord ptrOld i := by
  intro i
  unfold KEdgePrefixSum.count
  by_cases h : i < N
  · rw [if_pos h]
    have hlt := hperm.1 i h
    have := hmono (getOldID N offs ord i) (getOldID N offs ord i + 1) (by omega) (by omega)
    omega
  · rw [if_neg h]

/-- Claim C2: after the CSR prefix-sum stage, assuming the old pointer
array is monotone non-decreasing with `ptr_old[0] = 0` and
`ptr_old[N] = E`, and the sort atlas decodes to a permutation of the
particle slots, the new pointer array satisfies `ptr_new[0] = 0`,
`ptr_new[i] ≤ ptr_new[i+1]` for every `i < N`, and `ptr_new[N] = E`.
`M = width * height` is the texel count of the scan buffer, which holds
at least the `N + 1` pointer entries. -/
theorem C2_prefix_sum_monotone (N offs M E : Nat) (ord : Nat → Nat → Nat → Nat)
    (ptrOld : Nat → Int)
    (hperm : PermOn (getOldID N offs ord) N)
    (hmono : ∀ a b, a ≤ b → b ≤ N → ptrOld a ≤ ptrOld b)
    (h0 : ptrOld 0 = 0) (hE : ptrOld N = (E : Int))
    (hM : N + 1 ≤ M) :
    ptrNew N offs M ord ptrOld 0 = 0 ∧
      (∀ i, i < N → ptrNew N offs M ord ptrOld i ≤ ptrNew N offs M ord ptrOld (i + 1)) ∧
      ptrNew N offs M ord ptrOld N = (E : Int) := by
  have hnn := count_nonneg N offs ord ptrOld hperm hmono
  refine ⟨?_, ?_, ?_⟩
  · rw [ptrNew_formula N offs M ord ptrOld 0 (by omega)]
    simp
  · intro i hi
    rw [ptrNew_formula N offs M ord ptrOld i (by omega),
      ptrNew_formula N offs M ord ptrOld (i + 1) (by omega),
      Finset.sum_range_succ]
    have := hnn i
    omega
  · rw [ptrNew_formula N offs M ord ptrOld N (by omega)]
    have hcong : ∑ j ∈ Finset.range N, KEdgePrefixSum.count N offs ord ptrOld j =
        ∑ j ∈ Finset.range N,
          (ptrOld (getOldID N offs ord j + 1) - ptrOld (getOldID N offs ord j)) := by
      apply Finset.sum_congr rfl
      intro j hj
      unfold KEdgePrefixSum.count
      rw [if_pos (Finset.mem_range.mp hj)]
    rw [hcong,
      hperm.sum_comp (fun p => ptrOld (p + 1) - ptrOld p),
      Finset.sum_range_sub (fun p => ptrOld p) N, h0, hE]
    ring

/-- The trivial atlas: every packed word is zero. -/
def zeroOrd : Nat → Nat → Nat → Nat := fun _ _ _ => 0

/-- A concrete old edge-pointer texture: `ptr_old = [0, 1, 2, 2, ...]`
(two particles with one edge each). -/
def ptrOldTwo (i : Nat) : Int := min (i : Int) 2

/-- Witness for `C2_prefix_sum_monotone`: two particles with one edge
each (`ptr_old = [0, 1, 2]`), sort offset 0 (no full chunk, so the atlas
map is the identity permutation), scan buffer of 4 texels. -/
theorem C2_prefix_sum_monotone_witness :
    (PermOn (getOldID 2 0 zeroOrd) 2 ∧
      (∀ a b, a ≤ b → b ≤ 2 → ptrOldTwo a ≤ ptrOldTwo b) ∧
      ptrOldTwo 0 = 0 ∧ ptrOldTwo 2 = ((2 : Nat) : Int) ∧ 2 + 1 ≤ 4) ∧
      ptrNew 2 0 4 zeroOrd ptrOldTwo 0 = 0 ∧
      (∀ i, i < 2 → ptrNew 2 0 4 zeroOrd ptrOldTwo i ≤
        ptrNew 2 0 4 zeroOrd ptrOldTwo (i + 1)) ∧
      ptrNew 2 0 4 zeroOrd ptrOldTwo 2 = ((2 : Nat) : Int) := by
  have hperm : PermOn (getOldID 2 0 zeroOrd) 2 := by
    constructor
    · intro i hi
      interval_cases i <;> decide
    · intro i hi j hj
      interval_cases i <;> interval_cases j <;> decide
  have hmono : ∀ a b, a ≤ b → b ≤ 2 → ptrOldTwo a ≤ ptrOldTwo b := by
    intro a b hab _
    unfold ptrOldTwo
    omega
  have h0 : ptrOldTwo 0 = 0 := by unfold ptrOldTwo; simp
  have h2 : ptrOldTwo 2 = ((2 : Nat) : Int) := by unfold ptrOldTwo; simp
  exact ⟨⟨hperm, hmono, h0, h2, by norm_num⟩,
    C2_prefix_sum_monotone 2 0 4 2 zeroOrd ptrOldTwo hperm hmono h0 h2 (by norm_num)⟩

/-! ## KParticleReshuffle (src/graph/k-particle-reshuffle.js)

For destination slot `idx < N`, the fragment shader computes
`relIdx = idx - sortOffset`; outside the sorted span it gathers from `idx`
itself; inside, it decodes the source local index from the packed atlas
(`packedIndex = localIdx >> 2`, `texIdx = packedIndex >> 2`,
`comp = packedIndex & 3`, byte `localIdx & 3`) and gathers all three
output textures (position+SFC, velocity, id/mass) from the common source
slot `chunkIndex * 128 + sortOffset + srcLocal`, falling back to `idx`
when that slot is out of range. -/

def reshuffleSrcGlobal (offs : Nat) (ord : Nat → Nat → Nat → Nat) (rel : Nat) : Nat :=
  rel / 128 * 128 + offs +
    decodeByte (ord ((rel % 128) >>> 2 >>> 2) (rel / 128) (((rel % 128) >>> 2) &&& 3))
      ((rel % 128) &&& 3)

def reshuffleSrc (N offs : Nat) (ord : Nat → Nat → Nat → Nat) (idx : Nat) : Nat :=
  if idx < offs then idx
  else if (N - offs) / 128 * 128 ≤ idx - offs then idx
  else if reshuffleSrcGlobal offs ord (idx - offs) < N then
    reshuffleSrcGlobal offs ord (idx - offs)
  else idx

def reshuffleOut {α : Type*} (N offs : Nat) (ord : Nat → Nat → Nat → Nat)
    (tex : Nat → α) (idx : Nat) : α :=
  tex (reshuffleSrc N offs ord idx)

theorem reshuffle_decode_indices :
    ∀ l, l < 128 → l >>> 2 >>> 2 = l / 16 ∧ (l >>> 2) &&& 3 = l % 16 / 4 ∧
      l &&& 3 = l % 16 % 4 := by decide

theorem reshuffleSrcGlobal_eq_atlasByte (offs : Nat) (ord : Nat → Nat → Nat → Nat)
    (rel : Nat) :
    reshuffleSrcGlobal offs ord rel =
      rel / 128 * 128 + offs + atlasByte ord (rel / 128) (rel % 128) := by
  obtain ⟨e1, e2, e3⟩ := reshuffle_decode_indices (rel % 128) (Nat.mod_lt _ (by norm_num))
  unfold reshuffleSrcGlobal atlasByte
  rw [e1, e2, e3]

/-- Under the per-chunk permutation property of the atlas, the reshuffle
source map coincides with `getOldID` (the out-of-range fallback never
fires). -/
theorem reshuffleSrc_eq_getOldID (N offs : Nat) (ord : Nat → Nat → Nat → Nat)
    (hchunks : ∀ c, c < (N - offs) / 128 → PermOn (atlasByte ord c) 128) :
    ∀ idx, reshuffleSrc N offs ord idx = getOldID N offs ord idx := by
  intro idx
  unfold reshuffleSrc
  by_cases h1 : idx < offs
  · rw [if_pos h1]
    exact (getOldID_out_low N offs ord idx h1).symm
  · rw [if_neg h1]
    by_cases h2 : (N - offs) / 128 * 128 ≤ idx - offs
    · rw [if_pos h2]
      exact (getOldID_out_high N offs ord idx (by omega) h2).symm
    · rw [if_neg h2]
      have hc : (idx - offs) / 128 < (N - offs) / 128 :=
        chunk_lt_of_in_span (by omega)
      have hb := (hchunks _ hc).1 ((idx - offs) % 128) (by omega)
      have hglobal : reshuffleSrcGlobal offs ord (idx - offs) < N := by
        rw [reshuffleSrcGlobal_eq_atlasByte]
        have : ((idx - offs) / 128 + 1) * 128 ≤ (N - offs) / 128 * 128 :=
          Nat.mul_le_mul_right 128 (by omega)
        have hsub : (N - offs) / 128 * 128 ≤ N - offs := Nat.div_mul_le_self _ _
        omega
      rw [if_pos hglobal, reshuffleSrcGlobal_eq_atlasByte,
        getOldID_in_span N offs ord idx (by omega) (by omega)]

theorem reshuffleSrc_permOn (N offs : Nat) (ord : Nat → Nat → Nat → Nat)
    (hchunks : ∀ c, c < (N - offs) / 128 → PermOn (atlasByte ord c) 128) :
    PermOn (reshuffleSrc N offs ord) N := by
  have hperm := getOldID_permOn N offs ord hchunks
  have heq := reshuffleSrc_eq_getOldID N offs ord hchunks
  constructor
  · intro i hi
    rw [heq i]
    exact hperm.1 i hi
  · intro i hi j hj hij
    rw [heq i, heq j] at hij
    exact hperm.2 i hi j hj hij

theorem PermOn.multiset_map_range_eq {α : Type*} {σ : Nat → Nat} {n : Nat}
    (h : PermOn σ n) (f : Nat → α) :
    (((List.range n).map (fun i => f (σ i)) : List α) : Multiset α) =
      ((List.range n).map f : Multiset α) := by
  apply Multiset.coe_eq_coe.mpr
  have h1 : (List.range n).map (fun i => f (σ i)) = ((List.range n).map σ).map f := by
    rw [List.map_map]
    rfl
  rw [h1]
  exact h.map_range_perm.map f

/-- A four-channel RGBA32F texel. -/
abbrev Vec4 := ℝ × ℝ × ℝ × ℝ

/-- The logical particle tuple the spec speaks about: PID and mass (from
the id/mass texture), position (xyz of the position texture) and velocity
(xyz of the velocity texture). -/
def particleTuple (pos vel idMass : Nat → Vec4) (i : Nat) :
    ℝ × ℝ × (ℝ × ℝ × ℝ) × (ℝ × ℝ × ℝ) :=
  ((idMass i).1, (idMass i).2.1,
    ((pos i).1, (pos i).2.1, (pos i).2.2.1),
    ((vel i).1, (vel i).2.1, (vel i).2.2.1))

/-- The multiset of logical particle tuples over the slots `[0, N)`. -/
def particleTuples (N : Nat) (pos vel idMass : Nat → Vec4) :
    Multiset (ℝ × ℝ × (ℝ × ℝ × ℝ) × (ℝ × ℝ × ℝ)) :=
  (((List.range N).map (particleTuple pos vel idMass) : List _) : Multiset _)

/-- Claim C4: whenever the sort atlas decodes each full chunk to a
permutation of its 128 local indices (as the sort encoder guarantees),
the reshuffle gathers, for every destination slot below `N`, all three
particle textures from one common source slot, that source map permutes
the slots `[0, N)`, and consequently the multiset of
(PID, mass, position, velocity) tuples over the slots `[0, N)` is
unchanged. -/
theorem C4_reshuffle_permutation (N offs : Nat) (ord : Nat → Nat → Nat → Nat)
    (pos vel idMass : Nat → Vec4)
    (hchunks : ∀ c, c < (N - offs) / 128 → PermOn (atlasByte ord c) 128) :
    (∀ idx, idx < N →
      reshuffleOut N offs ord pos idx = pos (reshuffleSrc N offs ord idx) ∧
      reshuffleOut N offs ord vel idx = vel (reshuffleSrc N offs ord idx) ∧
      reshuffleOut N offs ord idMass idx = idMass (reshuffleSrc N offs ord idx)) ∧
    PermOn (reshuffleSrc N offs ord) N ∧
    particleTuples N (reshuffleOut N offs ord pos) (reshuffleOut N offs ord vel)
        (reshuffleOut N offs ord idMass) =
      particleTuples N pos vel idMass := by
  have hperm := reshuffleSrc_permOn N offs ord hchunks
  refine ⟨fun idx _ => ⟨rfl, rfl, rfl⟩, hperm, ?_⟩
  unfold particleTuples
  have hpt : (particleTuple (reshuffleOut N offs ord pos) (reshuffleOut N offs ord vel)
      (reshuffleOut N offs ord idMass)) =
      fun i => particleTuple pos vel idMass (reshuffleSrc N offs ord i) := rfl
  rw [hpt]
  exact hperm.multiset_map_range_eq (particleTuple pos vel idMass)

/-- A constant texture. -/
def constTexture (c : Vec4) : Nat → Vec4 := fun _ => c

/-- Witness for `C4_reshuffle_permutation`: ten particles at sort offset
zero (no full chunk, so the per-chunk hypothesis is vacuous). -/
theorem C4_reshuffle_permutation_witness :
    (∀ c, c < (10 - 0) / 128 → PermOn (atlasByte zeroOrd c) 128) ∧
      PermOn (reshuffleSrc 10 0 zeroOrd) 10 ∧
      particleTuples 10 (reshuffleOut 10 0 zeroOrd (constTexture (1, 2, 3, 4)))
          (reshuffleOut 10 0 zeroOrd (constTexture (5, 6, 7, 8)))
          (reshuffleOut 10 0 zeroOrd (constTexture (9, 10, 11, 12))) =
        particleTuples 10 (constTexture (1, 2, 3, 4)) (constTexture (5, 6, 7, 8))
          (constTexture (9, 10, 11, 12)) := by
  have hchunks : ∀ c, c < (10 - 0) / 128 → PermOn (atlasByte zeroOrd c) 128 := by
    intro c hc
    omega
  have h := C4_reshuffle_permutation 10 0 zeroOrd (constTexture (1, 2, 3, 4))
    (constTexture (5, 6, 7, 8)) (constTexture (9, 10, 11, 12)) hchunks
  exact ⟨hchunks, h.2.1, h.2.2⟩

/-! ## KPhysicsSimulation (src/graph/k-physics-simulation.js)

One semi-implicit Euler step per particle slot `idx < N` (slots at or
past `N` are discarded).  The gravity loop runs over window offsets
`-W ≤ o ≤ W`, skipping `o = 0` and out-of-range neighbours; the spring
loop runs over the CSR edge range `[ptr idx, ptr (idx+1))`, skipping
sentinel targets.  GLSL `continue` statements are modelled as
zero summands. -/

abbrev Vec3 := ℝ × ℝ × ℝ

def xyz (v : Vec4) : Vec3 := (v.1, v.2.1, v.2.2.1)

noncomputable section PhysicsModel

def dot3 (a b : Vec3) : ℝ := a.1 * b.1 + a.2.1 * b.2.1 + a.2.2 * b.2.2

/-- The degenerate octahedral (butterfly) SFC key of the physics kernel:
project to the L1 sphere, fold the lower hemisphere, return
`uv.x + uv.y * 2`. -/
def getSFCKey (p : Vec3) : ℝ :=
  let l1 := |p.1| + |p.2.1| + |p.2.2| + 1 / 10 ^ 20
  let ux := p.1 / l1
  let uy := p.2.1 / l1
  if p.2.2 < 0 then
    (1 - |uy|) * (if 0 ≤ ux then 1 else -1) +
      (1 - |ux|) * (if 0 ≤ uy then 1 else -1) * 2
  else ux + uy * 2

structure PhysicsInputs where
  N : Nat
  W : Nat
  G : ℝ
  springK : ℝ
  eps : ℝ
  damping : ℝ
  dt : ℝ
  pos : Nat → Vec4
  vel : Nat → Vec4
  idMass : Nat → Vec4
  edgePtr : Nat → Int
  edgeStore : Nat → Int

/-- Mass of the particle at slot `i` (`texelFetch(uMass, ...).y`). -/
def PhysicsInputs.mass (P : PhysicsInputs) (i : Nat) : ℝ := (P.idMass i).2.1

/-- Near-field gravity term: fold of the window loop with `continue`
modelled as a zero summand. -/
def gravAcc (P : PhysicsInputs) (idx : Nat) : Vec3 :=
  ∑ o ∈ Finset.Icc (-(P.W : ℤ)) (P.W : ℤ),
    if o = 0 then 0
    else if (idx : ℤ) + o < 0 ∨ (P.N : ℤ) ≤ (idx : ℤ) + o then 0
    else
      (P.G * P.mass ((idx : ℤ) + o).toNat *
        ((1 / Real.sqrt (dot3 (xyz (P.pos ((idx : ℤ) + o).toNat) - xyz (P.pos idx))
            (xyz (P.pos ((idx : ℤ) + o).toNat) - xyz (P.pos idx)) + P.eps)) *
          (1 / Real.sqrt (dot3 (xyz (P.pos ((idx : ℤ) + o).toNat) - xyz (P.pos idx))
            (xyz (P.pos ((idx : ℤ) + o).toNat) - xyz (P.pos idx)) + P.eps)) *
          (1 / Real.sqrt (dot3 (xyz (P.pos ((idx : ℤ) + o).toNat) - xyz (P.pos idx))
            (xyz (P.pos ((idx : ℤ) + o).toNat) - xyz (P.pos idx)) + P.eps)))) •
        (xyz (P.pos ((idx : ℤ) + o).toNat) - xyz (P.pos idx))

/-- Laplacian edge pull: fold of the edge loop, sentinel targets
contribute zero. -/
def springAcc (P : PhysicsInputs) (idx : Nat) : Vec3 :=
  ∑ e ∈ Finset.Ico (P.edgePtr idx) (P.edgePtr (idx + 1)),
    if 0 ≤ P.edgeStore e.toNat then
      P.springK • (xyz (P.pos (P.edgeStore e.toNat).toNat) - xyz (P.pos idx))
    else 0

def physAcc (P : PhysicsInputs) (idx : Nat) : Vec3 := gravAcc P idx + springAcc P idx

def physVelOut (P : PhysicsInputs) (idx : Nat) : Vec3 :=
  (1 - P.damping) • (xyz (P.vel idx) + P.dt • physAcc P idx)

def physPosOut (P : PhysicsInputs) (idx : Nat) : Vec3 :=
  xyz (P.pos idx) + P.dt • physVelOut P idx

def oPos (P : PhysicsInputs) (idx : Nat) : Vec4 :=
  ((physPosOut P idx).1, (physPosOut P idx).2.1, (physPosOut P idx).2.2,
    getSFCKey (physPosOut P idx))

def oVel (P : PhysicsInputs) (idx : Nat) : Vec4 :=
  ((physVelOut P idx).1, (physVelOut P idx).2.1, (physVelOut P idx).2.2,
    (P.vel idx).2.2.2)

def oMass (P : PhysicsInputs) (idx : Nat) : Vec4 := P.idMass idx

theorem inv_sqrt_cube_eq_rpow (d2 : ℝ) (h : 0 ≤ d2) :
    (1 / Real.sqrt d2) * (1 / Real.sqrt d2) * (1 / Real.sqrt d2) =
      1 / d2 ^ ((3 : ℝ) / 2) := by
  have hr : d2 ^ ((3 : ℝ) / 2) = Real.sqrt d2 ^ (3 : ℕ) := by
    rw [Real.sqrt_eq_rpow, ← Real.rpow_natCast (d2 ^ ((1 : ℝ) / 2)) 3,
      ← Real.rpow_mul h]
    norm_num
  rw [hr]
  rcases eq_or_lt_of_le h with heq | hpos
  · rw [← heq, Real.sqrt_zero]
    norm_num
  · have hs : 0 < Real.sqrt d2 := Real.sqrt_pos.mpr hpos
    have hsq : Real.sqrt d2 * Real.sqrt d2 = d2 := Real.mul_self_sqrt h
    field_simp
    linear_combination Real.sqrt d2 * hsq

theorem dot3_self_nonneg (a : Vec3) : 0 ≤ dot3 a a := by
  have h1 := mul_self_nonneg a.1
  have h2 := mul_self_nonneg a.2.1
  have h3 := mul_self_nonneg a.2.2
  unfold dot3
  linarith

/-- Claim C5: for every slot `idx < N`, the physics integrator computes
the acceleration as the sum over window neighbours `j ∈ [idx-W, idx+W]`
with `j ≠ idx` clamped to `[0, N)` of
`G * m_j * (p_j - p_idx) / (|p_j - p_idx|^2 + eps)^(3/2)`, plus
`springK * (p_t - p_idx)` for each non-sentinel edge target `t` in
`[ptr idx, ptr (idx+1))`; it then sets
`v' = (v + a * dt) * (1 - damping)` and `p' = p + v' * dt`, writes `p'`
together with the recomputed SFC key, and copies id/mass unchanged.
The softening `eps` is nonnegative (so the 3/2 power is the real one). -/
theorem C5_physics_step (P : PhysicsInputs) (idx : Nat)
    (hidx : idx < P.N) (heps : 0 ≤ P.eps) :
    physAcc P idx =
      (∑ j ∈ (Finset.Icc ((idx : ℤ) - P.W) ((idx : ℤ) + P.W)).filter
          (fun j => j ≠ (idx : ℤ) ∧ 0 ≤ j ∧ j < (P.N : ℤ)),
        ((P.G * P.mass j.toNat) /
            (dot3 (xyz (P.pos j.toNat) - xyz (P.pos idx))
              (xyz (P.pos j.toNat) - xyz (P.pos idx)) + P.eps) ^ ((3 : ℝ) / 2)) •
          (xyz (P.pos j.toNat) - xyz (P.pos idx))) +
      (∑ e ∈ (Finset.Ico (P.edgePtr idx) (P.edgePtr (idx + 1))).filter
          (fun e => 0 ≤ P.edgeStore e.toNat),
        P.springK • (xyz (P.pos (P.edgeStore e.toNat).toNat) - xyz (P.pos idx))) ∧
    physVelOut P idx = (1 - P.damping) • (xyz (P.vel idx) + P.dt • physAcc P idx) ∧
    physPosOut P idx = xyz (P.pos idx) + P.dt • physVelOut P idx ∧
    oPos P idx = ((physPosOut P idx).1, (physPosOut P idx).2.1,
      (physPosOut P idx).2.2, getSFCKey (physPosOut P idx)) ∧
    oVel P idx = ((physVelOut P idx).1, (physVelOut P idx).2.1,
      (physVelOut P idx).2.2, (P.vel idx).2.2.2) ∧
    oMass P idx = P.idMass idx := by
  refine ⟨?_, rfl, rfl, rfl, rfl, rfl⟩
  unfold physAcc
  congr 1
  · unfold gravAcc
    rw [Finset.sum_filter]
    have himg : Finset.Icc ((idx : ℤ) - P.W) ((idx : ℤ) + P.W) =
        (Finset.Icc (-(P.W : ℤ)) (P.W : ℤ)).image (fun o => (idx : ℤ) + o) := by
      rw [Finset.image_add_left_Icc]
      congr 1 <;> ring
    rw [himg, Finset.sum_image (by intro a _ b _ h; omega)]
    apply Finset.sum_congr rfl
    intro o _
    by_cases h0 : o = 0
    · rw [if_pos h0, if_neg (show ¬((idx : ℤ) + o ≠ (idx : ℤ) ∧ 0 ≤ (idx : ℤ) + o ∧
        (idx : ℤ) + o < (P.N : ℤ)) by omega)]
    · rw [if_neg h0]
      by_cases hr : (idx : ℤ) + o < 0 ∨ (P.N : ℤ) ≤ (idx : ℤ) + o
      · rw [if_pos hr, if_neg (show ¬((idx : ℤ) + o ≠ (idx : ℤ) ∧ 0 ≤ (idx : ℤ) + o ∧
          (idx : ℤ) + o < (P.N : ℤ)) by omega)]
      · rw [if_neg hr, if_pos (show (idx : ℤ) + o ≠ (idx : ℤ) ∧ 0 ≤ (idx : ℤ) + o ∧
          (idx : ℤ) + o < (P.N : ℤ) by omega)]
        have hd2 : 0 ≤ dot3 (xyz (P.pos ((idx : ℤ) + o).toNat) - xyz (P.pos idx))
            (xyz (P.pos ((idx : ℤ) + o).toNat) - xyz (P.pos idx)) + P.eps := by
          have := dot3_self_nonneg (xyz (P.pos ((idx : ℤ) + o).toNat) - xyz (P.pos idx))
          linarith
        rw [inv_sqrt_cube_eq_rpow _ hd2]
        congr 1
        field_simp
  · unfold springAcc
    rw [Finset.sum_filter]

/-- A single-particle physics configuration with zero time step and the
engine's hard-coded damping. -/
def soloPhysics : PhysicsInputs :=
  { N := 1, W := 16, G := -(1 / 10000), springK := 1, eps := 1 / 10
    damping := 2 / 1000, dt := 0
    pos := fun _ => (0, 0, 0, 0), vel := fun _ => (1, 0, 0, 0)
    idMass := fun _ => (0, 1, 0, 0)
    edgePtr := fun _ => 0, edgeStore := fun _ => -1 }

/-- Witness for `C5_physics_step` at the single-particle configuration. -/
theorem C5_physics_step_witness :
    ((0 : Nat) < soloPhysics.N ∧ (0 : ℝ) ≤ soloPhysics.eps) ∧
      physVelOut soloPhysics 0 =
        (1 - soloPhysics.damping) •
          (xyz (soloPhysics.vel 0) + soloPhysics.dt • physAcc soloPhysics 0) ∧
      oMass soloPhysics 0 = soloPhysics.idMass 0 := by
  have h1 : (0 : Nat) < soloPhysics.N := by norm_num [soloPhysics]
  have h2 : (0 : ℝ) ≤ soloPhysics.eps := by norm_num [soloPhysics]
  have h := C5_physics_step soloPhysics 0 h1 h2
  exact ⟨⟨h1, h2⟩, h.2.1, h.2.2.2.2.2⟩

/-! ## One tick of the particle state

Within `GraphLayout.run`, the particle textures are transformed by the
physics kernel (current -> scratch) followed by the reshuffle
(scratch -> current); the remaining kernels of the tick only touch the
edge store, the edge pointers, the identity map and the coarse map. -/

def tickPos (P : PhysicsInputs) (offs : Nat) (ord : Nat → Nat → Nat → Nat) :
    Nat → Vec4 :=
  reshuffleOut P.N offs ord (oPos P)

def tickVel (P : PhysicsInputs) (offs : Nat) (ord : Nat → Nat → Nat → Nat) :
    Nat → Vec4 :=
  reshuffleOut P.N offs ord (oVel P)

def tickIdMass (P : PhysicsInputs) (offs : Nat) (ord : Nat → Nat → Nat → Nat) :
    Nat → Vec4 :=
  reshuffleOut P.N offs ord (oMass P)

theorem tickVel_solo :
    tickVel soloPhysics 0 zeroOrd 0 = (1 - 2 / 1000, 0, 0, 0) := by
  have hsrc : reshuffleSrc 1 0 zeroOrd 0 = 0 := by decide
  unfold tickVel reshuffleOut
  rw [show soloPhysics.N = 1 from rfl, hsrc]
  unfold oVel physVelOut
  have hv : xyz (soloPhysics.vel 0) = (1, 0, 0) := by
    norm_num [soloPhysics, xyz]
  have hdt : soloPhysics.dt = 0 := rfl
  have hdamp : soloPhysics.damping = 2 / 1000 := rfl
  rw [hv, hdt, hdamp, zero_smul, add_zero]
  have hw : (soloPhysics.vel 0).2.2.2 = 0 := by norm_num [soloPhysics]
  rw [hw]
  norm_num [Prod.smul_mk, smul_eq_mul]

/-- Claim C6, counterexample: with `dt = 0` the engine's tick does alter
velocities.  One particle with PID 0, velocity `(1, 0, 0)` and the
engine's hard-coded damping 0.002 ends the tick (in the slot its PID
occupies, which is still slot 0) with velocity `(0.998, 0, 0)`, so the
(position, velocity) pair associated with PID 0 changes. -/
theorem C6_counterexample :
    (xyz (tickPos soloPhysics 0 zeroOrd 0), xyz (tickVel soloPhysics 0 zeroOrd 0)) ≠
      (xyz (soloPhysics.pos 0), xyz (soloPhysics.vel 0)) := by
  have hx : (xyz (tickVel soloPhysics 0 zeroOrd 0)).1 = 1 - 2 / 1000 := by
    rw [tickVel_solo]
    rfl
  intro hcontra
  have hsnd : xyz (tickVel soloPhysics 0 zeroOrd 0) = xyz (soloPhysics.vel 0) :=
    congrArg Prod.snd hcontra
  have hone : (1 : ℝ) - 2 / 1000 = 1 := by
    rw [← hx, hsnd]
    rfl
  norm_num at hone

/-- Claim C6 (amended): with `dt = 0`, one tick reshuffles the particle
state by the atlas permutation but leaves every particle's position
unchanged and multiplies its velocity by `1 - damping`; the id/mass texel
(PID and mass) is carried over unchanged.  In particular the position
associated with each PID is identical before and after the tick, while
the velocity is identical only up to the damping factor. -/
theorem C6_zero_dt_tick (P : PhysicsInputs) (offs : Nat)
    (ord : Nat → Nat → Nat → Nat)
    (hdt : P.dt = 0)
    (hchunks : ∀ c, c < (P.N - offs) / 128 → PermOn (atlasByte ord c) 128) :
    PermOn (reshuffleSrc P.N offs ord) P.N ∧
      ∀ i, i < P.N →
        xyz (tickPos P offs ord i) = xyz (P.pos (reshuffleSrc P.N offs ord i)) ∧
        xyz (tickVel P offs ord i) =
          (1 - P.damping) • xyz (P.vel (reshuffleSrc P.N offs ord i)) ∧
        tickIdMass P offs ord i = P.idMass (reshuffleSrc P.N offs ord i) := by
  refine ⟨reshuffleSrc_permOn P.N offs ord hchunks, ?_⟩
  intro i _
  have hvel : ∀ j, physVelOut P j = (1 - P.damping) • xyz (P.vel j) := by
    intro j
    unfold physVelOut
    rw [hdt, zero_smul, add_zero]
  have hpos : ∀ j, physPosOut P j = xyz (P.pos j) := by
    intro j
    unfold physPosOut
    rw [hdt, zero_smul, add_zero]
  refine ⟨?_, ?_, rfl⟩
  · unfold tickPos reshuffleOut oPos
    rw [hpos]
    rfl
  · unfold tickVel reshuffleOut oVel
    rw [hvel]
    rfl

end PhysicsModel

/-- Witness for `C6_zero_dt_tick` at the single-particle configuration. -/
theorem C6_zero_dt_tick_witness :
    (soloPhysics.dt = 0 ∧
      (∀ c, c < (soloPhysics.N - 0) / 128 → PermOn (atlasByte zeroOrd c) 128)) ∧
      PermOn (reshuffleSrc soloPhysics.N 0 zeroOrd) soloPhysics.N ∧
      xyz (tickPos soloPhysics 0 zeroOrd 0) =
        xyz (soloPhysics.pos (reshuffleSrc soloPhysics.N 0 zeroOrd 0)) := by
  have hdt : soloPhysics.dt = 0 := rfl
  have hchunks : ∀ c, c < (soloPhysics.N - 0) / 128 → PermOn (atlasByte zeroOrd c) 128 := by
    intro c hc
    simp [soloPhysics] at hc
  have h := C6_zero_dt_tick soloPhysics 0 zeroOrd hdt hchunks
  exact ⟨⟨hdt, hchunks⟩, h.1, (h.2 0 (by norm_num [soloPhysics])).1⟩

/-! ## KSortEncoder: the chunked 128-wide bitonic sort (C7)

The KSortEncoder fragment shader loads, for its chunk, the 128 SFC keys
(`keys[i] = fetchSFC(base + i)` inside `[0, N)`, sentinel `1.0e37`
outside) and the local indices (`ids[i] = i`), runs the in-place bitonic
sorting network

```
for (int k = 2; k <= CHUNK; k <<= 1)
  for (int j = k >> 1; j > 0; j >>= 1)
    for (int i = 0; i < CHUNK; i++) {
      int l = i ^ j;
      if (l > i) {
        bool dir = (i & k) == 0;
        if ((keys[i] > keys[l]) == dir) { swap keys; swap ids; }
      }
    }
```

on the two arrays in lockstep, and emits the ids.  The array pair is
modelled as a map from the local index to its (key, id) pair, and each
innermost-loop iteration as a state transformer. -/

/-- One iteration (at loop counter `i`) of the innermost bitonic loop:
when `l = i ^ j` is above `i` and the compare-to-direction test fires,
the entries at `i` and `l` are swapped (keys and ids together). -/
def ceStep (k j : Nat) (f : Nat → ℚ × ℕ) (i : Nat) : Nat → ℚ × ℕ :=
  if i < i ^^^ j ∧ decide ((f i).1 > (f (i ^^^ j)).1) = ((i &&& k) == 0) then
    Function.update (Function.update f i (f (i ^^^ j))) (i ^^^ j) (f i)
  else f

/-- One full pass of the bitonic network: the innermost loop
`for (i = 0; i < n; i++)` at fixed stage `k` and span `j`. -/
def cePass (k j n : Nat) (f : Nat → ℚ × ℕ) : Nat → ℚ × ℕ :=
  (List.range n).foldl (ceStep k j) f

/-- The span sequence `j = k >> 1; j > 0; j >>= 1` of one stage, driven
by fuel (8 suffices for every stage of a 128-wide chunk). -/
def jListFuel : Nat → Nat → List Nat
  | 0, _ => []
  | _ + 1, 0 => []
  | fuel + 1, j + 1 => (j + 1) :: jListFuel fuel ((j + 1) / 2)

/-- The stage sequence `k = 2; k <= chunk; k <<= 1`, driven by fuel. -/
def kListFuel (chunk : Nat) : Nat → Nat → List Nat
  | 0, _ => []
  | fuel + 1, k => if k ≤ chunk then k :: kListFuel chunk fuel (2 * k) else []

/-- One stage of the bitonic network: all spans of stage `k` in order. -/
def bitonicStage (f : Nat → ℚ × ℕ) (k : Nat) : Nat → ℚ × ℕ :=
  (jListFuel 8 (k / 2)).foldl (fun g j => cePass k j 128 g) f

/-- The full bitonic sorting network of the encoder (chunk width 128,
`this.sortSpanSize = 128` in GraphLayout). -/
def bitonicNetwork (f : Nat → ℚ × ℕ) : Nat → ℚ × ℕ :=
  (kListFuel 128 8 2).foldl bitonicStage f

/-- `fetchSFC`: reads the SFC key of global slot `(i + N) % N` from the
position texture's `w` channel. -/
def fetchSFC (N : Nat) (sfc : Nat → ℚ) (i : Int) : ℚ :=
  sfc ((i + N) % N).toNat

/-- The key array loaded by the encoder for a chunk whose first global
slot is `base` (`base = chunkIndex * CHUNK + u_sortOffset`): in-range
slots read their SFC key, out-of-range slots get the sentinel `1.0e37`. -/
def chunkKeys (N : Nat) (sfc : Nat → ℚ) (base : Int) (i : Nat) : ℚ :=
  if 0 ≤ base + i ∧ base + i < N then fetchSFC N sfc (base + i) else 10 ^ 37

/-- The encoder's initial array pair: `keys[i]` and `ids[i] = i`. -/
def encoderInit (N : Nat) (sfc : Nat → ℚ) (base : Int) : Nat → ℚ × ℕ :=
  fun i => (chunkKeys N sfc base i, i)

/-- The encoder's emitted array pair for one chunk. -/
def encoderRun (N : Nat) (sfc : Nat → ℚ) (base : Int) : Nat → ℚ × ℕ :=
  bitonicNetwork (encoderInit N sfc base)

/-- The pointwise effect of one full pass: position `i` keeps its pair or
receives its partner's pair, the test being evaluated (at the lower index
of the pair) on the original state — the sequential innermost loop acts
on pairwise-disjoint index pairs, so it behaves as a parallel step. -/
def cePoint (k j : Nat) (f : Nat → ℚ × ℕ) : Nat → ℚ × ℕ := fun i =>
  if i < i ^^^ j then
    if decide ((f i).1 > (f (i ^^^ j)).1) = ((i &&& k) == 0) then f (i ^^^ j) else f i
  else if i ^^^ j < i then
    if decide ((f (i ^^^ j)).1 > (f i).1) = (((i ^^^ j) &&& k) == 0) then f (i ^^^ j)
    else f i
  else f i


theorem cePass_invariant (k j : Nat) (f : Nat → ℚ × ℕ) :
    ∀ n i, cePass k j n f i =
      if min i (i ^^^ j) < n then cePoint k j f i else f i := by
  intro n
  induction n with
  | zero =>
    intro i
    simp [cePass]
  | succ n ih =>
    intro i
    have hstep : cePass k j (n + 1) f = ceStep k j (cePass k j n f) n := by
      unfold cePass
      rw [List.range_succ, List.foldl_append, List.foldl_cons, List.foldl_nil]
    rw [hstep]
    have hxc : (n ^^^ j) ^^^ j = n := Nat.xor_cancel_right j n
    by_cases hA : n < n ^^^ j
    · -- iteration n processes the pair (n, n ^^^ j) on original values
      have hgn : cePass k j n f n = f n := by
        rw [ih n, if_neg]
        omega
      have hgl : cePass k j n f (n ^^^ j) = f (n ^^^ j) := by
        rw [ih (n ^^^ j), if_neg]
        rw [hxc]
        omega
      by_cases hc : decide ((f n).1 > (f (n ^^^ j)).1) = ((n &&& k) == 0)
      · -- the compare fires: the pair is swapped
        have hguard : ceStep k j (cePass k j n f) n =
            Function.update (Function.update (cePass k j n f) n
              (cePass k j n f (n ^^^ j))) (n ^^^ j) (cePass k j n f n) := by
          unfold ceStep
          rw [if_pos]
          refine ⟨hA, ?_⟩
          rw [hgn, hgl]
          exact hc
        rw [hguard, hgn, hgl]
        by_cases hi1 : i = n
        · subst hi1
          have hne : i ≠ i ^^^ j := Nat.ne_of_lt hA
          rw [Function.update_apply, if_neg hne, Function.update_same]
          rw [if_pos (by omega)]
          unfold cePoint
          rw [if_pos hA, if_pos hc]
        · by_cases hi2 : i = n ^^^ j
          · subst hi2
            rw [Function.update_same]
            rw [if_pos (by rw [hxc]; omega)]
            unfold cePoint
            rw [if_neg (by rw [hxc]; omega), if_pos (by rw [hxc]; exact hA)]
            rw [hxc, if_pos hc]
          · have hi2' : i ^^^ j ≠ n := by
              intro h
              exact hi2 (by rw [← h, Nat.xor_cancel_right])
            rw [Function.update_apply, if_neg hi2, Function.update_apply, if_neg hi1]
            rw [ih i]
            have hiff : min i (i ^^^ j) < n + 1 ↔ min i (i ^^^ j) < n := by
              rcases min_choice i (i ^^^ j) with h | h <;> omega
            by_cases hmin : min i (i ^^^ j) < n
            · rw [if_pos hmin, if_pos (hiff.mpr hmin)]
            · rw [if_neg hmin, if_neg (fun hcc => hmin (hiff.mp hcc))]
      · -- the compare does not fire: no change at iteration n
        have hguard : ceStep k j (cePass k j n f) n = cePass k j n f := by
          unfold ceStep
          rw [if_neg]
          intro hcon
          rw [hgn, hgl] at hcon
          exact hc hcon.2
        rw [hguard]
        by_cases hi1 : i = n
        · subst hi1
          rw [hgn, if_pos (by omega)]
          unfold cePoint
          rw [if_pos hA, if_neg hc]
        · by_cases hi2 : i = n ^^^ j
          · subst hi2
            rw [hgl, if_pos (by rw [hxc]; omega)]
            unfold cePoint
            rw [if_neg (by rw [hxc]; omega), if_pos (by rw [hxc]; exact hA)]
            rw [hxc, if_neg hc]
          · have hi2' : i ^^^ j ≠ n := by
              intro h
              exact hi2 (by rw [← h, Nat.xor_cancel_right])
            rw [ih i]
            have hiff : min i (i ^^^ j) < n + 1 ↔ min i (i ^^^ j) < n := by
              rcases min_choice i (i ^^^ j) with h | h <;> omega
            by_cases hmin : min i (i ^^^ j) < n
            · rw [if_pos hmin, if_pos (hiff.mpr hmin)]
            · rw [if_neg hmin, if_neg (fun hcc => hmin (hiff.mp hcc))]
    · -- iteration n is a read-only iteration (l ≤ n): no change
      have hguard : ceStep k j (cePass k j n f) n = cePass k j n f := by
        unfold ceStep
        rw [if_neg]
        intro hcon
        exact hA hcon.1
      rw [hguard, ih i]
      by_cases hmin : min i (i ^^^ j) < n
      · rw [if_pos hmin, if_pos (by omega)]
      · rw [if_neg hmin]
        by_cases hmin2 : min i (i ^^^ j) < n + 1
        · rw [if_pos hmin2]
          have h1 : min i (i ^^^ j) = n := by omega
          have hii : i ^^^ j = i ∧ i = n := by
            rcases min_choice i (i ^^^ j) with h | h
            · have h2 : i ≤ i ^^^ j := by
                have := Nat.min_le_right i (i ^^^ j)
                omega
              have hi : i = n := by omega
              have h3 : i ^^^ j ≤ n := by
                rw [hi]
                exact Nat.le_of_not_lt hA
              omega
            · have hixj : i ^^^ j = n := by omega
              have h3 : i ^^^ j ≤ i := by
                have := Nat.min_le_left i (i ^^^ j)
                omega
              have h2 : i ≤ n := by
                have hi : i = n ^^^ j := by rw [← hixj, Nat.xor_cancel_right]
                rw [hi]
                exact Nat.le_of_not_lt hA
              omega
          obtain ⟨hii1, hii2⟩ := hii
          unfold cePoint
          rw [if_neg (by omega), if_neg (by omega)]
        · rw [if_neg hmin2]

theorem cePass_eq_cePoint (k j n : Nat) (f : Nat → ℚ × ℕ) (i : Nat) (hi : i < n) :
    cePass k j n f i = cePoint k j f i := by
  rw [cePass_invariant k j f n i, if_pos]
  exact lt_of_le_of_lt (Nat.min_le_left _ _) hi

theorem ceStep_cases (k j : Nat) (f : Nat → ℚ × ℕ) (s : Nat) :
    ceStep k j f s = f ∨ ceStep k j f s = f ∘ (Equiv.swap s (s ^^^ j)) := by
  unfold ceStep
  by_cases h : s < s ^^^ j ∧ decide ((f s).1 > (f (s ^^^ j)).1) = ((s &&& k) == 0)
  · right
    rw [if_pos h]
    funext x
    have hne : s ≠ s ^^^ j := Nat.ne_of_lt h.1
    by_cases hx1 : x = s
    · subst hx1
      simp only [Function.comp_apply, Equiv.swap_apply_left]
      rw [Function.update_apply, if_neg hne, Function.update_same]
    · by_cases hx2 : x = s ^^^ j
      · subst hx2
        simp only [Function.comp_apply, Equiv.swap_apply_right]
        rw [Function.update_same]
      · simp only [Function.comp_apply, Equiv.swap_apply_of_ne_of_ne hx1 hx2]
        rw [Function.update_apply, if_neg hx2, Function.update_apply, if_neg hx1]
  · left
    rw [if_neg h]

theorem permOn_id (n : Nat) : PermOn (fun i => i) n :=
  ⟨fun i hi => hi, fun i _ j _ h => h⟩

theorem PermOn.comp {σ τ : Nat → Nat} {n : Nat} (hσ : PermOn σ n) (hτ : PermOn τ n) :
    PermOn (fun i => σ (τ i)) n :=
  ⟨fun i hi => hσ.1 _ (hτ.1 i hi),
   fun i hi j hj h => hτ.2 i hi j hj (hσ.2 _ (hτ.1 i hi) _ (hτ.1 j hj) h)⟩

theorem permOn_swap {a b n : Nat} (ha : a < n) (hb : b < n) :
    PermOn (fun i => Equiv.swap a b i) n := by
  constructor
  · intro i hi
    show Equiv.swap a b i < n
    by_cases h1 : i = a
    · subst h1
      rw [Equiv.swap_apply_left]
      exact hb
    · by_cases h2 : i = b
      · subst h2
        rw [Equiv.swap_apply_right]
        exact ha
      · rw [Equiv.swap_apply_of_ne_of_ne h1 h2]
        exact hi
  · intro i _ j _ h
    exact (Equiv.swap a b).injective h

/-- The sequential innermost loop, run over any list of indices below 128
with span `j < 128`, rearranges the state by a permutation of the local
indices `[0, 128)`. -/
theorem foldl_ceStep_perm (k j : Nat) (hj : j < 128) :
    ∀ (l : List Nat), (∀ s ∈ l, s < 128) → ∀ f : Nat → ℚ × ℕ,
      ∃ σ, PermOn σ 128 ∧ l.foldl (ceStep k j) f = f ∘ σ := by
  intro l
  induction l with
  | nil =>
    intro _ f
    exact ⟨fun i => i, permOn_id 128, rfl⟩
  | cons s t ih =>
    intro hl f
    have hs : s < 128 := hl s (List.mem_cons_self s t)
    have hsl : s ^^^ j < 128 := Nat.xor_lt_two_pow (n := 7) hs hj
    obtain ⟨σ, hσ, hfold⟩ := ih (fun x hx => hl x (List.mem_cons_of_mem s hx)) (ceStep k j f s)
    rcases ceStep_cases k j f s with h | h
    · refine ⟨σ, hσ, ?_⟩
      rw [List.foldl_cons, hfold, h]
    · refine ⟨fun i => Equiv.swap s (s ^^^ j) (σ i),
        PermOn.comp (permOn_swap hs hsl) hσ, ?_⟩
      rw [List.foldl_cons, hfold, h]
      rfl

theorem cePass_perm (k j : Nat) (hj : j < 128) (f : Nat → ℚ × ℕ) :
    ∃ σ, PermOn σ 128 ∧ cePass k j 128 f = f ∘ σ := by
  apply foldl_ceStep_perm k j hj
  intro s hs
  exact List.mem_range.mp hs

theorem foldl_cePass_perm (kk : Nat) :
    ∀ (js : List Nat), (∀ j ∈ js, j < 128) → ∀ f : Nat → ℚ × ℕ,
      ∃ σ, PermOn σ 128 ∧ js.foldl (fun g j => cePass kk j 128 g) f = f ∘ σ := by
  intro js
  induction js with
  | nil =>
    intro _ f
    exact ⟨fun i => i, permOn_id 128, rfl⟩
  | cons j t ih =>
    intro hk f
    have hj : j < 128 := hk j (List.mem_cons_self j t)
    obtain ⟨σ1, hσ1, h1⟩ := cePass_perm kk j hj f
    obtain ⟨σ2, hσ2, h2⟩ :=
      ih (fun x hx => hk x (List.mem_cons_of_mem j hx)) (cePass kk j 128 f)
    refine ⟨fun i => σ1 (σ2 i), PermOn.comp hσ1 hσ2, ?_⟩
    rw [List.foldl_cons, h2, h1]
    rfl

theorem bitonicStage_perm (kk : Nat) (f : Nat → ℚ × ℕ)
    (hk : ∀ j ∈ jListFuel 8 (kk / 2), j < 128) :
    ∃ σ, PermOn σ 128 ∧ bitonicStage f kk = f ∘ σ :=
  foldl_cePass_perm kk (jListFuel 8 (kk / 2)) hk f

theorem foldl_bitonicStage_perm :
    ∀ (ks : List Nat), (∀ kk ∈ ks, ∀ j ∈ jListFuel 8 (kk / 2), j < 128) →
      ∀ f : Nat → ℚ × ℕ,
      ∃ σ, PermOn σ 128 ∧ ks.foldl bitonicStage f = f ∘ σ := by
  intro ks
  induction ks with
  | nil =>
    intro _ f
    exact ⟨fun i => i, permOn_id 128, rfl⟩
  | cons kk t ih =>
    intro hks f
    obtain ⟨σ1, hσ1, h1⟩ := bitonicStage_perm kk f (hks kk (List.mem_cons_self kk t))
    obtain ⟨σ2, hσ2, h2⟩ :=
      ih (fun x hx => hks x (List.mem_cons_of_mem kk hx)) (bitonicStage f kk)
    refine ⟨fun i => σ1 (σ2 i), PermOn.comp hσ1 hσ2, ?_⟩
    rw [List.foldl_cons, h2, h1]
    rfl

/-- The whole bitonic network rearranges the initial (key, id) array by a
permutation of the local indices `[0, 128)`. -/
theorem bitonicNetwork_perm (f : Nat → ℚ × ℕ) :
    ∃ σ, PermOn σ 128 ∧ bitonicNetwork f = f ∘ σ := by
  apply foldl_bitonicStage_perm
  decide

/-! ### The network on constant keys

When all 128 keys of a chunk are equal, every compare `keys[i] > keys[l]`
is false, so a pair swaps exactly when its direction bit is descending.
The network then moves data along a fixed, key-independent index map,
which lets concrete outputs be computed without unfolding the folds. -/

/-- The source index feeding position `x` after one pass on constant
keys. -/
def passMap (k j x : Nat) : Nat :=
  if x < 128 then
    if x < x ^^^ j then (if x &&& k = 0 then x else x ^^^ j)
    else if x ^^^ j < x then (if (x ^^^ j) &&& k = 0 then x else x ^^^ j)
    else x
  else x

theorem passMap_lt (k j x : Nat) (hj : j < 128) (hx : x < 128) :
    passMap k j x < 128 := by
  have hx2 : x ^^^ j < 128 := Nat.xor_lt_two_pow (n := 7) hx hj
  unfold passMap
  rw [if_pos hx]
  split
  · split
    · exact hx
    · exact hx2
  · split
    · split
      · exact hx
      · exact hx2
    · exact hx

theorem cePass_const (k j : Nat) (hj : j < 128) (f : Nat → ℚ × ℕ) (c : ℚ)
    (hc : ∀ i, i < 128 → (f i).1 = c) :
    ∀ x, cePass k j 128 f x = f (passMap k j x) := by
  intro x
  by_cases hx : x < 128
  · have hx2 : x ^^^ j < 128 := Nat.xor_lt_two_pow (n := 7) hx hj
    rw [cePass_eq_cePoint k j 128 f x hx]
    unfold cePoint passMap
    rw [if_pos hx]
    by_cases h1 : x < x ^^^ j
    · rw [if_pos h1, if_pos h1]
      have hkey : ¬ ((f x).1 > (f (x ^^^ j)).1) := by
        rw [hc x hx, hc _ hx2]
        exact lt_irrefl c
      rw [decide_eq_false hkey]
      by_cases hk0 : x &&& k = 0
      · have hb : ((x &&& k) == 0) = true := by simp [hk0]
        rw [hb, if_neg Bool.false_ne_true, if_pos hk0]
      · have hb : ((x &&& k) == 0) = false := by simp [hk0]
        rw [hb, if_pos rfl, if_neg hk0]
    · rw [if_neg h1, if_neg h1]
      by_cases h2 : x ^^^ j < x
      · rw [if_pos h2, if_pos h2]
        have hkey : ¬ ((f (x ^^^ j)).1 > (f x).1) := by
          rw [hc x hx, hc _ hx2]
          exact lt_irrefl c
        rw [decide_eq_false hkey]
        by_cases hk0 : (x ^^^ j) &&& k = 0
        · have hb : (((x ^^^ j) &&& k) == 0) = true := by simp [hk0]
          rw [hb, if_neg Bool.false_ne_true, if_pos hk0]
        · have hb : (((x ^^^ j) &&& k) == 0) = false := by simp [hk0]
          rw [hb, if_pos rfl, if_neg hk0]
      · rw [if_neg h2, if_neg h2]
  · have hx2 : ¬ (x ^^^ j < 128) := by
      intro hcon
      have : (x ^^^ j) ^^^ j < 128 := Nat.xor_lt_two_pow (n := 7) hcon hj
      rw [Nat.xor_cancel_right] at this
      exact hx this
    rw [cePass_invariant k j f 128 x, if_neg (by omega)]
    unfold passMap
    rw [if_neg hx]

/-- The composed source map of a span list on constant keys (the source
of position `x` after running the spans in list order). -/
def chainMap (k : Nat) : List Nat → Nat → Nat
  | [], x => x
  | j :: rest, x => passMap k j (chainMap k rest x)

theorem chainMap_lt (k : Nat) :
    ∀ (js : List Nat), (∀ j ∈ js, j < 128) → ∀ x, x < 128 →
      chainMap k js x < 128 := by
  intro js
  induction js with
  | nil => intro _ x hx; exact hx
  | cons j t ih =>
    intro hj x hx
    exact passMap_lt k j _ (hj j (List.mem_cons_self j t))
      (ih (fun y hy => hj y (List.mem_cons_of_mem j hy)) x hx)

theorem foldl_cePass_const (k : Nat) :
    ∀ (js : List Nat), (∀ j ∈ js, j < 128) →
      ∀ (f : Nat → ℚ × ℕ) (c : ℚ), (∀ i, i < 128 → (f i).1 = c) →
      ∀ x, js.foldl (fun g j => cePass k j 128 g) f x = f (chainMap k js x) := by
  intro js
  induction js with
  | nil =>
    intro _ f c _ x
    rfl
  | cons j t ih =>
    intro hj f c hc x
    have hjh : j < 128 := hj j (List.mem_cons_self j t)
    have hc' : ∀ i, i < 128 → (cePass k j 128 f i).1 = c := by
      intro i hi
      rw [cePass_const k j hjh f c hc i]
      exact hc _ (passMap_lt k j i hjh hi)
    rw [List.foldl_cons,
      ih (fun y hy => hj y (List.mem_cons_of_mem j hy)) (cePass k j 128 f) c hc' x,
      cePass_const k j hjh f c hc]
    rfl

/-- The composed source map of one whole stage on constant keys. -/
def stageMap (k x : Nat) : Nat := chainMap k (jListFuel 8 (k / 2)) x

/-- The composed source map of a stage list on constant keys. -/
def netMap : List Nat → Nat → Nat
  | [], x => x
  | k :: rest, x => stageMap k (netMap rest x)

theorem foldl_stage_const :
    ∀ (ks : List Nat), (∀ kk ∈ ks, ∀ j ∈ jListFuel 8 (kk / 2), j < 128) →
      ∀ (f : Nat → ℚ × ℕ) (c : ℚ), (∀ i, i < 128 → (f i).1 = c) →
      ∀ x, ks.foldl bitonicStage f x = f (netMap ks x) := by
  intro ks
  induction ks with
  | nil =>
    intro _ f c _ x
    rfl
  | cons kk t ih =>
    intro hks f c hc x
    have hkj : ∀ j ∈ jListFuel 8 (kk / 2), j < 128 := hks kk (List.mem_cons_self kk t)
    have hstage : ∀ y, bitonicStage f kk y = f (stageMap kk y) := by
      intro y
      exact foldl_cePass_const kk (jListFuel 8 (kk / 2)) hkj f c hc y
    have hc' : ∀ i, i < 128 → (bitonicStage f kk i).1 = c := by
      intro i hi
      rw [hstage i]
      exact hc _ (chainMap_lt kk (jListFuel 8 (kk / 2)) hkj i hi)
    rw [List.foldl_cons,
      ih (fun y hy => hks y (List.mem_cons_of_mem kk hy)) (bitonicStage f kk) c hc' x,
      hstage]
    rfl

theorem bitonicNetwork_const (f : Nat → ℚ × ℕ) (c : ℚ)
    (hc : ∀ i, i < 128 → (f i).1 = c) (x : Nat) :
    bitonicNetwork f x = f (netMap (kListFuel 128 8 2) x) := by
  apply foldl_stage_const (kListFuel 128 8 2) (by decide) f c hc

/-- A texture whose SFC key channel is `0` everywhere: all particles of
the chunk share one spatial cell, so all live keys tie. -/
def constSfc : Nat → ℚ := fun _ => 0

theorem encoderInit_constSfc (i : Nat) (hi : i < 128) :
    (encoderInit 128 constSfc 0 i).1 = 0 := by
  show chunkKeys 128 constSfc 0 i = 0
  unfold chunkKeys
  rw [if_pos]
  · rfl
  · refine ⟨by omega, by omega⟩

/-- Claim C7, counterexample: the bitonic sort encoder is not a stable
sort.  On a chunk whose 128 keys are all equal (all particles in one SFC
cell, `N = 128`, `base = 0`), a stable ascending sort would emit the ids
in their original order `0, 1, 2, ...`; the network instead emits id `3`
at position 2 and id `2` at position 3, so the claimed tie-breaking by
original local index does not hold. -/
theorem C7_counterexample :
    ¬ (∀ s t, s < t → t < 128 →
        (encoderRun 128 constSfc 0 s).1 < (encoderRun 128 constSfc 0 t).1 ∨
        ((encoderRun 128 constSfc 0 s).1 = (encoderRun 128 constSfc 0 t).1 ∧
          (encoderRun 128 constSfc 0 s).2 ≤ (encoderRun 128 constSfc 0 t).2)) := by
  intro hcl
  have hrun : ∀ x, encoderRun 128 constSfc 0 x =
      encoderInit 128 constSfc 0 (netMap (kListFuel 128 8 2) x) := by
    intro x
    exact bitonicNetwork_const (encoderInit 128 constSfc 0) 0 encoderInit_constSfc x
  have e2 : encoderRun 128 constSfc 0 2 = (0, 3) := by
    rw [hrun 2]
    have hn : netMap (kListFuel 128 8 2) 2 = 3 := by decide
    rw [hn]
    show (chunkKeys 128 constSfc 0 3, 3) = ((0 : ℚ), 3)
    rw [show chunkKeys 128 constSfc 0 3 = 0 from encoderInit_constSfc 3 (by omega)]
  have e3 : encoderRun 128 constSfc 0 3 = (0, 2) := by
    rw [hrun 3]
    have hn : netMap (kListFuel 128 8 2) 3 = 2 := by decide
    rw [hn]
    show (chunkKeys 128 constSfc 0 2, 2) = ((0 : ℚ), 2)
    rw [show chunkKeys 128 constSfc 0 2 = 0 from encoderInit_constSfc 2 (by omega)]
  have hins := hcl 2 3 (by omega) (by omega)
  rw [e2, e3] at hins
  rcases hins with h | ⟨h1, h2⟩
  · exact lt_irrefl (0 : ℚ) h
  · exact absurd h2 (by decide)

/-! ### The network on keys alone

Each compare-exchange places `min` at the ascending end and `max` at the
descending end of its pair, regardless of the ids riding along.  The key
component of the network is therefore a comparator network in the
classical sense, over any linear order; sortedness is proved for `Bool`
sequences and transported along monotone maps (the 0-1 principle). -/

/-- The comparator effect of one pass on the key array alone, over an
arbitrary linear order. -/
def keyComp {γ : Type*} [LinearOrder γ] (k j : Nat) (g : Nat → γ) (i : Nat) : γ :=
  if i < i ^^^ j then
    if i &&& k = 0 then min (g i) (g (i ^^^ j)) else max (g i) (g (i ^^^ j))
  else if i ^^^ j < i then
    if (i ^^^ j) &&& k = 0 then max (g i) (g (i ^^^ j)) else min (g i) (g (i ^^^ j))
  else g i

/-- A sequence of comparator passes at fixed stage `k`. -/
def keyFold {γ : Type*} [LinearOrder γ] (k : Nat) (js : List Nat) (g : Nat → γ) :
    Nat → γ :=
  js.foldl (fun h j => keyComp k j h) g

/-- The key component of the whole network, one stage per element of
`ks`. -/
def keyNet {γ : Type*} [LinearOrder γ] (ks : List Nat) (g : Nat → γ) : Nat → γ :=
  ks.foldl (fun h k => keyFold k (jListFuel 8 (k / 2)) h) g

theorem cePoint_fst (k j : Nat) (f : Nat → ℚ × ℕ) (i : Nat) :
    (cePoint k j f i).1 = keyComp k j (fun x => (f x).1) i := by
  simp only [cePoint, keyComp]
  by_cases h1 : i < i ^^^ j
  · rw [if_pos h1, if_pos h1]
    by_cases hk0 : i &&& k = 0
    · have hb : ((i &&& k) == 0) = true := by simp [hk0]
      rw [hb, if_pos hk0]
      by_cases hab : (f i).1 > (f (i ^^^ j)).1
      · rw [decide_eq_true hab, if_pos rfl]
        exact (min_eq_right (le_of_lt hab)).symm
      · rw [decide_eq_false hab, if_neg Bool.false_ne_true]
        exact (min_eq_left (le_of_not_lt hab)).symm
    · have hb : ((i &&& k) == 0) = false := by simp [hk0]
      rw [hb, if_neg hk0]
      by_cases hab : (f i).1 > (f (i ^^^ j)).1
      · rw [decide_eq_true hab, if_neg (by simp)]
        exact (max_eq_left (le_of_lt hab)).symm
      · rw [decide_eq_false hab, if_pos rfl]
        exact (max_eq_right (le_of_not_lt hab)).symm
  · rw [if_neg h1, if_neg h1]
    by_cases h2 : i ^^^ j < i
    · rw [if_pos h2, if_pos h2]
      by_cases hk0 : (i ^^^ j) &&& k = 0
      · have hb : (((i ^^^ j) &&& k) == 0) = true := by simp [hk0]
        rw [hb, if_pos hk0]
        by_cases hab : (f (i ^^^ j)).1 > (f i).1
        · rw [decide_eq_true hab, if_pos rfl]
          exact (max_eq_right (le_of_lt hab)).symm
        · rw [decide_eq_false hab, if_neg Bool.false_ne_true]
          exact (max_eq_left (le_of_not_lt hab)).symm
      · have hb : (((i ^^^ j) &&& k) == 0) = false := by simp [hk0]
        rw [hb, if_neg hk0]
        by_cases hab : (f (i ^^^ j)).1 > (f i).1
        · rw [decide_eq_true hab, if_neg (by simp)]
          exact (min_eq_left (le_of_lt hab)).symm
        · rw [decide_eq_false hab, if_pos rfl]
          exact (min_eq_right (le_of_not_lt hab)).symm
    · rw [if_neg h2, if_neg h2]

theorem cePass_fst (k j : Nat) (f : Nat → ℚ × ℕ) (i : Nat) (hi : i < 128) :
    (cePass k j 128 f i).1 = keyComp k j (fun x => (f x).1) i := by
  rw [cePass_eq_cePoint k j 128 f i hi]
  exact cePoint_fst k j f i

theorem keyComp_congrOn {γ : Type*} [LinearOrder γ] (k j p : Nat) (hj : j < 2 ^ p)
    (g g' : Nat → γ) (h : ∀ s, s < 2 ^ p → g s = g' s) (i : Nat) (hi : i < 2 ^ p) :
    keyComp k j g i = keyComp k j g' i := by
  have hi2 : i ^^^ j < 2 ^ p := Nat.xor_lt_two_pow hi hj
  unfold keyComp
  rw [h i hi, h _ hi2]

theorem keyFold_congrOn {γ : Type*} [LinearOrder γ] (k p : Nat) (js : List Nat)
    (hjs : ∀ j ∈ js, j < 2 ^ p) :
    ∀ g g' : Nat → γ, (∀ s, s < 2 ^ p → g s = g' s) →
      ∀ i, i < 2 ^ p → keyFold k js g i = keyFold k js g' i := by
  induction js with
  | nil =>
    intro g g' h i hi
    exact h i hi
  | cons j t ih =>
    intro g g' h i hi
    have hj : j < 2 ^ p := hjs j (List.mem_cons_self j t)
    exact ih (fun y hy => hjs y (List.mem_cons_of_mem j hy))
      (keyComp k j g) (keyComp k j g')
      (fun s hs => keyComp_congrOn k j p hj g g' h s hs) i hi

theorem keyFold_fst (k : Nat) (js : List Nat) (hjs : ∀ j ∈ js, j < 128) :
    ∀ (f : Nat → ℚ × ℕ) (i : Nat), i < 128 →
      ((js.foldl (fun g j => cePass k j 128 g) f) i).1 =
        keyFold k js (fun x => (f x).1) i := by
  induction js with
  | nil =>
    intro f i _
    rfl
  | cons j t ih =>
    intro f i hi
    have hj : j < 128 := hjs j (List.mem_cons_self j t)
    rw [List.foldl_cons]
    rw [ih (fun y hy => hjs y (List.mem_cons_of_mem j hy)) (cePass k j 128 f) i hi]
    exact keyFold_congrOn k 7 t (fun y hy => hjs y (List.mem_cons_of_mem j hy))
      _ _ (fun s hs => cePass_fst k j f s hs) i hi

theorem keyNet_congrOn {γ : Type*} [LinearOrder γ] (ks : List Nat)
    (hks : ∀ kk ∈ ks, ∀ j ∈ jListFuel 8 (kk / 2), j < 128) :
    ∀ g g' : Nat → γ, (∀ s, s < 128 → g s = g' s) → ∀ i, i < 128 →
      keyNet ks g i = keyNet ks g' i := by
  induction ks with
  | nil =>
    intro g g' h i hi
    exact h i hi
  | cons kk t ih =>
    intro g g' h i hi
    show keyNet t (keyFold kk (jListFuel 8 (kk / 2)) g) i =
      keyNet t (keyFold kk (jListFuel 8 (kk / 2)) g') i
    exact ih (fun y hy => hks y (List.mem_cons_of_mem kk hy)) _ _
      (fun s hs =>
        keyFold_congrOn kk 7 _ (hks kk (List.mem_cons_self kk t)) g g' h s hs) i hi

theorem bitonicNetwork_fst_aux :
    ∀ (ks : List Nat), (∀ kk ∈ ks, ∀ j ∈ jListFuel 8 (kk / 2), j < 128) →
      ∀ (f : Nat → ℚ × ℕ) (i : Nat), i < 128 →
      ((ks.foldl bitonicStage f) i).1 = keyNet ks (fun x => (f x).1) i := by
  intro ks
  induction ks with
  | nil =>
    intro _ f i _
    rfl
  | cons kk t ih =>
    intro hks f i hi
    have hkj : ∀ j ∈ jListFuel 8 (kk / 2), j < 128 := hks kk (List.mem_cons_self kk t)
    rw [List.foldl_cons]
    rw [ih (fun y hy => hks y (List.mem_cons_of_mem kk hy)) (bitonicStage f kk) i hi]
    exact keyNet_congrOn t (fun y hy => hks y (List.mem_cons_of_mem kk hy)) _ _
      (fun s hs => keyFold_fst kk (jListFuel 8 (kk / 2)) hkj f s hs) i hi

/-- On the slots `[0, 128)`, the key component of the full network is the
pure comparator network applied to the initial keys. -/
theorem bitonicNetwork_fst (f : Nat → ℚ × ℕ) (i : Nat) (hi : i < 128) :
    (bitonicNetwork f i).1 = keyNet (kListFuel 128 8 2) (fun x => (f x).1) i :=
  bitonicNetwork_fst_aux (kListFuel 128 8 2) (by decide) f i hi

theorem keyComp_map {γ δ : Type*} [LinearOrder γ] [LinearOrder δ]
    (φ : γ → δ) (hφ : Monotone φ) (k j : Nat) (g : Nat → γ) :
    keyComp k j (fun x => φ (g x)) = fun i => φ (keyComp k j g i) := by
  funext i
  unfold keyComp
  by_cases h1 : i < i ^^^ j
  · rw [if_pos h1, if_pos h1]
    by_cases hk0 : i &&& k = 0
    · rw [if_pos hk0, if_pos hk0, hφ.map_min]
    · rw [if_neg hk0, if_neg hk0, hφ.map_max]
  · rw [if_neg h1, if_neg h1]
    by_cases h2 : i ^^^ j < i
    · rw [if_pos h2, if_pos h2]
      by_cases hk0 : (i ^^^ j) &&& k = 0
      · rw [if_pos hk0, if_pos hk0, hφ.map_max]
      · rw [if_neg hk0, if_neg hk0, hφ.map_min]
    · rw [if_neg h2, if_neg h2]

theorem keyFold_map {γ δ : Type*} [LinearOrder γ] [LinearOrder δ]
    (φ : γ → δ) (hφ : Monotone φ) (k : Nat) (js : List Nat) :
    ∀ g : Nat → γ, keyFold k js (fun x => φ (g x)) = fun i => φ (keyFold k js g i) := by
  induction js with
  | nil =>
    intro g
    rfl
  | cons j t ih =>
    intro g
    show keyFold k t (keyComp k j (fun x => φ (g x))) =
      fun i => φ (keyFold k t (keyComp k j g) i)
    rw [keyComp_map φ hφ k j g]
    exact ih (keyComp k j g)

theorem keyNet_map {γ δ : Type*} [LinearOrder γ] [LinearOrder δ]
    (φ : γ → δ) (hφ : Monotone φ) (ks : List Nat) :
    ∀ g : Nat → γ, keyNet ks (fun x => φ (g x)) = fun i => φ (keyNet ks g i) := by
  induction ks with
  | nil =>
    intro g
    rfl
  | cons kk t ih =>
    intro g
    show keyNet t (keyFold kk (jListFuel 8 (kk / 2)) (fun x => φ (g x))) =
      fun i => φ (keyNet t (keyFold kk (jListFuel 8 (kk / 2)) g) i)
    rw [keyFold_map φ hφ kk (jListFuel 8 (kk / 2)) g]
    exact ih (keyFold kk (jListFuel 8 (kk / 2)) g)

/-! ### Index arithmetic for aligned blocks -/

theorem testBit_mul_two_pow_add_lt (P q s i : Nat) (hi : i < P) :
    Nat.testBit (2 ^ P * q + s) i = Nat.testBit s i := by
  rw [Nat.testBit_to_div_mod, Nat.testBit_to_div_mod]
  have h1 : 2 ^ P * q = 2 ^ i * (2 ^ (P - i) * q) := by
    rw [← Nat.mul_assoc, ← Nat.pow_add]
    congr 2
    omega
  rw [h1, Nat.add_comm (2 ^ i * (2 ^ (P - i) * q)) s,
    Nat.add_mul_div_left s _ (Nat.two_pow_pos i)]
  have h2 : 2 ^ (P - i) * q = 2 ^ (P - i - 1) * q * 2 := by
    rw [Nat.mul_assoc, Nat.mul_comm q 2, ← Nat.mul_assoc, ← Nat.pow_succ]
    congr 2
    omega
  rw [h2, Nat.add_mul_mod_self_right]

theorem testBit_mul_two_pow_add_ge (P q s i : Nat) (hs : s < 2 ^ P) (hi : P ≤ i) :
    Nat.testBit (2 ^ P * q + s) i = Nat.testBit q (i - P) := by
  rw [Nat.testBit_to_div_mod, Nat.testBit_to_div_mod]
  have h2 : (2 ^ P * q + s) / 2 ^ P = q := by
    rw [Nat.add_comm, Nat.mul_comm, Nat.add_mul_div_right s q (Nat.two_pow_pos P),
      Nat.div_eq_of_lt hs]
    omega
  have h3 : 2 ^ i = 2 ^ P * 2 ^ (i - P) := by
    rw [← Nat.pow_add]
    congr 1
    omega
  rw [h3, ← Nat.div_div_eq_div_mul, h2]

/-- Xor with a span below the block size stays inside an aligned block. -/
theorem blockXor (P q r j : Nat) (hr : r < 2 ^ P) (hj : j < 2 ^ P) :
    (2 ^ P * q + r) ^^^ j = 2 ^ P * q + (r ^^^ j) := by
  apply Nat.eq_of_testBit_eq
  intro i
  rw [Nat.testBit_xor]
  by_cases h : i < P
  · rw [testBit_mul_two_pow_add_lt P q r i h,
      testBit_mul_two_pow_add_lt P q (r ^^^ j) i h, Nat.testBit_xor]
  · have hP : P ≤ i := Nat.le_of_not_lt h
    have hji : Nat.testBit j i = false :=
      Nat.testBit_lt_two_pow (lt_of_lt_of_le hj (Nat.pow_le_pow_right (by omega) hP))
    rw [hji, testBit_mul_two_pow_add_ge P q r i hr hP,
      testBit_mul_two_pow_add_ge P q (r ^^^ j) i (Nat.xor_lt_two_pow hr hj) hP,
      Bool.xor_false]

/-- The direction bit of stage `2^P` is constant on each aligned
`2^P`-block: it is the parity of the block number. -/
theorem blockAnd (P q s : Nat) (hs : s < 2 ^ P) :
    (2 ^ P * q + s) &&& 2 ^ P = if q % 2 = 0 then 0 else 2 ^ P := by
  have h1 : (2 ^ P * q + s) &&& 2 ^ P =
      (Nat.testBit (2 ^ P * q + s) P).toNat * 2 ^ P := Nat.and_two_pow _ P
  rw [h1, testBit_mul_two_pow_add_ge P q s P hs (le_refl P), Nat.sub_self,
    Nat.testBit_zero]
  rcases Nat.mod_two_eq_zero_or_one q with h | h
  · rw [if_pos h, decide_eq_false (show ¬ q % 2 = 1 by omega)]
    simp
  · rw [if_neg (by omega), decide_eq_true h]
    simp

/-! ### Bool sequences: the 0-1 sorting argument -/

/-- The span list `[2^(t-1), ..., 2, 1]` of the stage with block size
`2^t`. -/
def powList : Nat → List Nat
  | 0 => []
  | t + 1 => 2 ^ t :: powList t

theorem powList_mem_lt : ∀ t, ∀ j ∈ powList t, j < 2 ^ t := by
  intro t
  induction t with
  | zero =>
    intro j hj
    cases hj
  | succ t ih =>
    intro j hj
    rcases List.mem_cons.mp hj with h | h
    · subst h
      exact Nat.pow_lt_pow_right (by omega) (by omega)
    · exact lt_trans (ih j h) (Nat.pow_lt_pow_right (by omega) (by omega))

theorem jListFuel_zero : ∀ f, jListFuel f 0 = [] := by
  intro f
  cases f <;> rfl

theorem jListFuel_pow : ∀ t fuel, t < fuel → jListFuel fuel (2 ^ t) = powList (t + 1) := by
  intro t
  induction t with
  | zero =>
    intro fuel hf
    obtain ⟨f, rfl⟩ : ∃ f, fuel = f + 1 := ⟨fuel - 1, by omega⟩
    show 1 :: jListFuel f 0 = [1]
    rw [jListFuel_zero]
  | succ t ih =>
    intro fuel hf
    obtain ⟨f, rfl⟩ : ∃ f, fuel = f + 1 := ⟨fuel - 1, by omega⟩
    obtain ⟨m, hm⟩ : ∃ m, 2 ^ (t + 1) = m + 1 :=
      ⟨2 ^ (t + 1) - 1, by have := Nat.two_pow_pos (t + 1); omega⟩
    rw [hm]
    show (m + 1) :: jListFuel f ((m + 1) / 2) = powList (t + 2)
    have hdiv : (m + 1) / 2 = 2 ^ t := by
      rw [← hm, Nat.pow_succ, Nat.mul_div_cancel _ (by omega)]
    rw [hdiv, ih f (by omega)]
    show (m + 1) :: powList (t + 1) = 2 ^ (t + 1) :: powList (t + 1)
    rw [← hm]

/-- A 0-1 block of length `L` is ascending: all falses then all trues. -/
def AscB (v : Nat → Bool) (L : Nat) : Prop :=
  ∃ z, z ≤ L ∧ ∀ r, r < L → v r = decide (z ≤ r)

/-- A 0-1 block of length `L` is descending: all trues then all falses. -/
def DescB (v : Nat → Bool) (L : Nat) : Prop :=
  ∃ z, z ≤ L ∧ ∀ r, r < L → v r = decide (r < z)

/-- A 0-1 block that rises then falls: falses, trues, falses. -/
def UpDownB (v : Nat → Bool) (L : Nat) : Prop :=
  ∃ p q, p ≤ q ∧ q ≤ L ∧ ∀ r, r < L → v r = (decide (p ≤ r) && decide (r < q))

/-- A 0-1 block that falls then rises: trues, falses, trues. -/
def DownUpB (v : Nat → Bool) (L : Nat) : Prop :=
  ∃ p q, p ≤ q ∧ q ≤ L ∧ ∀ r, r < L → v r = (decide (r < p) || decide (q ≤ r))

/-- A 0-1 block is bitonic (in the cyclic sense). -/
def BitB (v : Nat → Bool) (L : Nat) : Prop :=
  UpDownB v L ∨ DownUpB v L

theorem bool_eq_of_iff {a b : Bool} (h : a = true ↔ b = true) : a = b := by
  cases a <;> cases b <;> simp_all

theorem bool_min_eq_and (a b : Bool) : min a b = (a && b) := by
  cases a <;> cases b <;> rfl

theorem bool_max_eq_or (a b : Bool) : max a b = (a || b) := by
  cases a <;> cases b <;> rfl

theorem ascB_bitB {v : Nat → Bool} {L : Nat} (h : AscB v L) : BitB v L := by
  obtain ⟨z, hz, hval⟩ := h
  refine Or.inl ⟨z, L, hz, le_refl L, ?_⟩
  intro r hr
  rw [hval r hr]
  apply bool_eq_of_iff
  simp only [Bool.and_eq_true, decide_eq_true_eq]
  omega

theorem descB_bitB {v : Nat → Bool} {L : Nat} (h : DescB v L) : BitB v L := by
  obtain ⟨z, hz, hval⟩ := h
  refine Or.inr ⟨z, L, hz, le_refl L, ?_⟩
  intro r hr
  rw [hval r hr]
  apply bool_eq_of_iff
  simp only [Bool.or_eq_true, decide_eq_true_eq]
  omega

/-- Xor with `2^t` on an index below `2^t` sets the bit: it adds `2^t`. -/
theorem xor_two_pow (t r : Nat) (hr : r < 2 ^ t) : r ^^^ 2 ^ t = r + 2 ^ t := by
  apply Nat.eq_of_testBit_eq
  intro i
  rw [Nat.testBit_xor, Nat.testBit_two_pow]
  have h1 : r + 2 ^ t = 2 ^ t * 1 + r := by omega
  rw [h1]
  rcases Nat.lt_trichotomy i t with h | h | h
  · rw [testBit_mul_two_pow_add_lt t 1 r i h, decide_eq_false (by omega),
      Bool.xor_false]
  · subst h
    rw [testBit_mul_two_pow_add_ge i 1 r i hr (le_refl i), Nat.sub_self,
      Nat.testBit_lt_two_pow hr, decide_eq_true rfl]
    decide
  · rw [testBit_mul_two_pow_add_ge t 1 r i hr (by omega), decide_eq_false (by omega),
      Bool.xor_false]
    have e1 : Nat.testBit r i = false := by
      refine Nat.testBit_lt_two_pow (lt_of_lt_of_le hr ?_)
      exact Nat.pow_le_pow_right (by omega) (by omega)
    have e2 : Nat.testBit 1 (i - t) = false := by
      refine Nat.testBit_lt_two_pow ?_
      have h2 : 2 ^ 1 ≤ 2 ^ (i - t) := Nat.pow_le_pow_right (by omega) (by omega)
      omega
    rw [e1, e2]

theorem keyComp0_apply {γ : Type*} [LinearOrder γ] (j : Nat) (v : Nat → γ) (i : Nat) :
    keyComp 0 j v i =
      if i < i ^^^ j then min (v i) (v (i ^^^ j))
      else if i ^^^ j < i then max (v i) (v (i ^^^ j))
      else v i := by
  unfold keyComp
  by_cases h1 : i < i ^^^ j
  · rw [if_pos h1, if_pos h1, if_pos (Nat.and_zero i)]
  · rw [if_neg h1, if_neg h1]
    by_cases h2 : i ^^^ j < i
    · rw [if_pos h2, if_pos h2, if_pos (Nat.and_zero (i ^^^ j))]
    · rw [if_neg h2, if_neg h2]

theorem keyComp0_first (t r : Nat) (v : Nat → Bool) (hr : r < 2 ^ t) :
    keyComp 0 (2 ^ t) v r = (v r && v (r + 2 ^ t)) := by
  have hx : r ^^^ 2 ^ t = r + 2 ^ t := xor_two_pow t r hr
  rw [keyComp0_apply, hx, if_pos (by have := Nat.two_pow_pos t; omega)]
  exact bool_min_eq_and _ _

theorem keyComp0_second (t r : Nat) (v : Nat → Bool) (hr : r < 2 ^ t) :
    keyComp 0 (2 ^ t) v (2 ^ t + r) = (v (2 ^ t + r) || v r) := by
  have hx : (2 ^ t + r) ^^^ 2 ^ t = r := by
    rw [show 2 ^ t + r = r ^^^ 2 ^ t from by rw [xor_two_pow t r hr]; omega,
      Nat.xor_cancel_right]
  rw [keyComp0_apply, hx, if_neg (by have := Nat.two_pow_pos t; omega),
    if_pos (by have := Nat.two_pow_pos t; omega)]
  exact bool_max_eq_or _ _

/-- Half-cleaner: one pass at span `2^t` on a bitonic 0-1 block of length
`2^(t+1)` leaves both halves bitonic, and one of them clean (first half
all-false or second half all-true). -/
theorem halfClean (t : Nat) (v : Nat → Bool) (hv : BitB v (2 ^ (t + 1))) :
    BitB (fun r => keyComp 0 (2 ^ t) v r) (2 ^ t) ∧
    BitB (fun r => keyComp 0 (2 ^ t) v (2 ^ t + r)) (2 ^ t) ∧
    ((∀ r, r < 2 ^ t → keyComp 0 (2 ^ t) v r = false) ∨
     (∀ r, r < 2 ^ t → keyComp 0 (2 ^ t) v (2 ^ t + r) = true)) := by
  have hpow : 2 ^ (t + 1) = 2 ^ t + 2 ^ t := by
    rw [pow_succ]
    omega
  have hw1 : ∀ r, r < 2 ^ t → keyComp 0 (2 ^ t) v r = (v r && v (r + 2 ^ t)) :=
    fun r hr => keyComp0_first t r v hr
  have hw2 : ∀ r, r < 2 ^ t → keyComp 0 (2 ^ t) v (2 ^ t + r) = (v (2 ^ t + r) || v r) :=
    fun r hr => keyComp0_second t r v hr
  rcases hv with ⟨p, q, hpq, hqL, hval⟩ | ⟨p, q, hpq, hqL, hval⟩
  · by_cases hq : q ≤ 2 ^ t
    · -- run inside the first half
      refine ⟨Or.inl ⟨0, 0, le_refl 0, Nat.zero_le _, ?_⟩,
        Or.inl ⟨p, q, hpq, hq, ?_⟩, Or.inl ?_⟩
      · intro r hr
        show keyComp 0 (2 ^ t) v r = _
        rw [hw1 r hr, hval r (by omega), hval (r + 2 ^ t) (by omega)]
        apply bool_eq_of_iff
        simp only [Bool.and_eq_true, Bool.or_eq_true, decide_eq_true_eq]
        omega
      · intro r hr
        show keyComp 0 (2 ^ t) v (2 ^ t + r) = _
        rw [hw2 r hr, hval (2 ^ t + r) (by omega), hval r (by omega)]
        apply bool_eq_of_iff
        simp only [Bool.and_eq_true, Bool.or_eq_true, decide_eq_true_eq]
        omega
      · intro r hr
        rw [hw1 r hr, hval r (by omega), hval (r + 2 ^ t) (by omega),
          Bool.eq_false_iff]
        simp only [ne_eq, Bool.and_eq_true, Bool.or_eq_true, decide_eq_true_eq]
        omega
    · by_cases hp : 2 ^ t ≤ p
      · -- run inside the second half
        refine ⟨Or.inl ⟨0, 0, le_refl 0, Nat.zero_le _, ?_⟩,
          Or.inl ⟨p - 2 ^ t, q - 2 ^ t, by omega, by omega, ?_⟩, Or.inl ?_⟩
        · intro r hr
          show keyComp 0 (2 ^ t) v r = _
          rw [hw1 r hr, hval r (by omega), hval (r + 2 ^ t) (by omega)]
          apply bool_eq_of_iff
          simp only [Bool.and_eq_true, Bool.or_eq_true, decide_eq_true_eq]
          omega
        · intro r hr
          show keyComp 0 (2 ^ t) v (2 ^ t + r) = _
          rw [hw2 r hr, hval (2 ^ t + r) (by omega), hval r (by omega)]
          apply bool_eq_of_iff
          simp only [Bool.and_eq_true, Bool.or_eq_true, decide_eq_true_eq]
          omega
        · intro r hr
          rw [hw1 r hr, hval r (by omega), hval (r + 2 ^ t) (by omega),
            Bool.eq_false_iff]
          simp only [ne_eq, Bool.and_eq_true, Bool.or_eq_true, decide_eq_true_eq]
          omega
      · by_cases hphq : p + 2 ^ t ≤ q
        · -- long run straddling the boundary: second half saturates
          refine ⟨Or.inl ⟨p, q - 2 ^ t, by omega, by omega, ?_⟩,
            Or.inr ⟨0, 0, le_refl 0, Nat.zero_le _, ?_⟩, Or.inr ?_⟩
          · intro r hr
            show keyComp 0 (2 ^ t) v r = _
            rw [hw1 r hr, hval r (by omega), hval (r + 2 ^ t) (by omega)]
            apply bool_eq_of_iff
            simp only [Bool.and_eq_true, Bool.or_eq_true, decide_eq_true_eq]
            omega
          · intro r hr
            show keyComp 0 (2 ^ t) v (2 ^ t + r) = _
            rw [hw2 r hr, hval (2 ^ t + r) (by omega), hval r (by omega)]
            apply bool_eq_of_iff
            simp only [Bool.and_eq_true, Bool.or_eq_true, decide_eq_true_eq]
            omega
          · intro r hr
            rw [hw2 r hr, hval (2 ^ t + r) (by omega), hval r (by omega)]
            simp only [Bool.or_eq_true, Bool.and_eq_true, decide_eq_true_eq]
            omega
        · -- short run straddling the boundary: first half empties
          refine ⟨Or.inl ⟨0, 0, le_refl 0, Nat.zero_le _, ?_⟩,
            Or.inr ⟨q - 2 ^ t, p, by omega, by omega, ?_⟩, Or.inl ?_⟩
          · intro r hr
            show keyComp 0 (2 ^ t) v r = _
            rw [hw1 r hr, hval r (by omega), hval (r + 2 ^ t) (by omega)]
            apply bool_eq_of_iff
            simp only [Bool.and_eq_true, Bool.or_eq_true, decide_eq_true_eq]
            omega
          · intro r hr
            show keyComp 0 (2 ^ t) v (2 ^ t + r) = _
            rw [hw2 r hr, hval (2 ^ t + r) (by omega), hval r (by omega)]
            apply bool_eq_of_iff
            simp only [Bool.and_eq_true, Bool.or_eq_true, decide_eq_true_eq]
            omega
          · intro r hr
            rw [hw1 r hr, hval r (by omega), hval (r + 2 ^ t) (by omega),
              Bool.eq_false_iff]
            simp only [ne_eq, Bool.and_eq_true, Bool.or_eq_true, decide_eq_true_eq]
            omega
  · by_cases hq : q ≤ 2 ^ t
    · -- trues at both ends, dip inside the first half
      refine ⟨Or.inr ⟨p, q, hpq, hq, ?_⟩,
        Or.inr ⟨0, 0, le_refl 0, Nat.zero_le _, ?_⟩, Or.inr ?_⟩
      · intro r hr
        show keyComp 0 (2 ^ t) v r = _
        rw [hw1 r hr, hval r (by omega), hval (r + 2 ^ t) (by omega)]
        apply bool_eq_of_iff
        simp only [Bool.and_eq_true, Bool.or_eq_true, decide_eq_true_eq]
        omega
      · intro r hr
        show keyComp 0 (2 ^ t) v (2 ^ t + r) = _
        rw [hw2 r hr, hval (2 ^ t + r) (by omega), hval r (by omega)]
        apply bool_eq_of_iff
        simp only [Bool.and_eq_true, Bool.or_eq_true, decide_eq_true_eq]
        omega
      · intro r hr
        rw [hw2 r hr, hval (2 ^ t + r) (by omega), hval r (by omega)]
        simp only [Bool.or_eq_true, Bool.and_eq_true, decide_eq_true_eq]
        omega
    · by_cases hp : 2 ^ t ≤ p
      · -- dip inside the second half
        refine ⟨Or.inr ⟨p - 2 ^ t, q - 2 ^ t, by omega, by omega, ?_⟩,
          Or.inr ⟨0, 0, le_refl 0, Nat.zero_le _, ?_⟩, Or.inr ?_⟩
        · intro r hr
          show keyComp 0 (2 ^ t) v r = _
          rw [hw1 r hr, hval r (by omega), hval (r + 2 ^ t) (by omega)]
          apply bool_eq_of_iff
          simp only [Bool.and_eq_true, Bool.or_eq_true, decide_eq_true_eq]
          omega
        · intro r hr
          show keyComp 0 (2 ^ t) v (2 ^ t + r) = _
          rw [hw2 r hr, hval (2 ^ t + r) (by omega), hval r (by omega)]
          apply bool_eq_of_iff
          simp only [Bool.and_eq_true, Bool.or_eq_true, decide_eq_true_eq]
          omega
        · intro r hr
          rw [hw2 r hr, hval (2 ^ t + r) (by omega), hval r (by omega)]
          simp only [Bool.or_eq_true, Bool.and_eq_true, decide_eq_true_eq]
          omega
      · by_cases hqp : q ≤ p + 2 ^ t
        · -- short dip straddling the boundary: second half saturates
          refine ⟨Or.inl ⟨q - 2 ^ t, p, by omega, by omega, ?_⟩,
            Or.inr ⟨0, 0, le_refl 0, Nat.zero_le _, ?_⟩, Or.inr ?_⟩
          · intro r hr
            show keyComp 0 (2 ^ t) v r = _
            rw [hw1 r hr, hval r (by omega), hval (r + 2 ^ t) (by omega)]
            apply bool_eq_of_iff
            simp only [Bool.and_eq_true, Bool.or_eq_true, decide_eq_true_eq]
            omega
          · intro r hr
            show keyComp 0 (2 ^ t) v (2 ^ t + r) = _
            rw [hw2 r hr, hval (2 ^ t + r) (by omega), hval r (by omega)]
            apply bool_eq_of_iff
            simp only [Bool.and_eq_true, Bool.or_eq_true, decide_eq_true_eq]
            omega
          · intro r hr
            rw [hw2 r hr, hval (2 ^ t + r) (by omega), hval r (by omega)]
            simp only [Bool.or_eq_true, Bool.and_eq_true, decide_eq_true_eq]
            omega
        · -- long dip straddling the boundary: first half empties
          refine ⟨Or.inl ⟨0, 0, le_refl 0, Nat.zero_le _, ?_⟩,
            Or.inr ⟨p, q - 2 ^ t, by omega, by omega, ?_⟩, Or.inl ?_⟩
          · intro r hr
            show keyComp 0 (2 ^ t) v r = _
            rw [hw1 r hr, hval r (by omega), hval (r + 2 ^ t) (by omega)]
            apply bool_eq_of_iff
            simp only [Bool.and_eq_true, Bool.or_eq_true, decide_eq_true_eq]
            omega
          · intro r hr
            show keyComp 0 (2 ^ t) v (2 ^ t + r) = _
            rw [hw2 r hr, hval (2 ^ t + r) (by omega), hval r (by omega)]
            apply bool_eq_of_iff
            simp only [Bool.and_eq_true, Bool.or_eq_true, decide_eq_true_eq]
            omega
          · intro r hr
            rw [hw1 r hr, hval r (by omega), hval (r + 2 ^ t) (by omega),
              Bool.eq_false_iff]
            simp only [ne_eq, Bool.and_eq_true, Bool.or_eq_true, decide_eq_true_eq]
            omega

/-- The ascending merge of a block of size `2^t`: spans `2^(t-1), ..., 1`
with the ascending comparator (`k = 0` makes every direction bit
ascending). -/
def mergeA (t : Nat) (v : Nat → Bool) : Nat → Bool := keyFold 0 (powList t) v

theorem keyComp0_shift (t j : Nat) (hj : j < 2 ^ t) (v : Nat → Bool)
    (s : Nat) (hs : s < 2 ^ t) :
    keyComp 0 j v (2 ^ t + s) = keyComp 0 j (fun x => v (2 ^ t + x)) s := by
  have hx : (2 ^ t + s) ^^^ j = 2 ^ t + (s ^^^ j) := by
    have h := blockXor t 1 s j hs hj
    rw [Nat.mul_one] at h
    exact h
  rw [keyComp0_apply, keyComp0_apply, hx]
  by_cases h1 : s < s ^^^ j
  · rw [if_pos (by omega), if_pos h1]
  · rw [if_neg (by omega), if_neg h1]
    by_cases h2 : s ^^^ j < s
    · rw [if_pos (by omega), if_pos h2]
    · rw [if_neg (by omega), if_neg h2]

theorem keyFold0_shift (t : Nat) :
    ∀ (js : List Nat), (∀ j ∈ js, j < 2 ^ t) → ∀ (v : Nat → Bool) (r : Nat), r < 2 ^ t →
      keyFold 0 js v (2 ^ t + r) = keyFold 0 js (fun s => v (2 ^ t + s)) r := by
  intro js
  induction js with
  | nil =>
    intro _ v r _
    rfl
  | cons j rest ih =>
    intro hjs v r hr
    have hj : j < 2 ^ t := hjs j (List.mem_cons_self j rest)
    have hrest : ∀ x ∈ rest, x < 2 ^ t := fun x hx => hjs x (List.mem_cons_of_mem j hx)
    show keyFold 0 rest (keyComp 0 j v) (2 ^ t + r) =
      keyFold 0 rest (keyComp 0 j (fun x => v (2 ^ t + x))) r
    rw [ih hrest (keyComp 0 j v) r hr]
    exact keyFold_congrOn 0 t rest hrest _ _
      (fun s hs => keyComp0_shift t j hj v s hs) r hr

theorem keyFold0_preserve_false (t : Nat) :
    ∀ (js : List Nat), (∀ j ∈ js, j < 2 ^ t) →
      ∀ v : Nat → Bool, (∀ r, r < 2 ^ t → v r = false) →
      ∀ r, r < 2 ^ t → keyFold 0 js v r = false := by
  intro js
  induction js with
  | nil =>
    intro _ v hall r hr
    exact hall r hr
  | cons j rest ih =>
    intro hjs v hall r hr
    have hj : j < 2 ^ t := hjs j (List.mem_cons_self j rest)
    have hrest : ∀ x ∈ rest, x < 2 ^ t := fun x hx => hjs x (List.mem_cons_of_mem j hx)
    show keyFold 0 rest (keyComp 0 j v) r = false
    refine ih hrest (keyComp 0 j v) ?_ r hr
    intro s hs
    have hva := hall s hs
    have hvb := hall (s ^^^ j) (Nat.xor_lt_two_pow hs hj)
    by_cases h1 : s < s ^^^ j
    · rw [keyComp0_apply, if_pos h1, bool_min_eq_and, hva, hvb]
      rfl
    · by_cases h2 : s ^^^ j < s
      · rw [keyComp0_apply, if_neg h1, if_pos h2, bool_max_eq_or, hva, hvb]
        rfl
      · rw [keyComp0_apply, if_neg h1, if_neg h2]
        exact hva

theorem keyFold0_preserve_true (t : Nat) :
    ∀ (js : List Nat), (∀ j ∈ js, j < 2 ^ t) →
      ∀ v : Nat → Bool, (∀ r, r < 2 ^ t → v r = true) →
      ∀ r, r < 2 ^ t → keyFold 0 js v r = true := by
  intro js
  induction js with
  | nil =>
    intro _ v hall r hr
    exact hall r hr
  | cons j rest ih =>
    intro hjs v hall r hr
    have hj : j < 2 ^ t := hjs j (List.mem_cons_self j rest)
    have hrest : ∀ x ∈ rest, x < 2 ^ t := fun x hx => hjs x (List.mem_cons_of_mem j hx)
    show keyFold 0 rest (keyComp 0 j v) r = true
    refine ih hrest (keyComp 0 j v) ?_ r hr
    intro s hs
    have hva := hall s hs
    have hvb := hall (s ^^^ j) (Nat.xor_lt_two_pow hs hj)
    by_cases h1 : s < s ^^^ j
    · rw [keyComp0_apply, if_pos h1, bool_min_eq_and, hva, hvb]
      rfl
    · by_cases h2 : s ^^^ j < s
      · rw [keyComp0_apply, if_neg h1, if_pos h2, bool_max_eq_or, hva, hvb]
        rfl
      · rw [keyComp0_apply, if_neg h1, if_neg h2]
        exact hva

/-- The ascending bitonic merge sorts every bitonic 0-1 block. -/
theorem mergeA_sorts : ∀ t, ∀ v : Nat → Bool, BitB v (2 ^ t) → AscB (mergeA t v) (2 ^ t) := by
  intro t
  induction t with
  | zero =>
    intro v _
    refine ⟨if v 0 = true then 0 else 1, by split <;> omega, ?_⟩
    intro r hr
    have hr0 : r = 0 := by omega
    subst hr0
    show v 0 = _
    by_cases h : v 0 = true
    · rw [if_pos h, h]
      decide
    · rw [if_neg h, Bool.eq_false_iff.mpr h]
      decide
  | succ t ih =>
    intro v hv
    have hpow : 2 ^ (t + 1) = 2 ^ t + 2 ^ t := by
      rw [pow_succ]
      omega
    obtain ⟨hB1, hB2, hclean⟩ := halfClean t v hv
    have hpeel : mergeA (t + 1) v = mergeA t (keyComp 0 (2 ^ t) v) := rfl
    have hfirst : AscB (mergeA t (keyComp 0 (2 ^ t) v)) (2 ^ t) := ih _ hB1
    have hshift : ∀ r, r < 2 ^ t →
        mergeA t (keyComp 0 (2 ^ t) v) (2 ^ t + r) =
          mergeA t (fun s => keyComp 0 (2 ^ t) v (2 ^ t + s)) r := by
      intro r hr
      exact keyFold0_shift t (powList t) (powList_mem_lt t) _ r hr
    have hsecond : AscB (mergeA t (fun s => keyComp 0 (2 ^ t) v (2 ^ t + s))) (2 ^ t) :=
      ih _ hB2
    rw [hpeel]
    rcases hclean with hcl | hcl
    · -- first half all-false survives the sub-merges
      have hallf : ∀ r, r < 2 ^ t → mergeA t (keyComp 0 (2 ^ t) v) r = false :=
        keyFold0_preserve_false t (powList t) (powList_mem_lt t) _ hcl
      obtain ⟨z2, hz2, hval2⟩ := hsecond
      refine ⟨2 ^ t + z2, by omega, ?_⟩
      intro r hr
      by_cases h1 : r < 2 ^ t
      · rw [hallf r h1, decide_eq_false (by omega)]
      · obtain ⟨r', rfl⟩ : ∃ r', r = 2 ^ t + r' := ⟨r - 2 ^ t, by omega⟩
        have hr'lt : r' < 2 ^ t := by omega
        rw [hshift r' hr'lt, hval2 r' hr'lt]
        apply bool_eq_of_iff
        simp only [decide_eq_true_eq]
        omega
    · -- second half all-true survives the sub-merges
      have hallt : ∀ r, r < 2 ^ t → mergeA t (keyComp 0 (2 ^ t) v) (2 ^ t + r) = true := by
        intro r hr
        rw [hshift r hr]
        exact keyFold0_preserve_true t (powList t) (powList_mem_lt t) _ hcl r hr
      obtain ⟨z1, hz1, hval1⟩ := hfirst
      refine ⟨z1, by omega, ?_⟩
      intro r hr
      by_cases h1 : r < 2 ^ t
      · rw [hval1 r h1]
      · obtain ⟨r', rfl⟩ : ∃ r', r = 2 ^ t + r' := ⟨r - 2 ^ t, by omega⟩
        have hr'lt : r' < 2 ^ t := by omega
        rw [hallt r' hr'lt, decide_eq_true (by omega)]

/-- The descending comparator: `max` at the low index, `min` at the high
index (the `dir = false` behaviour of the network, on `Bool`). -/
def descComp (j : Nat) (v : Nat → Bool) (i : Nat) : Bool :=
  if i < i ^^^ j then (v i || v (i ^^^ j))
  else if i ^^^ j < i then (v i && v (i ^^^ j))
  else v i

/-- A sequence of descending comparator passes. -/
def descFold (js : List Nat) (v : Nat → Bool) : Nat → Bool :=
  js.foldl (fun h j => descComp j h) v

/-- The descending merge of a block of size `2^t`. -/
def mergeD (t : Nat) (v : Nat → Bool) : Nat → Bool := descFold (powList t) v

theorem descComp_dual (j : Nat) (v : Nat → Bool) :
    descComp j v = fun i => !(keyComp 0 j (fun x => !(v x)) i) := by
  funext i
  rw [keyComp0_apply]
  unfold descComp
  by_cases h1 : i < i ^^^ j
  · rw [if_pos h1, if_pos h1, bool_min_eq_and]
    cases hvi : v i <;> cases hvj : v (i ^^^ j) <;> rfl
  · rw [if_neg h1, if_neg h1]
    by_cases h2 : i ^^^ j < i
    · rw [if_pos h2, if_pos h2, bool_max_eq_or]
      cases hvi : v i <;> cases hvj : v (i ^^^ j) <;> rfl
    · rw [if_neg h2, if_neg h2, Bool.not_not]

theorem descFold_dual :
    ∀ (js : List Nat) (v : Nat → Bool),
      descFold js v = fun i => !(keyFold 0 js (fun x => !(v x)) i) := by
  intro js
  induction js with
  | nil =>
    intro v
    funext i
    show v i = (!(!(v i)))
    rw [Bool.not_not]
  | cons j rest ih =>
    intro v
    show descFold rest (descComp j v) = _
    rw [descComp_dual j v, ih _]
    have hdn : (fun x => !((fun i => !(keyComp 0 j (fun y => !(v y)) i)) x)) =
        keyComp 0 j (fun y => !(v y)) := by
      funext x
      show (!(!(keyComp 0 j (fun y => !(v y)) x))) = keyComp 0 j (fun y => !(v y)) x
      rw [Bool.not_not]
    rw [hdn]
    rfl

theorem bitB_not {v : Nat → Bool} {L : Nat} (h : BitB v L) :
    BitB (fun x => !(v x)) L := by
  rcases h with ⟨p, q, h1, h2, hval⟩ | ⟨p, q, h1, h2, hval⟩
  · refine Or.inr ⟨p, q, h1, h2, ?_⟩
    intro r hr
    show (!(v r)) = (decide (r < p) || decide (q ≤ r))
    rw [hval r hr]
    apply bool_eq_of_iff
    simp only [Bool.not_eq_true', Bool.and_eq_false_iff, Bool.or_eq_true,
      decide_eq_false_iff_not, decide_eq_true_eq]
    omega
  · refine Or.inl ⟨p, q, h1, h2, ?_⟩
    intro r hr
    show (!(v r)) = (decide (p ≤ r) && decide (r < q))
    rw [hval r hr]
    apply bool_eq_of_iff
    simp only [Bool.not_eq_true', Bool.or_eq_false_iff, Bool.and_eq_true,
      decide_eq_false_iff_not, decide_eq_true_eq]
    omega

/-- The descending bitonic merge reverse-sorts every bitonic 0-1 block. -/
theorem mergeD_sorts : ∀ t, ∀ v : Nat → Bool, BitB v (2 ^ t) → DescB (mergeD t v) (2 ^ t) := by
  intro t v hv
  have hdual : mergeD t v = fun i => !(mergeA t (fun x => !(v x)) i) :=
    descFold_dual (powList t) v
  have hasc : AscB (mergeA t (fun x => !(v x))) (2 ^ t) := mergeA_sorts t _ (bitB_not hv)
  obtain ⟨z, hz, hval⟩ := hasc
  refine ⟨z, hz, ?_⟩
  intro r hr
  rw [hdual]
  show (!(mergeA t (fun x => !(v x)) r)) = decide (r < z)
  rw [hval r hr]
  apply bool_eq_of_iff
  simp only [Bool.not_eq_true', decide_eq_false_iff_not, decide_eq_true_eq]
  omega

theorem keyComp0_shiftB (P m j : Nat) (hj : j < 2 ^ P) (v : Nat → Bool)
    (s : Nat) (hs : s < 2 ^ P) :
    keyComp 0 j v (2 ^ P * m + s) = keyComp 0 j (fun x => v (2 ^ P * m + x)) s := by
  have hx : (2 ^ P * m + s) ^^^ j = 2 ^ P * m + (s ^^^ j) := blockXor P m s j hs hj
  rw [keyComp0_apply, keyComp0_apply, hx]
  by_cases h1 : s < s ^^^ j
  · rw [if_pos (by omega), if_pos h1]
  · rw [if_neg (by omega), if_neg h1]
    by_cases h2 : s ^^^ j < s
    · rw [if_pos (by omega), if_pos h2]
    · rw [if_neg (by omega), if_neg h2]

theorem descComp_shiftB (P m j : Nat) (hj : j < 2 ^ P) (v : Nat → Bool)
    (s : Nat) (hs : s < 2 ^ P) :
    descComp j v (2 ^ P * m + s) = descComp j (fun x => v (2 ^ P * m + x)) s := by
  have hx : (2 ^ P * m + s) ^^^ j = 2 ^ P * m + (s ^^^ j) := blockXor P m s j hs hj
  unfold descComp
  rw [hx]
  by_cases h1 : s < s ^^^ j
  · rw [if_pos (by omega), if_pos h1]
  · rw [if_neg (by omega), if_neg h1]
    by_cases h2 : s ^^^ j < s
    · rw [if_pos (by omega), if_pos h2]
    · rw [if_neg (by omega), if_neg h2]

theorem descComp_congrOn (j p : Nat) (hj : j < 2 ^ p) (g g' : Nat → Bool)
    (h : ∀ s, s < 2 ^ p → g s = g' s) (i : Nat) (hi : i < 2 ^ p) :
    descComp j g i = descComp j g' i := by
  have hi2 : i ^^^ j < 2 ^ p := Nat.xor_lt_two_pow hi hj
  unfold descComp
  rw [h i hi, h _ hi2]

theorem descFold_congrOn (p : Nat) (js : List Nat) (hjs : ∀ j ∈ js, j < 2 ^ p) :
    ∀ g g' : Nat → Bool, (∀ s, s < 2 ^ p → g s = g' s) → ∀ i, i < 2 ^ p →
      descFold js g i = descFold js g' i := by
  induction js with
  | nil =>
    intro g g' h i hi
    exact h i hi
  | cons j t ih =>
    intro g g' h i hi
    have hj : j < 2 ^ p := hjs j (List.mem_cons_self j t)
    exact ih (fun y hy => hjs y (List.mem_cons_of_mem j hy))
      (descComp j g) (descComp j g')
      (fun s hs => descComp_congrOn j p hj g g' h s hs) i hi

theorem keyComp_dir_asc (k j : Nat) (g : Nat → Bool) (i : Nat)
    (hd1 : i &&& k = 0) (hd2 : (i ^^^ j) &&& k = 0) :
    keyComp k j g i = keyComp 0 j g i := by
  rw [keyComp0_apply]
  unfold keyComp
  by_cases h1 : i < i ^^^ j
  · rw [if_pos h1, if_pos h1, if_pos hd1]
  · rw [if_neg h1, if_neg h1]
    by_cases h2 : i ^^^ j < i
    · rw [if_pos h2, if_pos h2, if_pos hd2]
    · rw [if_neg h2, if_neg h2]

theorem keyComp_dir_desc (k j : Nat) (g : Nat → Bool) (i : Nat)
    (hd1 : ¬ (i &&& k = 0)) (hd2 : ¬ ((i ^^^ j) &&& k = 0)) :
    keyComp k j g i = descComp j g i := by
  unfold keyComp descComp
  by_cases h1 : i < i ^^^ j
  · rw [if_pos h1, if_pos h1, if_neg hd1]
    exact bool_max_eq_or _ _
  · rw [if_neg h1, if_neg h1]
    by_cases h2 : i ^^^ j < i
    · rw [if_pos h2, if_pos h2, if_neg hd2]
      exact bool_min_eq_and _ _
    · rw [if_neg h2, if_neg h2]

theorem keyComp_localize (T τ m : Nat) (hτ : τ ≤ T) (g : Nat → Bool)
    (s : Nat) (hs : s < 2 ^ (T + 1)) :
    keyComp (2 ^ (T + 1)) (2 ^ τ) g (2 ^ (T + 1) * m + s) =
      if m % 2 = 0 then keyComp 0 (2 ^ τ) (fun x => g (2 ^ (T + 1) * m + x)) s
      else descComp (2 ^ τ) (fun x => g (2 ^ (T + 1) * m + x)) s := by
  have hj : 2 ^ τ < 2 ^ (T + 1) := Nat.pow_lt_pow_right (by omega) (by omega)
  have hx : (2 ^ (T + 1) * m + s) ^^^ 2 ^ τ = 2 ^ (T + 1) * m + (s ^^^ 2 ^ τ) :=
    blockXor (T + 1) m s (2 ^ τ) hs hj
  have hand1 := blockAnd (T + 1) m s hs
  have hand2 := blockAnd (T + 1) m (s ^^^ 2 ^ τ) (Nat.xor_lt_two_pow hs hj)
  by_cases hm : m % 2 = 0
  · rw [if_pos hm]
    rw [if_pos hm] at hand1 hand2
    rw [keyComp_dir_asc _ _ g _ hand1 (by rw [hx]; exact hand2)]
    exact keyComp0_shiftB (T + 1) m (2 ^ τ) hj g s hs
  · rw [if_neg hm]
    rw [if_neg hm] at hand1 hand2
    have hpos := Nat.two_pow_pos (T + 1)
    rw [keyComp_dir_desc _ _ g _ (by omega) (by rw [hx]; omega)]
    exact descComp_shiftB (T + 1) m (2 ^ τ) hj g s hs

theorem keyFold_localize (T m : Nat) :
    ∀ τ, τ ≤ T + 1 → ∀ (g : Nat → Bool) (r : Nat), r < 2 ^ (T + 1) →
      keyFold (2 ^ (T + 1)) (powList τ) g (2 ^ (T + 1) * m + r) =
        if m % 2 = 0 then keyFold 0 (powList τ) (fun s => g (2 ^ (T + 1) * m + s)) r
        else descFold (powList τ) (fun s => g (2 ^ (T + 1) * m + s)) r := by
  intro τ
  induction τ with
  | zero =>
    intro _ g r _
    by_cases hm : m % 2 = 0
    · rw [if_pos hm]
      rfl
    · rw [if_neg hm]
      rfl
  | succ τ ih =>
    intro hτ g r hr
    have hτ' : τ ≤ T := by omega
    have hmem : ∀ j ∈ powList τ, j < 2 ^ (T + 1) := by
      intro j hj
      have h1 := powList_mem_lt τ j hj
      have h2 : (2 : Nat) ^ τ ≤ 2 ^ (T + 1) := Nat.pow_le_pow_right (by omega) (by omega)
      omega
    show keyFold (2 ^ (T + 1)) (powList τ) (keyComp (2 ^ (T + 1)) (2 ^ τ) g)
        (2 ^ (T + 1) * m + r) = _
    rw [ih (by omega) (keyComp (2 ^ (T + 1)) (2 ^ τ) g) r hr]
    by_cases hm : m % 2 = 0
    · rw [if_pos hm, if_pos hm]
      show keyFold 0 (powList τ)
          (fun s => keyComp (2 ^ (T + 1)) (2 ^ τ) g (2 ^ (T + 1) * m + s)) r =
        keyFold 0 (powList τ) (keyComp 0 (2 ^ τ) (fun s => g (2 ^ (T + 1) * m + s))) r
      refine keyFold_congrOn 0 (T + 1) (powList τ) hmem _ _ ?_ r hr
      intro s hs
      have h := keyComp_localize T τ m hτ' g s hs
      rw [if_pos hm] at h
      exact h
    · rw [if_neg hm, if_neg hm]
      show descFold (powList τ)
          (fun s => keyComp (2 ^ (T + 1)) (2 ^ τ) g (2 ^ (T + 1) * m + s)) r =
        descFold (powList τ) (descComp (2 ^ τ) (fun s => g (2 ^ (T + 1) * m + s))) r
      refine descFold_congrOn (T + 1) (powList τ) hmem _ _ ?_ r hr
      intro s hs
      have h := keyComp_localize T τ m hτ' g s hs
      rw [if_neg hm] at h
      exact h

theorem ascB_one (v : Nat → Bool) : AscB v 1 := by
  refine ⟨if v 0 = true then 0 else 1, by split <;> omega, ?_⟩
  intro r hr
  have hr0 : r = 0 := by omega
  subst hr0
  by_cases h : v 0 = true
  · rw [if_pos h, h]
    decide
  · rw [if_neg h, Bool.eq_false_iff.mpr h]
    decide

theorem descB_one (v : Nat → Bool) : DescB v 1 := by
  refine ⟨if v 0 = true then 1 else 0, by split <;> omega, ?_⟩
  intro r hr
  have hr0 : r = 0 := by omega
  subst hr0
  by_cases h : v 0 = true
  · rw [if_pos h, h]
    decide
  · rw [if_neg h, Bool.eq_false_iff.mpr h]
    decide

/-- The stage invariant of the bitonic network: after the stage of block
size `2^T`, every aligned `2^T`-block is sorted, ascending for
even-numbered blocks, descending for odd ones. -/
def blocksSorted (g : Nat → Bool) (T : Nat) : Prop :=
  ∀ m, 2 ^ T * m < 128 →
    if m % 2 = 0 then AscB (fun s => g (2 ^ T * m + s)) (2 ^ T)
    else DescB (fun s => g (2 ^ T * m + s)) (2 ^ T)

theorem blocksSorted_base (g : Nat → Bool) : blocksSorted g 0 := by
  intro m _
  by_cases hm : m % 2 = 0
  · rw [if_pos hm]
    exact ascB_one _
  · rw [if_neg hm]
    exact descB_one _

/-- One stage of the network turns alternating sorted `2^T`-blocks into
alternating sorted `2^(T+1)`-blocks. -/
theorem stageStep (T : Nat) (hT : T + 1 ≤ 7) (g : Nat → Bool) (hg : blocksSorted g T) :
    blocksSorted (keyFold (2 ^ (T + 1)) (jListFuel 8 (2 ^ (T + 1) / 2)) g) (T + 1) := by
  have hdiv : 2 ^ (T + 1) / 2 = 2 ^ T := by
    rw [pow_succ, Nat.mul_div_cancel _ (by omega)]
  rw [hdiv, jListFuel_pow T 8 (by omega)]
  intro m hm
  have hpow : 2 ^ (T + 1) = 2 ^ T + 2 ^ T := by
    rw [pow_succ]
    omega
  have hdvd : (2 : Nat) ^ (T + 1) ∣ 128 := by
    have h128 : (128 : Nat) = 2 ^ 7 := by norm_num
    rw [h128]
    exact pow_dvd_pow 2 hT
  obtain ⟨c, hc⟩ := hdvd
  have hmc : m < c := by
    by_contra hcon
    push_neg at hcon
    have := Nat.mul_le_mul_left (2 ^ (T + 1)) hcon
    omega
  have hfit : 2 ^ (T + 1) * m + 2 ^ (T + 1) ≤ 128 := by
    have h2 : 2 ^ (T + 1) * (m + 1) ≤ 2 ^ (T + 1) * c :=
      Nat.mul_le_mul_left _ hmc
    have h3 : 2 ^ (T + 1) * (m + 1) = 2 ^ (T + 1) * m + 2 ^ (T + 1) := by ring
    have h4 : 2 ^ (T + 1) * c = 128 := hc.symm
    omega
  have hb1 : 2 ^ T * (2 * m) < 128 := by
    have he : 2 ^ T * (2 * m) = 2 ^ (T + 1) * m := by
      rw [pow_succ]
      ring
    omega
  have hb2 : 2 ^ T * (2 * m + 1) < 128 := by
    have he : 2 ^ T * (2 * m + 1) = 2 ^ (T + 1) * m + 2 ^ T := by
      rw [pow_succ]
      ring
    omega
  have hA := hg (2 * m) hb1
  have hD := hg (2 * m + 1) hb2
  rw [if_pos (by omega)] at hA
  rw [if_neg (by omega)] at hD
  obtain ⟨z1, hz1, hv1⟩ := hA
  obtain ⟨z2, hz2, hv2⟩ := hD
  have hv1' : ∀ r, r < 2 ^ T → g (2 ^ T * (2 * m) + r) = decide (z1 ≤ r) := hv1
  have hv2' : ∀ r, r < 2 ^ T → g (2 ^ T * (2 * m + 1) + r) = decide (r < z2) := hv2
  have hidx1 : ∀ r : Nat, 2 ^ T * (2 * m) + r = 2 ^ (T + 1) * m + r := by
    intro r
    rw [pow_succ]
    ring
  have hidx2 : ∀ r : Nat, 2 ^ T * (2 * m + 1) + r = 2 ^ (T + 1) * m + (2 ^ T + r) := by
    intro r
    rw [pow_succ]
    ring
  have hBit : BitB (fun s => g (2 ^ (T + 1) * m + s)) (2 ^ (T + 1)) := by
    refine Or.inl ⟨z1, 2 ^ T + z2, by omega, by omega, ?_⟩
    intro r hr
    show g (2 ^ (T + 1) * m + r) = _
    by_cases h1 : r < 2 ^ T
    · rw [← hidx1 r, hv1' r h1]
      apply bool_eq_of_iff
      simp only [Bool.and_eq_true, decide_eq_true_eq]
      omega
    · obtain ⟨r', rfl⟩ : ∃ r', r = 2 ^ T + r' := ⟨r - 2 ^ T, by omega⟩
      have hr' : r' < 2 ^ T := by omega
      rw [← hidx2 r', hv2' r' hr']
      apply bool_eq_of_iff
      simp only [Bool.and_eq_true, decide_eq_true_eq]
      omega
  by_cases hm2 : m % 2 = 0
  · rw [if_pos hm2]
    obtain ⟨z, hz, hval⟩ := mergeA_sorts (T + 1) _ hBit
    refine ⟨z, hz, ?_⟩
    intro r hr
    show keyFold (2 ^ (T + 1)) (powList (T + 1)) g (2 ^ (T + 1) * m + r) = decide (z ≤ r)
    rw [keyFold_localize T m (T + 1) (le_refl _) g r hr, if_pos hm2]
    exact hval r hr
  · rw [if_neg hm2]
    obtain ⟨z, hz, hval⟩ := mergeD_sorts (T + 1) _ hBit
    refine ⟨z, hz, ?_⟩
    intro r hr
    show keyFold (2 ^ (T + 1)) (powList (T + 1)) g (2 ^ (T + 1) * m + r) = decide (r < z)
    rw [keyFold_localize T m (T + 1) (le_refl _) g r hr, if_neg hm2]
    exact hval r hr

theorem keyNet_blocksSorted (g : Nat → Bool) :
    blocksSorted (keyNet (kListFuel 128 8 2) g) 7 := by
  have hk : kListFuel 128 8 2 = [2, 4, 8, 16, 32, 64, 128] := by decide
  have h0 := blocksSorted_base g
  have h1 := stageStep 0 (by omega) g h0
  have h2 := stageStep 1 (by omega) _ h1
  have h3 := stageStep 2 (by omega) _ h2
  have h4 := stageStep 3 (by omega) _ h3
  have h5 := stageStep 4 (by omega) _ h4
  have h6 := stageStep 5 (by omega) _ h5
  have h7 := stageStep 6 (by omega) _ h6
  rw [hk]
  exact h7

theorem keyNet_sorted_bool (g : Nat → Bool) (s t : Nat) (hst : s < t) (ht : t < 128) :
    keyNet (kListFuel 128 8 2) g s ≤ keyNet (kListFuel 128 8 2) g t := by
  have h := keyNet_blocksSorted g 0 (by norm_num)
  rw [if_pos (by norm_num)] at h
  obtain ⟨z, hz, hval⟩ := h
  have hval' : ∀ r, r < 2 ^ 7 →
      keyNet (kListFuel 128 8 2) g (2 ^ 7 * 0 + r) = decide (z ≤ r) := hval
  have hs' := hval' s (by omega)
  have ht' := hval' t (by omega)
  rw [show 2 ^ 7 * 0 + s = s by omega] at hs'
  rw [show 2 ^ 7 * 0 + t = t by omega] at ht'
  rw [hs', ht']
  by_cases hzs : z ≤ s
  · rw [decide_eq_true hzs, decide_eq_true (by omega)]
  · rw [decide_eq_false hzs]
    exact Bool.false_le _

/-- The comparator network sorts the keys ascending over any linear
order (by the 0-1 principle: monotone maps commute with the network and
every 0-1 input comes out sorted). -/
theorem keyNet_sorted {γ : Type*} [LinearOrder γ] (g : Nat → γ) (s t : Nat)
    (hst : s < t) (ht : t < 128) :
    keyNet (kListFuel 128 8 2) g s ≤ keyNet (kListFuel 128 8 2) g t := by
  by_contra hcon
  push_neg at hcon
  have hφ : Monotone (fun x : γ => decide (keyNet (kListFuel 128 8 2) g s ≤ x)) := by
    intro a b hab
    show decide (keyNet (kListFuel 128 8 2) g s ≤ a) ≤
      decide (keyNet (kListFuel 128 8 2) g s ≤ b)
    by_cases h : keyNet (kListFuel 128 8 2) g s ≤ a
    · rw [decide_eq_true h, decide_eq_true (le_trans h hab)]
    · rw [decide_eq_false h]
      exact Bool.false_le _
  have hcomm := keyNet_map _ hφ (kListFuel 128 8 2) g
  have hb := keyNet_sorted_bool
    (fun x => decide (keyNet (kListFuel 128 8 2) g s ≤ g x)) s t hst ht
  have h1 : keyNet (kListFuel 128 8 2)
      (fun x => decide (keyNet (kListFuel 128 8 2) g s ≤ g x)) s =
      decide (keyNet (kListFuel 128 8 2) g s ≤ keyNet (kListFuel 128 8 2) g s) :=
    congrFun hcomm s
  have h2 : keyNet (kListFuel 128 8 2)
      (fun x => decide (keyNet (kListFuel 128 8 2) g s ≤ g x)) t =
      decide (keyNet (kListFuel 128 8 2) g s ≤ keyNet (kListFuel 128 8 2) g t) :=
    congrFun hcomm t
  rw [h1, h2] at hb
  rw [decide_eq_true (le_refl _), decide_eq_false (not_le.mpr hcon)] at hb
  exact absurd hb (by decide)

/-- Claim C7 (amended): for each chunk, the sort encoder emits a
permutation of the 128 local indices (their multiset is exactly
`[0, 128)`), every emitted pair carries the chunk key of its id (with
out-of-range slots holding the sentinel `1.0e37`, by `chunkKeys`), and
the emitted keys are sorted ascending.  The claimed stable tie-breaking
by original local index does not hold (see the counterexample). -/
theorem C7_sort_encoder (N : Nat) (sfc : Nat → ℚ) (base : Int) :
    (((List.range 128).map (fun t => (encoderRun N sfc base t).2) : List ℕ) :
        Multiset ℕ) = ((List.range 128 : List ℕ) : Multiset ℕ) ∧
    (∀ t, t < 128 → (encoderRun N sfc base t).1 =
      chunkKeys N sfc base ((encoderRun N sfc base t).2)) ∧
    (∀ s t, s < t → t < 128 →
      (encoderRun N sfc base s).1 ≤ (encoderRun N sfc base t).1) := by
  obtain ⟨σ, hσ, hcomp⟩ := bitonicNetwork_perm (encoderInit N sfc base)
  have hrun : ∀ x, encoderRun N sfc base x = encoderInit N sfc base (σ x) := by
    intro x
    show bitonicNetwork (encoderInit N sfc base) x = _
    rw [hcomp]
    rfl
  refine ⟨?_, ?_, ?_⟩
  · have hmap : (List.range 128).map (fun t => (encoderRun N sfc base t).2) =
        (List.range 128).map (fun t => σ t) := by
      apply List.map_congr_left
      intro x _
      rw [hrun x]
      rfl
    rw [hmap]
    have h := hσ.multiset_map_range_eq (fun x => x)
    rw [List.map_id'] at h
    exact h
  · intro t ht
    rw [hrun t]
    rfl
  · intro s t hst ht
    have hs128 : s < 128 := by omega
    show (bitonicNetwork (encoderInit N sfc base) s).1 ≤
      (bitonicNetwork (encoderInit N sfc base) t).1
    rw [bitonicNetwork_fst _ s hs128, bitonicNetwork_fst _ t ht]
    exact keyNet_sorted _ s t hst ht

/-! ## KEdgeRelocation (C1)

For each target edge slot `e_new` of the new edge store, the kernel:
rejects slots at or past the edge count with `-1`; starts from the coarse
map's guess for the stride block of `e_new`; refines the owner by a
256-iteration linear walk over the new edge pointers (breaking once
`start <= e_new < start + count` or the particle count is reached);
computes the local index `offset = e_new - start_new`; maps the owner
back through the sort order (`getOldID`); reads the old edge at
`start_old + offset`; passes the `-1` (read as `4294967295u`) sentinel
through; otherwise translates the old target physical slot through the
old id texture (PID) and the new identity map.  All shader arithmetic on
the read-back values is `uint`, modelled as naturals modulo `2^32`. -/

/-- A float texel holding an integer, read back as `uint(floor(x+0.5))`. -/
def toUint32 (x : Int) : Nat := (x % (2 ^ 32)).toNat

/-- `uint` subtraction. -/
def usub (a b : Nat) : Nat := (2 ^ 32 + a - b) % 2 ^ 32

/-- The per-particle edge count the walk derives:
`count = startNext - start` in `uint`. -/
def relocCount (ptrN : Nat → Int) (p : Nat) : Nat :=
  usub (toUint32 (ptrN (p + 1))) (toUint32 (ptrN p))

/-- One iteration of the owner-refinement walk. -/
def relocWalkStep (N : Nat) (ptrN : Nat → Int) (e : Nat) (p : Nat) : Nat :=
  if N ≤ p then p
  else if toUint32 (ptrN p) ≤ e ∧
      e < (toUint32 (ptrN p) + relocCount ptrN p) % 2 ^ 32 then p
  else p + 1

/-- The 256-iteration owner-refinement walk (`for (int k=0; k<256; k++)`),
a `break` acting as the identity on the remaining iterations. -/
def relocWalk (N : Nat) (ptrN : Nat → Int) (e p0 : Nat) : Nat :=
  (List.range 256).foldl (fun p _ => relocWalkStep N ptrN e p) p0

/-- The source edge slot `e_old = start_old + (e_new - start_new)` (all in
`uint`), with the owner taken from the walk and mapped back through the
sort order. -/
def relocEOld (N offs : Nat) (ord : Nat → Nat → Nat → Nat)
    (ptrN ptrO : Nat → Int) (coarseT : Nat → Nat) (S e : Nat) : Nat :=
  (toUint32 (ptrO (getOldID N offs ord (relocWalk N ptrN e (coarseT (e / S))))) +
    usub e (toUint32 (ptrN (relocWalk N ptrN e (coarseT (e / S)))))) % 2 ^ 32

/-- The relocation kernel's output for target edge slot `e`. -/
def relocate (N E offs S : Nat) (ord : Nat → Nat → Nat → Nat)
    (ptrN ptrO storeO : Nat → Int) (pidO : Nat → Nat) (identityT : Nat → Int)
    (coarseT : Nat → Nat) (e : Nat) : Int :=
  if E ≤ e then -1
  else if toUint32 (storeO (relocEOld N offs ord ptrN ptrO coarseT S e)) =
      4294967295 then -1
  else identityT (pidO (toUint32 (storeO (relocEOld N offs ord ptrN ptrO coarseT S e))))

/-- The particle owning edge slot `e` in a CSR layout: the largest
`p < N` with `ptr p ≤ e`. -/
def ownerOf (N : Nat) (ptr : Nat → Int) (e : Nat) : Nat :=
  (List.range N).foldl (fun acc p => if ptr p ≤ (e : Int) then p else acc) 0

/-- The multiset of logical edges `(owner PID, target PID)` over the
non-sentinel entries of an edge store. -/
def logicalEdges (N E : Nat) (ptr : Nat → Int) (store : Nat → Int)
    (pid : Nat → Nat) : Multiset (Nat × Nat) :=
  (((List.range E).filterMap (fun e =>
    if 0 ≤ store e ∧ store e < N then
      some (pid (ownerOf N ptr e), pid ((store e).toNat))
    else none) : List (Nat × Nat)) : Multiset (Nat × Nat))

theorem toUint32_of (x : Int) (h1 : 0 ≤ x) (h2 : x < 2 ^ 32) :
    toUint32 x = x.toNat := by
  unfold toUint32
  rw [Int.emod_eq_of_lt h1 (by exact_mod_cast h2)]

theorem toUint32_neg_one : toUint32 (-1) = 4294967295 := by decide

theorem usub_of_le (a b : Nat) (hb : b ≤ a) (ha : a < 2 ^ 32) :
    usub a b = a - b := by
  unfold usub
  rw [show 2 ^ 32 + a - b = 2 ^ 32 + (a - b) by omega, Nat.add_mod_left,
    Nat.mod_eq_of_lt (by omega)]

theorem start_add_count_mod (a b : Nat) (ha : a < 2 ^ 32) (hb : b < 2 ^ 32) :
    (a + usub b a) % 2 ^ 32 = b := by
  unfold usub
  omega

theorem relocWalkStep_spec (N : Nat) (P : Nat → Int) (e p : Nat)
    (hp : p < N) (h0 : 0 ≤ P p) (h1 : P p ≤ P (p + 1)) (h2 : P (p + 1) < 2 ^ 32) :
    relocWalkStep N P e p =
      if P p ≤ (e : Int) ∧ (e : Int) < P (p + 1) then p else p + 1 := by
  unfold relocWalkStep
  rw [if_neg (by omega)]
  have ha : toUint32 (P p) = (P p).toNat := toUint32_of _ h0 (by omega)
  have hb : toUint32 (P (p + 1)) = (P (p + 1)).toNat := toUint32_of _ (by omega) h2
  unfold relocCount
  rw [ha, hb, start_add_count_mod _ _ (by omega) (by omega)]
  by_cases hc : P p ≤ (e : Int) ∧ (e : Int) < P (p + 1)
  · have hcnat : (P p).toNat ≤ e ∧ e < (P (p + 1)).toNat := by omega
    rw [if_pos hcnat, if_pos hc]
  · have hcnat : ¬ ((P p).toNat ≤ e ∧ e < (P (p + 1)).toNat) := by omega
    rw [if_neg hcnat, if_neg hc]

theorem relocWalk_fold_step (N : Nat) (P : Nat → Int) (e : Nat) (n p0 : Nat) :
    (List.range (n + 1)).foldl (fun p _ => relocWalkStep N P e p) p0 =
      relocWalkStep N P e
        ((List.range n).foldl (fun p _ => relocWalkStep N P e p) p0) := by
  rw [List.range_succ, List.foldl_append, List.foldl_cons, List.foldl_nil]

theorem relocWalk_all_inc (N : Nat) (P : Nat → Int) (e : Nat) :
    ∀ n p0, (∀ q, p0 ≤ q → q < p0 + n → relocWalkStep N P e q = q + 1) →
      (List.range n).foldl (fun p _ => relocWalkStep N P e p) p0 = p0 + n := by
  intro n
  induction n with
  | zero =>
    intro p0 _
    rfl
  | succ n ih =>
    intro p0 hstep
    rw [relocWalk_fold_step, ih p0 (fun q hq1 hq2 => hstep q hq1 (by omega)),
      hstep (p0 + n) (by omega) (by omega)]
    omega

theorem relocWalk_reaches (N : Nat) (P : Nat → Int) (e : Nat) :
    ∀ n p0 ow, p0 ≤ ow → ow ≤ p0 + n →
      (∀ q, p0 ≤ q → q < ow → relocWalkStep N P e q = q + 1) →
      relocWalkStep N P e ow = ow →
      (List.range n).foldl (fun p _ => relocWalkStep N P e p) p0 = ow := by
  intro n
  induction n with
  | zero =>
    intro p0 ow h1 h2 _ _
    have : p0 = ow := by omega
    rw [List.range_zero, List.foldl_nil, this]
  | succ n ih =>
    intro p0 ow h1 h2 hstep hfix
    rw [relocWalk_fold_step]
    by_cases hcase : ow ≤ p0 + n
    · rw [ih p0 ow h1 hcase hstep hfix]
      exact hfix
    · have how : ow = p0 + n + 1 := by omega
      rw [relocWalk_all_inc N P e n p0
        (fun q hq1 hq2 => hstep q hq1 (by omega))]
      rw [hstep (p0 + n) (by omega) (by omega), ← how]

theorem relocWalk_eq_owner (N : Nat) (P : Nat → Int) (e p0 ow : Nat)
    (hle : p0 ≤ ow) (hgap : ow ≤ p0 + 256)
    (hstep : ∀ q, p0 ≤ q → q < ow → relocWalkStep N P e q = q + 1)
    (hfix : relocWalkStep N P e ow = ow) :
    relocWalk N P e p0 = ow :=
  relocWalk_reaches N P e 256 p0 ow hle hgap hstep hfix

theorem relocWalk_no_break (N : Nat) (P : Nat → Int) (e p0 : Nat)
    (hstep : ∀ q, p0 ≤ q → q < p0 + 256 → relocWalkStep N P e q = q + 1) :
    relocWalk N P e p0 = p0 + 256 :=
  relocWalk_all_inc N P e 256 p0 hstep

theorem ownerOf_spec (N : Nat) (P : Nat → Int) (e : Nat) (hN : 1 ≤ N)
    (h0 : P 0 ≤ (e : Int)) :
    ownerOf N P e < N ∧ P (ownerOf N P e) ≤ (e : Int) ∧
      ∀ q, q < N → P q ≤ (e : Int) → q ≤ ownerOf N P e := by
  have key : ∀ n, 1 ≤ n →
      ((List.range n).foldl (fun acc p => if P p ≤ (e : Int) then p else acc) 0 < n ∧
       P ((List.range n).foldl (fun acc p => if P p ≤ (e : Int) then p else acc) 0) ≤
         (e : Int) ∧
       ∀ q, q < n → P q ≤ (e : Int) →
         q ≤ (List.range n).foldl (fun acc p => if P p ≤ (e : Int) then p else acc) 0) := by
    intro n
    induction n with
    | zero =>
      intro h
      omega
    | succ n ih =>
      intro _
      rw [List.range_succ, List.foldl_append, List.foldl_cons, List.foldl_nil]
      by_cases hn : n = 0
      · subst hn
        rw [List.range_zero, List.foldl_nil, if_pos h0]
        exact ⟨by omega, h0, fun q hq _ => by omega⟩
      · obtain ⟨hlt, hle, hmax⟩ := ih (by omega)
        by_cases hc : P n ≤ (e : Int)
        · rw [if_pos hc]
          exact ⟨by omega, hc, fun q hq _ => by omega⟩
        · rw [if_neg hc]
          refine ⟨by omega, hle, ?_⟩
          intro q hq hqe
          have hqn : q ≠ n := fun h => hc (h ▸ hqe)
          exact hmax q (by omega) hqe
  exact key N hN

theorem ptrNew_mono (N offs M : Nat) (ord : Nat → Nat → Nat → Nat) (ptrO : Nat → Int)
    (hNM : N < M) (hperm : PermOn (getOldID N offs ord) N)
    (hmono : ∀ a b, a ≤ b → b ≤ N → ptrO a ≤ ptrO b) :
    ∀ a b, a ≤ b → b ≤ N → ptrNew N offs M ord ptrO a ≤ ptrNew N offs M ord ptrO b := by
  intro a b hab hbN
  rw [ptrNew_formula N offs M ord ptrO a (by omega),
    ptrNew_formula N offs M ord ptrO b (by omega)]
  apply Finset.sum_le_sum_of_subset_of_nonneg
    (Finset.range_subset.mpr hab)
  intro i _ _
  exact count_nonneg N offs ord ptrO hperm hmono i

theorem ptrNew_zero (N offs M : Nat) (ord : Nat → Nat → Nat → Nat) (ptrO : Nat → Int)
    (hM : 0 < M) : ptrNew N offs M ord ptrO 0 = 0 := by
  rw [ptrNew_formula N offs M ord ptrO 0 hM]
  simp

theorem ptrNew_total (N offs M E : Nat) (ord : Nat → Nat → Nat → Nat) (ptrO : Nat → Int)
    (hNM : N < M) (hperm : PermOn (getOldID N offs ord) N)
    (hp0 : ptrO 0 = 0) (hpN : ptrO N = (E : Int)) :
    ptrNew N offs M ord ptrO N = (E : Int) := by
  rw [ptrNew_formula N offs M ord ptrO N (by omega)]
  calc ∑ j ∈ Finset.range N, KEdgePrefixSum.count N offs ord ptrO j
      = ∑ j ∈ Finset.range N,
          (ptrO (getOldID N offs ord j + 1) - ptrO (getOldID N offs ord j)) := by
        apply Finset.sum_congr rfl
        intro j hj
        unfold KEdgePrefixSum.count
        rw [if_pos (Finset.mem_range.mp hj)]
    _ = ∑ q ∈ Finset.range N, (ptrO (q + 1) - ptrO q) :=
        hperm.sum_comp (fun q => ptrO (q + 1) - ptrO q)
    _ = ptrO N - ptrO 0 := Finset.sum_range_sub (fun q => ptrO q) N
    _ = (E : Int) := by rw [hp0, hpN]; ring

theorem ptrNew_succ (N offs M : Nat) (ord : Nat → Nat → Nat → Nat) (ptrO : Nat → Int)
    (p : Nat) (hp : p + 1 < M) :
    ptrNew N offs M ord ptrO (p + 1) =
      ptrNew N offs M ord ptrO p + KEdgePrefixSum.count N offs ord ptrO p := by
  rw [ptrNew_formula N offs M ord ptrO (p + 1) hp,
    ptrNew_formula N offs M ord ptrO p (by omega), Finset.sum_range_succ]

theorem ownerOf_unique (N : Nat) (ptr : Nat → Int) (e : Nat) (p : Nat)
    (hN : 1 ≤ N) (h0 : ptr 0 ≤ (e : Int))
    (hmono : ∀ a b, a ≤ b → b ≤ N → ptr a ≤ ptr b)
    (hp : p < N) (hle : ptr p ≤ (e : Int)) (hlt : (e : Int) < ptr (p + 1)) :
    ownerOf N ptr e = p := by
  obtain ⟨hltN, hleE, hmax⟩ := ownerOf_spec N ptr e hN h0
  have h1 : p ≤ ownerOf N ptr e := hmax p hp hle
  by_contra hne
  have h2 : p + 1 ≤ ownerOf N ptr e := by omega
  have h3 : ptr (p + 1) ≤ ptr (ownerOf N ptr e) := hmono _ _ h2 (by omega)
  omega

/-- Per-edge behaviour of the relocation source computation: under a
valid state whose every new owner lies within the walk's 256-step reach
of its coarse guess, the computed source edge slot lands inside `[0, E)`,
in the old range of exactly the owner's pre-sort particle, at the same
local offset. -/
theorem reloc_edge_maps (N E offs M S : Nat) (ord : Nat → Nat → Nat → Nat)
    (ptrO : Nat → Int)
    (hN : 1 ≤ N) (hN17 : N ≤ 131072) (hNM : N < M) (hS : 0 < S)
    (hperm : PermOn (getOldID N offs ord) N)
    (hmono : ∀ a b, a ≤ b → b ≤ N → ptrO a ≤ ptrO b)
    (hp0 : ptrO 0 = 0) (hpN : ptrO N = (E : Int))
    (hE32 : E < 2 ^ 32)
    (hreach : ∀ e, e < E → ownerOf N (ptrNew N offs M ord ptrO) e ≤
      coarseMapAt N S (ptrNew N offs M ord ptrO) (e / S) + 256)
    (e : Nat) (he : e < E) :
    relocWalk N (ptrNew N offs M ord ptrO) e
        (coarseMapAt N S (ptrNew N offs M ord ptrO) (e / S)) =
      ownerOf N (ptrNew N offs M ord ptrO) e ∧
    ((relocEOld N offs ord (ptrNew N offs M ord ptrO) ptrO
        (coarseMapAt N S (ptrNew N offs M ord ptrO)) S e : Int) =
      ptrO (getOldID N offs ord (ownerOf N (ptrNew N offs M ord ptrO) e)) +
        ((e : Int) - ptrNew N offs M ord ptrO
          (ownerOf N (ptrNew N offs M ord ptrO) e))) ∧
    relocEOld N offs ord (ptrNew N offs M ord ptrO) ptrO
        (coarseMapAt N S (ptrNew N offs M ord ptrO)) S e < E ∧
    ownerOf N ptrO (relocEOld N offs ord (ptrNew N offs M ord ptrO) ptrO
        (coarseMapAt N S (ptrNew N offs M ord ptrO)) S e) =
      getOldID N offs ord (ownerOf N (ptrNew N offs M ord ptrO) e) := by
  set P := ptrNew N offs M ord ptrO with hPdef
  have hPmono : ∀ a b, a ≤ b → b ≤ N → P a ≤ P b :=
    ptrNew_mono N offs M ord ptrO hNM hperm hmono
  have hP0 : P 0 = 0 := ptrNew_zero N offs M ord ptrO (by omega)
  have hPN : P N = (E : Int) := ptrNew_total N offs M E ord ptrO hNM hperm hp0 hpN
  have hPnn : ∀ p, p ≤ N → 0 ≤ P p := by
    intro p hp
    have := hPmono 0 p (by omega) hp
    omega
  have hPle : ∀ p, p ≤ N → P p ≤ (E : Int) := by
    intro p hp
    have := hPmono p N hp (le_refl N)
    omega
  -- the new owner
  have h0e : P 0 ≤ (e : Int) := by
    rw [hP0]
    exact_mod_cast Nat.zero_le e
  obtain ⟨howN, howle, howmax⟩ := ownerOf_spec N P e hN h0e
  set ow := ownerOf N P e with howdef
  have howup : (e : Int) < P (ow + 1) := by
    by_cases hc : ow + 1 = N
    · rw [hc, hPN]
      exact_mod_cast he
    · by_contra hcon
      push_neg at hcon
      have := howmax (ow + 1) (by omega) hcon
      omega
  -- the coarse guess is at or below the owner
  have hsent : ∀ p, p < N → P p < 10 ^ 15 := by
    intro p hp
    have := hPle p (by omega)
    have : (E : Int) < 10 ^ 15 := by
      have : (E : Int) < 2 ^ 32 := by exact_mod_cast hE32
      omega
    omega
  have htle : (e / S) * S ≤ e := Nat.div_mul_le_self e S
  obtain ⟨hcN, hcle, hcmax⟩ := coarseSearch_spec N P (((e / S) * S : Nat) : Int)
    hN hN17 hPmono hsent
    (by rw [hP0]; exact_mod_cast Nat.zero_le _)
    (by
      have h1 : ((e / S) * S : Nat) ≤ e := htle
      have h2 : (e : Int) < 2 ^ 32 := by
        have : (e : Int) < (E : Int) := by exact_mod_cast he
        have : (E : Int) < 2 ^ 32 := by exact_mod_cast hE32
        omega
      have h3 : (((e / S) * S : Nat) : Int) ≤ (e : Int) := by exact_mod_cast h1
      omega)
  have hcow : coarseMapAt N S P (e / S) ≤ ow := by
    apply howmax _ hcN
    calc P (coarseMapAt N S P (e / S)) ≤ (((e / S) * S : Nat) : Int) := hcle
      _ ≤ (e : Int) := by exact_mod_cast htle
  -- the walk lands exactly on the owner
  have hstep : ∀ q, coarseMapAt N S P (e / S) ≤ q → q < ow →
      relocWalkStep N P e q = q + 1 := by
    intro q _ hq
    rw [relocWalkStep_spec N P e q (by omega) (hPnn q (by omega))
      (hPmono q (q + 1) (by omega) (by omega))
      (by have := hPle (q + 1) (by omega); have : (E : Int) < 2 ^ 32 := by
            exact_mod_cast hE32
          omega)]
    rw [if_neg]
    intro hcon
    have h1 : P (q + 1) ≤ P ow := hPmono (q + 1) ow (by omega) (by omega)
    omega
  have hfix : relocWalkStep N P e ow = ow := by
    rw [relocWalkStep_spec N P e ow (by omega) (hPnn ow (by omega))
      (hPmono ow (ow + 1) (by omega) (by omega))
      (by have := hPle (ow + 1) (by omega); have : (E : Int) < 2 ^ 32 := by
            exact_mod_cast hE32
          omega)]
    rw [if_pos ⟨howle, howup⟩]
  have hwalk : relocWalk N P e (coarseMapAt N S P (e / S)) = ow :=
    relocWalk_eq_owner N P e _ ow hcow (hreach e he) hstep hfix
  refine ⟨hwalk, ?_⟩
  -- the source edge slot
  have hcount : P (ow + 1) = P ow + (ptrO (getOldID N offs ord ow + 1) -
      ptrO (getOldID N offs ord ow)) := by
    rw [hPdef, ptrNew_succ N offs M ord ptrO ow (by omega)]
    unfold KEdgePrefixSum.count
    rw [if_pos howN]
  have hσN : getOldID N offs ord ow ≤ N - 1 := by
    have := hperm.1 ow howN
    omega
  have hOnn : 0 ≤ ptrO (getOldID N offs ord ow) := by
    have := hmono 0 (getOldID N offs ord ow) (by omega) (by omega)
    omega
  have hOle : ptrO (getOldID N offs ord ow + 1) ≤ (E : Int) := by
    have := hmono (getOldID N offs ord ow + 1) N (by omega) (le_refl N)
    omega
  have hEcast : (E : Int) < 2 ^ 32 := by exact_mod_cast hE32
  have heold : (relocEOld N offs ord P ptrO (coarseMapAt N S P) S e : Int) =
      ptrO (getOldID N offs ord ow) + ((e : Int) - P ow) := by
    unfold relocEOld
    rw [hwalk]
    have hu1 : toUint32 (ptrO (getOldID N offs ord ow)) =
        (ptrO (getOldID N offs ord ow)).toNat :=
      toUint32_of _ hOnn (by
        have := hmono (getOldID N offs ord ow) N (by omega) (le_refl N)
        omega)
    have hu2 : toUint32 (P ow) = (P ow).toNat :=
      toUint32_of _ (hPnn ow (by omega)) (by have := hPle ow (by omega); omega)
    rw [hu1, hu2]
    have hPowle : (P ow).toNat ≤ e := by
      have := hPnn ow (by omega)
      omega
    rw [usub_of_le e (P ow).toNat hPowle (by omega)]
    have hsum : (ptrO (getOldID N offs ord ow)).toNat + (e - (P ow).toNat) < 2 ^ 32 := by
      have h1 : (e : Int) - P ow <
          ptrO (getOldID N offs ord ow + 1) - ptrO (getOldID N offs ord ow) := by
        omega
      have h2 := hPnn ow (by omega)
      omega
    rw [Nat.mod_eq_of_lt hsum]
    have h2 := hPnn ow (by omega)
    omega
  refine ⟨heold, ?_, ?_⟩
  · -- the slot is below E
    have h1 : (relocEOld N offs ord P ptrO (coarseMapAt N S P) S e : Int) <
        ptrO (getOldID N offs ord ow + 1) := by
      rw [heold]
      omega
    have h2 : ptrO (getOldID N offs ord ow + 1) ≤ (E : Int) := hOle
    exact_mod_cast lt_of_lt_of_le h1 h2
  · -- the old owner of the source slot is the pre-sort owner
    apply ownerOf_unique N ptrO _ _ hN
    · rw [hp0]
      exact Int.ofNat_nonneg _
    · exact hmono
    · exact hperm.1 ow howN
    · rw [heold]
      omega
    · rw [heold]
      omega

/-- Claim C1 (amended): on a valid engine state (per-chunk sort atlas a
permutation, old edge pointers monotone with `ptr[0] = 0` and
`ptr[N] = E`, every old edge-store entry a physical slot in `[0, N)` or
the sentinel `-1`, pairwise-distinct PIDs below the identity texture
size) in which, additionally, every target edge's new owner lies within
256 slots of its coarse-map guess (the walk's iteration cap), the
relocation kernel preserves the multiset of logical edges
`(owner PID, target PID)`: the new edge store under the new CSR pointers
carries exactly the old multiset. -/
theorem C1_edge_relocation (N E offs M S WH : Nat) (ord : Nat → Nat → Nat → Nat)
    (ptrO storeO : Nat → Int) (pidO : Nat → Nat)
    (hN : 1 ≤ N) (hN17 : N ≤ 131072) (hNM : N < M) (hS : 0 < S)
    (hchunks : ∀ c, c < (N - offs) / 128 → PermOn (atlasByte ord c) 128)
    (hmono : ∀ a b, a ≤ b → b ≤ N → ptrO a ≤ ptrO b)
    (hp0 : ptrO 0 = 0) (hpN : ptrO N = (E : Int))
    (hE32 : E < 2 ^ 32)
    (hstore : ∀ e, e < E → storeO e = -1 ∨ (0 ≤ storeO e ∧ storeO e < (N : Int)))
    (hpdist : ∀ i, i < N → ∀ j, j < N → pidO i = pidO j → i = j)
    (hprange : ∀ i, i < N → pidO i < WH)
    (hreach : ∀ e, e < E → ownerOf N (ptrNew N offs M ord ptrO) e ≤
      coarseMapAt N S (ptrNew N offs M ord ptrO) (e / S) + 256) :
    logicalEdges N E (ptrNew N offs M ord ptrO)
      (relocate N E offs S ord (ptrNew N offs M ord ptrO) ptrO storeO pidO
        (identityMirror N WH (fun i => pidO (getOldID N offs ord i)))
        (coarseMapAt N S (ptrNew N offs M ord ptrO)))
      (fun i => pidO (getOldID N offs ord i)) =
    logicalEdges N E ptrO storeO pidO := by
  have hperm := getOldID_permOn N offs ord hchunks
  set P := ptrNew N offs M ord ptrO with hPdef
  have hrel := fun (e : Nat) (he : e < E) =>
    reloc_edge_maps N E offs M S ord ptrO hN hN17 hNM hS hperm hmono hp0 hpN
      hE32 hreach e he
  rw [← hPdef] at hrel
  have hdistN : ∀ i, i < N → ∀ j, j < N →
      pidO (getOldID N offs ord i) = pidO (getOldID N offs ord j) → i = j := by
    intro i hi j hj h
    exact hperm.2 i hi j hj
      (hpdist _ (hperm.1 i hi) _ (hperm.1 j hj) h)
  -- injectivity data: the new-owner decomposition of the source slot
  have hownerN : ∀ e, e < E → ownerOf N P e < N := by
    intro e he
    have h0e : P 0 ≤ (e : Int) := by
      rw [hPdef, ptrNew_zero N offs M ord ptrO (by omega)]
      exact Int.ofNat_nonneg _
    exact (ownerOf_spec N P e hN h0e).1
  have hΦ : PermOn (relocEOld N offs ord P ptrO (coarseMapAt N S P) S) E := by
    constructor
    · intro e he
      exact (hrel e he).2.2.1
    · intro e he f hf hef
      obtain ⟨_, heold, _, hoow⟩ := hrel e he
      obtain ⟨_, hfold, _, hoowf⟩ := hrel f hf
      have hsame : getOldID N offs ord (ownerOf N P e) =
          getOldID N offs ord (ownerOf N P f) := by
        rw [← hoow, ← hoowf, hef]
      have howeq : ownerOf N P e = ownerOf N P f :=
        hperm.2 _ (hownerN e he) _ (hownerN f hf) hsame
      have : (relocEOld N offs ord P ptrO (coarseMapAt N S P) S e : Int) =
          (relocEOld N offs ord P ptrO (coarseMapAt N S P) S f : Int) := by
        exact_mod_cast congrArg (Nat.cast : Nat → Int) hef
      rw [heold, hfold, howeq] at this
      omega
  -- pointwise: the new entry at e is the old entry at the source slot
  have hpoint : ∀ e, e < E →
      (if 0 ≤ relocate N E offs S ord P ptrO storeO pidO
            (identityMirror N WH (fun i => pidO (getOldID N offs ord i)))
            (coarseMapAt N S P) e ∧
          relocate N E offs S ord P ptrO storeO pidO
            (identityMirror N WH (fun i => pidO (getOldID N offs ord i)))
            (coarseMapAt N S P) e < (N : Int) then
        some (pidO (getOldID N offs ord (ownerOf N P e)),
          pidO (getOldID N offs ord ((relocate N E offs S ord P ptrO storeO pidO
            (identityMirror N WH (fun i => pidO (getOldID N offs ord i)))
            (coarseMapAt N S P) e).toNat)))
      else none) =
      (if 0 ≤ storeO (relocEOld N offs ord P ptrO (coarseMapAt N S P) S e) ∧
          storeO (relocEOld N offs ord P ptrO (coarseMapAt N S P) S e) < (N : Int) then
        some (pidO (ownerOf N ptrO
            (relocEOld N offs ord P ptrO (coarseMapAt N S P) S e)),
          pidO ((storeO (relocEOld N offs ord P ptrO (coarseMapAt N S P) S e)).toNat))
      else none) := by
    intro e he
    obtain ⟨hwalk, heold, heoldE, hoow⟩ := hrel e he
    have hrelocdef : relocate N E offs S ord P ptrO storeO pidO
        (identityMirror N WH (fun i => pidO (getOldID N offs ord i)))
        (coarseMapAt N S P) e =
        (if toUint32 (storeO (relocEOld N offs ord P ptrO (coarseMapAt N S P) S e)) =
            4294967295 then (-1 : Int)
         else identityMirror N WH (fun i => pidO (getOldID N offs ord i))
           (pidO (toUint32 (storeO
             (relocEOld N offs ord P ptrO (coarseMapAt N S P) S e))))) := by
      unfold relocate
      rw [if_neg (by omega)]
    rcases hstore _ heoldE with hsent | ⟨hs0, hsN⟩
    · -- sentinel passes through
      rw [hrelocdef, hsent, toUint32_neg_one, if_pos rfl]
      rw [if_neg (show ¬ ((0:Int) ≤ -1 ∧ (-1:Int) < (N : Int)) by norm_num),
        if_neg (show ¬ ((0:Int) ≤ -1 ∧ (-1:Int) < (N : Int)) by norm_num)]
    · -- a live slot is translated
      have hsnat : (storeO (relocEOld N offs ord P ptrO (coarseMapAt N S P) S e)).toNat
          < N := by omega
      have hu : toUint32 (storeO (relocEOld N offs ord P ptrO (coarseMapAt N S P) S e)) =
          (storeO (relocEOld N offs ord P ptrO (coarseMapAt N S P) S e)).toNat := by
        apply toUint32_of _ hs0
        have : (N : Int) ≤ 2 ^ 32 := by
          have : N ≤ 2 ^ 32 := by omega
          exact_mod_cast this
        omega
      obtain ⟨pt, hptN, hσpt⟩ := hperm.surj
        (storeO (relocEOld N offs ord P ptrO (coarseMapAt N S P) S e)).toNat hsnat
      have hident : identityMirror N WH (fun i => pidO (getOldID N offs ord i))
          (pidO (storeO (relocEOld N offs ord P ptrO (coarseMapAt N S P) S e)).toNat) =
          (pt : Int) := by
        rw [← hσpt]
        exact identityMirror_at N WH _ hdistN pt hptN
          (hprange _ (hperm.1 pt hptN))
      have hneq : ¬ ((storeO (relocEOld N offs ord P ptrO
          (coarseMapAt N S P) S e)).toNat = 4294967295) := by omega
      rw [hrelocdef, hu, if_neg hneq]
      rw [hident]
      rw [if_pos ⟨by exact_mod_cast Nat.zero_le pt, by exact_mod_cast hptN⟩,
        if_pos ⟨hs0, hsN⟩]
      have hptnat : ((pt : Nat) : Int).toNat = pt := Int.toNat_ofNat pt
      rw [hptnat, hσpt, hoow]
  -- assemble: the source-slot map is a permutation of the edge slots
  unfold logicalEdges
  apply Multiset.coe_eq_coe.mpr
  show List.Perm
    ((List.range E).filterMap (fun e =>
      if 0 ≤ relocate N E offs S ord P ptrO storeO pidO
          (identityMirror N WH (fun i => pidO (getOldID N offs ord i)))
          (coarseMapAt N S P) e ∧
        relocate N E offs S ord P ptrO storeO pidO
          (identityMirror N WH (fun i => pidO (getOldID N offs ord i)))
          (coarseMapAt N S P) e < (N : Int) then
        some (pidO (getOldID N offs ord (ownerOf N P e)),
          pidO (getOldID N offs ord ((relocate N E offs S ord P ptrO storeO pidO
            (identityMirror N WH (fun i => pidO (getOldID N offs ord i)))
            (coarseMapAt N S P) e).toNat)))
      else none))
    ((List.range E).filterMap (fun e =>
      if 0 ≤ storeO e ∧ storeO e < (N : Int) then
        some (pidO (ownerOf N ptrO e), pidO ((storeO e).toNat)) else none))
  have h1 : (List.range E).filterMap (fun e =>
      if 0 ≤ relocate N E offs S ord P ptrO storeO pidO
          (identityMirror N WH (fun i => pidO (getOldID N offs ord i)))
          (coarseMapAt N S P) e ∧
        relocate N E offs S ord P ptrO storeO pidO
          (identityMirror N WH (fun i => pidO (getOldID N offs ord i)))
          (coarseMapAt N S P) e < (N : Int) then
        some (pidO (getOldID N offs ord (ownerOf N P e)),
          pidO (getOldID N offs ord ((relocate N E offs S ord P ptrO storeO pidO
            (identityMirror N WH (fun i => pidO (getOldID N offs ord i)))
            (coarseMapAt N S P) e).toNat)))
      else none) =
      (List.range E).filterMap (fun e =>
        if 0 ≤ storeO (relocEOld N offs ord P ptrO (coarseMapAt N S P) S e) ∧
            storeO (relocEOld N offs ord P ptrO (coarseMapAt N S P) S e) <
              (N : Int) then
          some (pidO (ownerOf N ptrO
              (relocEOld N offs ord P ptrO (coarseMapAt N S P) S e)),
            pidO ((storeO
              (relocEOld N offs ord P ptrO (coarseMapAt N S P) S e)).toNat))
        else none) :=
    List.filterMap_congr (fun x hx => hpoint x (List.mem_range.mp hx))
  rw [h1]
  have h2 : (List.range E).filterMap (fun e =>
      if 0 ≤ storeO (relocEOld N offs ord P ptrO (coarseMapAt N S P) S e) ∧
          storeO (relocEOld N offs ord P ptrO (coarseMapAt N S P) S e) <
            (N : Int) then
        some (pidO (ownerOf N ptrO
            (relocEOld N offs ord P ptrO (coarseMapAt N S P) S e)),
          pidO ((storeO
            (relocEOld N offs ord P ptrO (coarseMapAt N S P) S e)).toNat))
      else none) =
      ((List.range E).map (relocEOld N offs ord P ptrO (coarseMapAt N S P) S)).filterMap
        (fun e => if 0 ≤ storeO e ∧ storeO e < (N : Int) then
          some (pidO (ownerOf N ptrO e), pidO ((storeO e).toNat)) else none) := by
    rw [List.filterMap_map]
    rfl
  rw [h2]
  exact List.Perm.filterMap _ (hΦ.map_range_perm)

theorem C1_edge_relocation_witness :
    logicalEdges 1 1 (ptrNew 1 0 2 (fun _ _ _ => 0) (fun i => ((min i 1 : Nat) : Int)))
      (relocate 1 1 0 128 (fun _ _ _ => 0)
        (ptrNew 1 0 2 (fun _ _ _ => 0) (fun i => ((min i 1 : Nat) : Int)))
        (fun i => ((min i 1 : Nat) : Int)) (fun _ => 0) (fun _ => 0)
        (identityMirror 1 1
          (fun i => (fun _ => 0) (getOldID 1 0 (fun _ _ _ => 0) i)))
        (coarseMapAt 1 128
          (ptrNew 1 0 2 (fun _ _ _ => 0) (fun i => ((min i 1 : Nat) : Int)))))
      (fun i => (fun _ => 0) (getOldID 1 0 (fun _ _ _ => 0) i)) =
    logicalEdges 1 1 (fun i => ((min i 1 : Nat) : Int)) (fun _ => 0) (fun _ => 0) :=
  C1_edge_relocation 1 1 0 2 128 1 (fun _ _ _ => 0)
    (fun i => ((min i 1 : Nat) : Int)) (fun _ => 0) (fun _ => 0)
    (by decide) (by decide) (by decide) (by decide)
    (fun c hc => absurd hc (by omega))
    (fun a b hab hb => by
      show ((min a 1 : Nat) : Int) ≤ ((min b 1 : Nat) : Int)
      exact_mod_cast (show min a 1 ≤ min b 1 by omega)
    )
    (by decide) (by decide) (by decide)
    (fun e he => Or.inr
      (show (0 : Int) ≤ (0 : Int) ∧ (0 : Int) < ((1 : Nat) : Int) by decide))
    (fun i hi j hj _ => by omega)
    (fun i hi => show (0 : Nat) < 1 by decide)
    (by decide)

/- ### C1, counterexample: the walk's 256-iteration cap can drop an edge.

A concrete valid engine state on `N = 384` particles and `E = 2` edges:
the sort moves the owner of edge `1` from old slot `301` to new slot
`257`, while the coarse map guess for edge `1` is slot `0`, so the
owner-refinement walk (capped at 256 iterations) stops one slot short,
reads a source index past the edge store, finds the `-1` sentinel and
drops the edge. -/

/-- The local sort permutation of each chunk in the C1 counterexample:
chunk 0 swaps locals 0 and 5, chunk 1 is the identity, chunk 2 swaps
0 with 46 and 1 with 45. -/
def permC (c l : Nat) : Nat :=
  if c = 0 then (if l = 0 then 5 else if l = 5 then 0 else l)
  else if c = 2 then
    (if l = 0 then 46 else if l = 46 then 0 else
     if l = 1 then 45 else if l = 45 then 1 else l)
  else l

/-- Four consecutive byte values packed into one 32-bit atlas component. -/
def packBytes (f : Nat → Nat) (base : Nat) : Nat :=
  f base + 256 * f (base + 1) + 65536 * f (base + 2) + 16777216 * f (base + 3)

/-- The counterexample's sort atlas: texel `t` of chunk `c`, component
`s`, packs the bytes of `permC c` at locals `16 t + 4 s + 0 .. 3`. -/
def ordC : Nat → Nat → Nat → Nat := fun t c s => packBytes (permC c) (16 * t + 4 * s)

/-- The counterexample's old CSR pointers: both edges owned by old slots
5 and 301 (`ptr` rises by one at 6 and at 302). -/
def ptrOldC (i : Nat) : Int :=
  (if 6 ≤ i then 1 else 0) + (if 302 ≤ i then 1 else 0)

/-- The counterexample's old edge store: edge 0 targets slot 5, edge 1
targets slot 301. -/
def storeC (e : Nat) : Int := if e = 0 then 5 else if e = 1 then 301 else -1

/-- The counterexample's PIDs: slot `i` carries PID `i`. -/
def pidC (i : Nat) : Nat := i

/-- Closed form of the new CSR pointers in the C1 counterexample. -/
def ptrNewC (p : Nat) : Int :=
  (if 1 ≤ p then 1 else 0) + (if 258 ≤ p then 1 else 0)

theorem relocWalkStep_congr (N : Nat) (p1 p2 : Nat → Int) (e p : Nat)
    (h : ∀ q, q ≤ N → p1 q = p2 q) :
    relocWalkStep N p1 e p = relocWalkStep N p2 e p := by
  unfold relocWalkStep relocCount
  by_cases hN : N ≤ p
  · rw [if_pos hN, if_pos hN]
  · rw [if_neg hN, if_neg hN, h p (by omega), h (p + 1) (by omega)]

theorem relocWalk_congr (N : Nat) (p1 p2 : Nat → Int) (e p0 : Nat)
    (h : ∀ q, q ≤ N → p1 q = p2 q) :
    relocWalk N p1 e p0 = relocWalk N p2 e p0 := by
  unfold relocWalk
  exact List.foldl_ext _ _ p0 (fun p j _ => relocWalkStep_congr N p1 p2 e p h)

theorem relocWalkStep_le (N : Nat) (ptrN : Nat → Int) (e p : Nat) (h : p ≤ N) :
    relocWalkStep N ptrN e p ≤ N := by
  unfold relocWalkStep
  split_ifs <;> omega

theorem relocWalk_le (N : Nat) (ptrN : Nat → Int) (e p0 : Nat) (h : p0 ≤ N) :
    relocWalk N ptrN e p0 ≤ N := by
  unfold relocWalk
  have key : ∀ l : List Nat, ∀ q, q ≤ N →
      l.foldl (fun p _ => relocWalkStep N ptrN e p) q ≤ N := by
    intro l
    induction l with
    | nil => intro q hq; exact hq
    | cons a l ih =>
      intro q hq
      exact ih _ (relocWalkStep_le N ptrN e q hq)
  exact key _ p0 h

theorem getStart_congr (N : Nat) (p1 p2 : Nat → Int) (idx : Nat)
    (h : ∀ q, q ≤ N → p1 q = p2 q) : getStart N p1 idx = getStart N p2 idx := by
  unfold getStart
  by_cases hN : N ≤ idx
  · rw [if_pos hN, if_pos hN]
  · rw [if_neg hN, if_neg hN, h idx (by omega)]

theorem coarseStep_eq (N : Nat) (ptr : Nat → Int) (t : Int) (lh : Nat × Nat) :
    coarseStep N ptr t lh =
      if (lh.1 + lh.2) / 2 = lh.1 then lh
      else if getStart N ptr ((lh.1 + lh.2) / 2) ≤ t then ((lh.1 + lh.2) / 2, lh.2)
      else (lh.1, (lh.1 + lh.2) / 2) := rfl

theorem coarseStep_congr (N : Nat) (p1 p2 : Nat → Int) (t : Int) (lh : Nat × Nat)
    (h : ∀ q, q ≤ N → p1 q = p2 q) :
    coarseStep N p1 t lh = coarseStep N p2 t lh := by
  rw [coarseStep_eq, coarseStep_eq, getStart_congr N p1 p2 ((lh.1 + lh.2) / 2) h]

theorem coarseSearch_congr (N : Nat) (p1 p2 : Nat → Int) (t : Int)
    (h : ∀ q, q ≤ N → p1 q = p2 q) :
    coarseSearch N p1 t = coarseSearch N p2 t := by
  unfold coarseSearch
  rw [List.foldl_ext _ _ ((0, N) : Nat × Nat)
    (fun lh j _ => coarseStep_congr N p1 p2 t lh h)]

theorem coarseMapAt_congr (N S : Nat) (p1 p2 : Nat → Int) (k : Nat)
    (h : ∀ q, q ≤ N → p1 q = p2 q) :
    coarseMapAt N S p1 k = coarseMapAt N S p2 k := by
  unfold coarseMapAt
  exact coarseSearch_congr N p1 p2 _ h

theorem coarseStep_fst_le (N : Nat) (ptr : Nat → Int) (t : Int) (lh : Nat × Nat)
    (h1 : lh.1 ≤ N) (h2 : lh.2 ≤ N) :
    (coarseStep N ptr t lh).1 ≤ N ∧ (coarseStep N ptr t lh).2 ≤ N := by
  rw [coarseStep_eq]
  split_ifs <;> (try dsimp only) <;> omega

theorem coarseSearch_le (N : Nat) (ptr : Nat → Int) (t : Int) :
    coarseSearch N ptr t ≤ N := by
  unfold coarseSearch
  have key : ∀ l : List Nat, ∀ lh : Nat × Nat, lh.1 ≤ N → lh.2 ≤ N →
      (l.foldl (fun lh _ => coarseStep N ptr t lh) lh).1 ≤ N ∧
      (l.foldl (fun lh _ => coarseStep N ptr t lh) lh).2 ≤ N := by
    intro l
    induction l with
    | nil => intro lh h1 h2; exact ⟨h1, h2⟩
    | cons a l ih =>
      intro lh h1 h2
      exact ih _ (coarseStep_fst_le N ptr t lh h1 h2).1
        (coarseStep_fst_le N ptr t lh h1 h2).2
  exact (key _ (0, N) (Nat.zero_le N) (le_refl N)).1

theorem ownerOf_congr (N : Nat) (p1 p2 : Nat → Int) (e : Nat)
    (h : ∀ q, q ≤ N → p1 q = p2 q) : ownerOf N p1 e = ownerOf N p2 e := by
  unfold ownerOf
  exact List.foldl_ext _ _ 0 (fun acc p hp => by
    rw [h p (by have := List.mem_range.mp hp; omega)])

theorem countC_eval : ∀ i, i < 512 →
    KEdgePrefixSum.count 384 0 ordC ptrOldC i =
      (if i = 0 then (1 : Int) else 0) + (if i = 257 then 1 else 0) := by decide

theorem ptrNewC_agree : ∀ q, q ≤ 384 → ptrNew 384 0 512 ordC ptrOldC q = ptrNewC q := by
  intro q hq
  rw [ptrNew_formula 384 0 512 ordC ptrOldC q (by omega)]
  rw [Finset.sum_congr rfl (fun i hi => countC_eval i
    (by have := Finset.mem_range.mp hi; omega))]
  rw [Finset.sum_add_distrib]
  simp only [Finset.sum_ite_eq', Finset.mem_range]
  unfold ptrNewC
  split_ifs <;> omega

theorem permOn_congr {f g : Nat → Nat} {n : Nat} (h : ∀ i, i < n → f i = g i)
    (hg : PermOn g n) : PermOn f n := by
  constructor
  · intro i hi
    rw [h i hi]
    exact hg.1 i hi
  · intro i hi j hj hij
    rw [h i hi, h j hj] at hij
    exact hg.2 i hi j hj hij

theorem atlasByte_ordC (c : Nat) (hc : c < 3) : ∀ l, l < 128 →
    atlasByte ordC c l = permC c l := by
  interval_cases c <;> decide

theorem permC_permOn (c : Nat) (hc : c < 3) : PermOn (permC c) 128 := by
  interval_cases c <;> exact ⟨by decide, by decide⟩

/-- Claim C1, counterexample: a valid engine state (per-chunk sort atlas a
permutation, `ptrOld` monotone with `ptr[0] = 0` and `ptr[N] = E`,
pairwise-distinct PIDs, every edge-store entry a physical slot in
`[0, N)` or the sentinel `-1`) on which the tick's relocation does NOT
preserve the multiset of logical edges: the sort moves edge 1's owner
257 slots past its coarse-map guess, the 256-iteration walk cap stops
one slot short, the kernel reads a source index past the edge store,
finds `-1` and drops the edge. -/
theorem C1_counterexample :
    (∀ c, c < (384 - 0) / 128 → PermOn (atlasByte ordC c) 128) ∧
    (∀ a b, a ≤ b → b ≤ 384 → ptrOldC a ≤ ptrOldC b) ∧
    ptrOldC 0 = 0 ∧ ptrOldC 384 = 2 ∧
    (∀ e, e < 2 → storeC e = -1 ∨ (0 ≤ storeC e ∧ storeC e < (384 : Int))) ∧
    (∀ i, i < 384 → ∀ j, j < 384 → pidC i = pidC j → i = j) ∧
    (∀ i, i < 384 → pidC i < 384) ∧
    logicalEdges 384 2 (ptrNew 384 0 512 ordC ptrOldC)
        (relocate 384 2 0 128 ordC (ptrNew 384 0 512 ordC ptrOldC) ptrOldC storeC
          pidC (identityMirror 384 384 (fun i => pidC (getOldID 384 0 ordC i)))
          (coarseMapAt 384 128 (ptrNew 384 0 512 ordC ptrOldC)))
        (fun i => pidC (getOldID 384 0 ordC i)) ≠
      logicalEdges 384 2 ptrOldC storeC pidC := by
  refine ⟨?_, ?_, by decide, by decide, by decide, ?_, by decide, ?_⟩
  · intro c hc
    exact permOn_congr (atlasByte_ordC c (by omega)) (permC_permOn c (by omega))
  · intro a b hab hb
    unfold ptrOldC
    split_ifs <;> omega
  · intro i _ j _ h
    exact h
  · have hcoarse : ∀ k, coarseMapAt 384 128 (ptrNew 384 0 512 ordC ptrOldC) k =
        coarseMapAt 384 128 ptrNewC k :=
      fun k => coarseMapAt_congr 384 128 _ ptrNewC k ptrNewC_agree
    have heold : ∀ e, relocEOld 384 0 ordC (ptrNew 384 0 512 ordC ptrOldC) ptrOldC
        (coarseMapAt 384 128 (ptrNew 384 0 512 ordC ptrOldC)) 128 e =
        relocEOld 384 0 ordC ptrNewC ptrOldC (coarseMapAt 384 128 ptrNewC) 128 e := by
      intro e
      unfold relocEOld
      rw [hcoarse (e / 128)]
      rw [relocWalk_congr 384 _ ptrNewC e _ ptrNewC_agree]
      rw [ptrNewC_agree (relocWalk 384 ptrNewC e (coarseMapAt 384 128 ptrNewC (e / 128)))
        (relocWalk_le 384 ptrNewC e (coarseMapAt 384 128 ptrNewC (e / 128))
          (coarseSearch_le 384 ptrNewC _))]
    have hreloc : ∀ e, relocate 384 2 0 128 ordC (ptrNew 384 0 512 ordC ptrOldC)
        ptrOldC storeC pidC
        (identityMirror 384 384 (fun i => pidC (getOldID 384 0 ordC i)))
        (coarseMapAt 384 128 (ptrNew 384 0 512 ordC ptrOldC)) e =
        relocate 384 2 0 128 ordC ptrNewC ptrOldC storeC pidC
        (identityMirror 384 384 (fun i => pidC (getOldID 384 0 ordC i)))
        (coarseMapAt 384 128 ptrNewC) e := by
      intro e
      unfold relocate
      rw [heold e]
    have howner : ∀ e, ownerOf 384 (ptrNew 384 0 512 ordC ptrOldC) e =
        ownerOf 384 ptrNewC e :=
      fun e => ownerOf_congr 384 _ ptrNewC e ptrNewC_agree
    have hlog : logicalEdges 384 2 (ptrNew 384 0 512 ordC ptrOldC)
        (relocate 384 2 0 128 ordC (ptrNew 384 0 512 ordC ptrOldC) ptrOldC storeC
          pidC (identityMirror 384 384 (fun i => pidC (getOldID 384 0 ordC i)))
          (coarseMapAt 384 128 (ptrNew 384 0 512 ordC ptrOldC)))
        (fun i => pidC (getOldID 384 0 ordC i)) =
        logicalEdges 384 2 ptrNewC
        (relocate 384 2 0 128 ordC ptrNewC ptrOldC storeC pidC
          (identityMirror 384 384 (fun i => pidC (getOldID 384 0 ordC i)))
          (coarseMapAt 384 128 ptrNewC))
        (fun i => pidC (getOldID 384 0 ordC i)) := by
      unfold logicalEdges
      exact congrArg _ (List.filterMap_congr (fun e he => by
        simp only [hreloc, howner]))
    rw [hlog]
    decide
